import Mathlib

/-!
# Verification of the LLM-Automation-Flow-Builder core

A shallow embedding of the graph-configuration compiler of the
LLM-Automation-Flow-Builder repository:

* `compileFlow`    embeds `generateFlowJson`   (src/utils/flowUtils.ts),
* `restoreFlow`    embeds `restoreFlowFromJson` (src/utils/flowUtils.ts),
* `flowWarnings`   embeds the validator `flowWarnings` memo of the app component,
* `onConnect` / `validateConnections` embed the connect handler of the app component.

JavaScript-value conventions used throughout the embedding:

* optional object fields become `Option`;
* a JS number that the code can set to `NaN` (the result of `parseInt`) is
  modelled by `JsNum` (an integer or NaN); fields that only ever hold plain
  integers are `Int`;
* JS truthiness: a string is truthy iff nonempty, a number is truthy iff it is
  neither `0` nor `NaN`, an optional field is falsy when absent;
* strings are Lean `String`s; the string operations the code uses
  (`split`, `join`, `trim`, `endsWith`, template literals, `parseInt`) are
  modelled by executable char-list functions below.
-/

namespace FlowBuilder

/-- A JavaScript number as produced by `parseInt`: an integer or `NaN`. -/
inductive JsNum : Type
  | nan : JsNum
  | int (i : Int) : JsNum
deriving DecidableEq, Repr

/-- JS truthiness of a number: `0` and `NaN` are falsy. -/
def JsNum.truthy : JsNum → Bool
  | .nan => false
  | .int i => i != 0

/-- JS truthiness of an optional number-valued field. -/
def jsNumFieldTruthy : Option JsNum → Bool
  | none => false
  | some a => a.truthy

/-- JS truthiness of an optional string-valued field. -/
def strFieldTruthy : Option String → Bool
  | none => false
  | some s => s != ""

/-- `if (x) y = x` for an optional string field: keep the value only if truthy. -/
def keepTruthyStr : Option String → Option String
  | none => none
  | some s => if s = "" then none else some s

/-! ## Decimal rendering and parsing (JS `${n}` and `parseInt(s, 10)`) -/

/-- The decimal digits of `n` (most-significant first), prepended to `acc`;
`fuel`-guarded so that the kernel can evaluate it (any `fuel ≥ n` is enough).
Models how JS renders a nonnegative integer. -/
def natDigits : Nat → Nat → List Char → List Char
  | 0, _, acc => acc
  | _ + 1, 0, acc => acc
  | fuel + 1, n + 1, acc =>
      natDigits fuel ((n + 1) / 10) (Nat.digitChar ((n + 1) % 10) :: acc)

/-- Decimal rendering of a natural number, as JS renders it. -/
def natRepr (n : Nat) : List Char :=
  if n = 0 then ['0'] else natDigits n n []

/-- Decimal rendering of an integer, as JS template literals render an
integral number. -/
def intRepr (i : Int) : List Char :=
  if i < 0 then '-' :: natRepr i.natAbs else natRepr i.toNat

/-- Rendering of a `JsNum` (JS renders `NaN` as the string `"NaN"`). -/
def JsNum.render : JsNum → List Char
  | .nan => ['N', 'a', 'N']
  | .int i => intRepr i

/-- JS whitespace for `trim` / `parseInt` purposes (the characters that can
actually occur in the strings this code manipulates). -/
def isWsChar (c : Char) : Bool :=
  c = ' ' || c = '\t' || c = '\n' || c = '\r'

/-- `String.prototype.trim`. -/
def jsTrim (l : List Char) : List Char :=
  ((l.dropWhile isWsChar).reverse.dropWhile isWsChar).reverse

/-- Value of a list of decimal digit characters. -/
def digitsVal (l : List Char) : Nat :=
  l.foldl (fun a c => 10 * a + (c.toNat - 48)) 0

/-- Read an optional sign and the longest prefix of decimal digits (the part
of `parseInt` after whitespace skipping). -/
def parseSigned : List Char → JsNum
  | [] => .nan
  | c :: r =>
      if c = '-' then
        let ds := r.takeWhile Char.isDigit
        if ds = [] then .nan else .int (-(digitsVal ds : Int))
      else if c = '+' then
        let ds := r.takeWhile Char.isDigit
        if ds = [] then .nan else .int (digitsVal ds : Int)
      else
        let ds := (c :: r).takeWhile Char.isDigit
        if ds = [] then .nan else .int (digitsVal ds : Int)

/-- `parseInt(s, 10)`: skip leading whitespace, read an optional sign and the
longest prefix of decimal digits; `NaN` when there is no digit. -/
def parseIntChars (l : List Char) : JsNum :=
  parseSigned (l.dropWhile isWsChar)

/-! ## `split` and `join` -/

/-- Worker for `String.prototype.split` with a one-character separator. -/
def splitGo (sep : Char) : List Char → List Char → List (List Char)
  | [], acc => [acc.reverse]
  | c :: r, acc =>
      if c = sep then acc.reverse :: splitGo sep r [] else splitGo sep r (c :: acc)

/-- `s.split(sep)` for a one-character separator. -/
def jsSplit (sep : Char) (l : List Char) : List (List Char) :=
  splitGo sep l []

/-- `tokens.join(sep)` for a one-character separator. -/
def joinSep (sep : Char) : List (List Char) → List Char
  | [] => []
  | [t] => t
  | t :: ts => t ++ sep :: joinSep sep ts

/-! ## Stable sorting

`Array.prototype.sort` with comparator `(a, b) => a - b` is a stable
ascending sort (stability is required by the language spec).  All stable
sorts agree, so it is modelled by stable insertion from the left: each
element is inserted after every already-placed element that compares
`le` to it. -/

/-- Insert `x` after every element `y` of the (sorted) list with `le y x`. -/
def stableInsert {α : Type} (le : α → α → Bool) (x : α) : List α → List α
  | [] => [x]
  | y :: ys => if le y x then y :: stableInsert le x ys else x :: y :: ys

/-- Stable ascending sort by `le` (the model of `Array.prototype.sort`). -/
def stableSort {α : Type} (le : α → α → Bool) (l : List α) : List α :=
  l.foldl (fun acc x => stableInsert le x acc) []

/-! ## The data model (src/types.ts) -/

/-- `StepType` of src/types.ts. -/
inductive StepType : Type
  | sql | llm | concat
deriving DecidableEq, Repr

/-- `TimeGrain` of src/types.ts (string enum values `"month"`, `"day"`). -/
inductive TimeGrain : Type
  | month | day
deriving DecidableEq, Repr

/-- The string value of a `TimeGrain`. -/
def TimeGrain.str : TimeGrain → List Char
  | .month => ['m', 'o', 'n', 't', 'h']
  | .day => ['d', 'a', 'y']

/-- `TimeMode` of src/types.ts. -/
inductive TimeMode : Type
  | closed_open | closed_closed | open_closed | open_open
deriving DecidableEq, Repr

/-- `FlowNodeData` of src/types.ts (per-node editable data). -/
structure FlowNodeData : Type where
  label : String
  sequence_order : Int
  type : Option StepType := none
  value : String
  append_iteration_column : Option String := none
  append_time_column : Option String := none
  time_amount : Option JsNum := none
  time_grain : Option TimeGrain := none
  time_mode : Option TimeMode := none
  reference_date : Option String := none
  llm_model : Option String := none
  max_retry : Option Int := none
  isStartNode : Bool := false
deriving DecidableEq, Repr

/-- A React-Flow node as the store keeps it (only the fields the core logic
reads: layout-only fields are omitted). -/
structure FlowNode : Type where
  id : String
  data : FlowNodeData
deriving DecidableEq, Repr

/-- A React-Flow edge (only the fields the core logic reads; styling fields
are omitted). -/
structure FlowEdge : Type where
  id : String
  source : String
  target : String
deriving DecidableEq, Repr

/-- An entry of an imported `depends_on` field, which may duck-type numbers
and strings inside a list. -/
inductive DepItem : Type
  | num (i : Int)
  | str (s : String)
deriving DecidableEq, Repr

/-- An imported `depends_on` value: the code accepts a comma string, a bare
number, or a list of numbers/strings. `generateFlowJson` always emits the
string form. -/
inductive DependsOn : Type
  | str (s : String)
  | num (i : Int)
  | list (l : List DepItem)
deriving DecidableEq, Repr

/-- `FlowStep` of src/types.ts: one record of the exported document. -/
structure FlowStep : Type where
  sequence_order : Int
  sequence_name : String
  type : Option StepType := none
  value : String
  depends_on : Option DependsOn := none
  max_retry : Option Int := none
  append_iteration_column : Option String := none
  append_time_column : Option String := none
  time_range : Option String := none
  time_grain : Option TimeGrain := none
  time_mode : Option TimeMode := none
  reference_date : Option String := none
  llm_model : Option String := none
deriving DecidableEq, Repr

/-- `FlowJson` of src/types.ts: the exported document. `delivery_config` is
never produced by the compiler and never read by the reconstructor, so it is
omitted. -/
structure FlowJson : Type where
  flow_name : String
  iterate_flow : Bool
  iterable_steps : Option (List Int) := none
  get_iterate_list : Option String := none
  steps : List FlowStep
deriving DecidableEq, Repr

/-- The global settings held by the app component and passed to
`generateFlowJson`. -/
structure GlobalConfig : Type where
  iterateFlow : Bool
  getIterateList : String
  flowName : String
deriving DecidableEq, Repr

/-! ## The compiler: `generateFlowJson` (src/utils/flowUtils.ts) -/

/-- The comparison the compiler sorts step nodes with
(`(a, b) => a.data.sequence_order - b.data.sequence_order`, a stable
ascending sort). -/
def nodeLe (a b : FlowNode) : Bool :=
  a.data.sequence_order ≤ b.data.sequence_order

/-- The ascending sorted list of sequence_orders of the direct non-start
predecessors of `node` (one entry per node of `nodes` whose id sources an
incoming dependency edge), as `generateFlowJson` computes it before joining. -/
def dependsOnOrdersOf (nodes : List FlowNode) (edges : List FlowEdge)
    (node : FlowNode) : List Int :=
  let sourceIds := (edges.filter fun e => e.target == node.id && e.source != "start").map (·.source)
  stableSort (· ≤ ·) ((nodes.filter fun n => sourceIds.contains n.id && !n.data.isStartNode).map
    (·.data.sequence_order))

/-- The `time_range` string `` `last_${amount}_${grain}s` ``. -/
def timeRangeStr (a : JsNum) (g : TimeGrain) : String :=
  String.mk ("last_".data ++ a.render ++ '_' :: g.str ++ ['s'])

/-- One `StepRecord` of the compiled document, as `generateFlowJson` builds it
from a node. -/
def buildStep (nodes : List FlowNode) (edges : List FlowEdge)
    (node : FlowNode) : FlowStep :=
  let dordersStr := joinSep ',' ((dependsOnOrdersOf nodes edges node).map intRepr)
  let isSql := node.data.type = some .sql
  let atcSet := isSql ∧ strFieldTruthy node.data.append_time_column
  { sequence_order := node.data.sequence_order
    sequence_name := node.data.label
    type := some (node.data.type.getD .sql)
    value := node.data.value
    depends_on := if dordersStr = [] then none else some (.str (String.mk dordersStr))
    max_retry :=
      match node.data.max_retry with
      | some m => if m = 0 then none else some m
      | none => none
    append_iteration_column :=
      if isSql then keepTruthyStr node.data.append_iteration_column else none
    append_time_column :=
      if atcSet then node.data.append_time_column else none
    time_range :=
      match node.data.time_amount, node.data.time_grain with
      | some a, some g =>
          if atcSet ∧ a.truthy then some (timeRangeStr a g) else none
      | _, _ => none
    time_grain := if atcSet ∧ node.data.time_grain.isSome then node.data.time_grain else none
    time_mode := if atcSet ∧ node.data.time_mode.isSome then node.data.time_mode else none
    reference_date := if isSql then keepTruthyStr node.data.reference_date else none
    llm_model := if node.data.type = some .llm then keepTruthyStr node.data.llm_model else none }

/-- `generateFlowJson`: compile the graph plus global settings into a
document. -/
def compileFlow (nodes : List FlowNode) (edges : List FlowEdge)
    (cfg : GlobalConfig) : FlowJson :=
  let stepNodes := nodes.filter fun n => !n.data.isStartNode
  let sortedSteps := stableSort nodeLe stepNodes
  let iterable := (sortedSteps.filter fun n =>
      edges.any fun e => e.source == "start" && e.target == n.id).map
      (·.data.sequence_order)
  { flow_name := cfg.flowName
    iterate_flow := cfg.iterateFlow
    iterable_steps := if cfg.iterateFlow then some iterable else none
    get_iterate_list := if cfg.iterateFlow then some cfg.getIterateList else none
    steps := sortedSteps.map (buildStep nodes edges) }

/-! ## The reconstructor: `restoreFlowFromJson` (src/utils/flowUtils.ts) -/

/-- The start node `restoreFlowFromJson` synthesizes. -/
def startNode : FlowNode :=
  { id := "start"
    data := { label := "Start / Configuration", sequence_order := 0, value := ""
              isStartNode := true } }

/-- The id `` `node-${step.sequence_order}-${Date.now() + Math.random()}` ``;
the time/random uniquifier is modelled by the creation index of the node,
which keeps the ids pairwise distinct just as the code relies on. -/
def mkId (i : Nat) (o : Int) : String :=
  String.mk ("node-".data ++ intRepr o ++ '-' :: natRepr i)

/-- `sequenceToIdMap`: the map assigns each `sequence_order` the id of the
*last* step record carrying it (later `forEach` iterations overwrite earlier
ones). `k` is the index of the head of `steps` in the whole document. -/
def seqLookup (k : Nat) (steps : List FlowStep) (o : Int) : Option String :=
  match steps with
  | [] => none
  | s :: rest =>
      match seqLookup (k + 1) rest o with
      | some id => some id
      | none => if s.sequence_order = o then some (mkId k s.sequence_order) else none

/-- Known grain values (`Object.values(TimeGrain).includes(grainStr)`). -/
def parseGrain (l : List Char) : Option TimeGrain :=
  if l = "month".data then some .month
  else if l = "day".data then some .day
  else none

/-- The reverse parse of `time_range` (and the bare `time_grain` fallback)
performed while rebuilding a node. Returns `(time_amount, time_grain)`. -/
def parseTimeFields (s : FlowStep) : Option JsNum × Option TimeGrain :=
  match s.time_range with
  | some tr =>
      if tr = "" then (none, s.time_grain)
      else
        let parts := jsSplit '_' tr.data
        if parts.length ≥ 3 then
          let grainStr0 := parts.getD 2 []
          let grainStr := if grainStr0.getLast? = some 's' then grainStr0.dropLast else grainStr0
          (some (parseIntChars (parts.getD 1 [])), parseGrain grainStr)
        else (none, none)
  | none => (none, s.time_grain)

/-- One node rebuilt from a step record (`i` is its index among the
records). -/
def mkNode (i : Nat) (s : FlowStep) : FlowNode :=
  let tf := parseTimeFields s
  { id := mkId i s.sequence_order
    data := { label := if s.sequence_name = ""
                       then String.mk ("Step ".data ++ intRepr s.sequence_order)
                       else s.sequence_name
              sequence_order := s.sequence_order
              type := s.type
              value := s.value
              append_iteration_column := s.append_iteration_column
              append_time_column := s.append_time_column
              time_amount := tf.1
              time_grain := tf.2
              time_mode := s.time_mode
              reference_date := s.reference_date
              llm_model := s.llm_model
              max_retry := s.max_retry
              isStartNode := false } }

/-- The step nodes rebuilt from the records, starting at index `k`. -/
def buildNodes (k : Nat) : List FlowStep → List FlowNode
  | [] => []
  | s :: rest => mkNode k s :: buildNodes (k + 1) rest

/-- Normalisation of a `depends_on` value into the `sources` number list
(string comma-split, bare number, or list of numbers/strings). -/
def parseDeps : DependsOn → List JsNum
  | .str s => (jsSplit ',' s.data).map fun t => parseIntChars (jsTrim t)
  | .num i => [.int i]
  | .list l => l.map fun it =>
      match it with
      | .num i => parseIntChars (intRepr i)
      | .str s => parseIntChars s.data

/-- A dependency edge (`edge-${sourceId}-${targetId}`). -/
def depEdgeFor (sid tid : String) : FlowEdge :=
  { id := "edge-" ++ sid ++ "-" ++ tid, source := sid, target := tid }

/-- A start edge (`edge-start-${targetId}`). -/
def startEdgeFor (tid : String) : FlowEdge :=
  { id := "edge-start-" ++ tid, source := "start", target := tid }

/-- The iteration edges (`iterate_flow` with an `iterable_steps` list: one
start edge per resolvable entry, unresolvable entries skipped silently). -/
def iterEdges (json : FlowJson) : List FlowEdge :=
  match json.iterable_steps with
  | some l =>
      if json.iterate_flow then
        l.filterMap fun seq => (seqLookup 0 json.steps seq).map startEdgeFor
      else []
  | none => []

/-- The dependency / fallback edges generated while processing one step
record. -/
def stepEdges (json : FlowJson) (s : FlowStep) : List FlowEdge :=
  let targetId? := seqLookup 0 json.steps s.sequence_order
  match s.depends_on with
  | some dep =>
      (parseDeps dep).filterMap fun jn =>
        match jn with
        | .nan => none
        | .int o =>
            match seqLookup 0 json.steps o, targetId? with
            | some sid, some tid => some (depEdgeFor sid tid)
            | _, _ => none
  | none =>
      if s.sequence_order = 1 then
        let isIterated := json.iterate_flow && (json.iterable_steps.getD []).contains 1
        if isIterated then []
        else [startEdgeFor (targetId?.getD "")]
      else
        match seqLookup 0 json.steps (s.sequence_order - 1), targetId? with
        | some sid, some tid => [depEdgeFor sid tid]
        | _, _ => []

/-- The value `restoreFlowFromJson` returns. -/
structure RestoredFlow : Type where
  nodes : List FlowNode
  edges : List FlowEdge
  flowName : String
  iterateFlow : Bool
  getIterateList : String
deriving DecidableEq, Repr

/-- `restoreFlowFromJson`: rebuild the graph and the global settings from a
document. -/
def restoreFlow (json : FlowJson) : RestoredFlow :=
  { nodes := startNode :: buildNodes 0 json.steps
    edges := iterEdges json ++ json.steps.flatMap (stepEdges json)
    flowName := if json.flow_name = "" then "Imported Flow" else json.flow_name
    iterateFlow := json.iterate_flow
    getIterateList := json.get_iterate_list.getD "" }

/-- The global configuration the reconstructor hands back to the app. -/
def RestoredFlow.config (r : RestoredFlow) : GlobalConfig :=
  { iterateFlow := r.iterateFlow, getIterateList := r.getIterateList
    flowName := r.flowName }

/-! ## The validator: `duplicateOrders` and `flowWarnings` (app component) -/

/-- `orders.filter((item, index) => orders.indexOf(item) !== index)` keeps the
entries whose first occurrence is strictly earlier. -/
def dupFilterGo (seen : List Int) : List Int → List Int
  | [] => []
  | x :: rest =>
      if seen.contains x then x :: dupFilterGo (x :: seen) rest
      else dupFilterGo (x :: seen) rest

/-- `duplicateOrders`: sequence_orders (of *all* nodes, the start node
included) that repeat an earlier node's order. -/
def duplicateOrdersList (nodes : List FlowNode) : List Int :=
  dupFilterGo [] (nodes.map (·.data.sequence_order))

/-! ### Placeholder extraction

The validator extracts tags with `/\{\{(.*?)\}\}/g`: at each `{{`, the lazy
body matches the shortest run of non-newline characters ending at a `}}`;
scanning resumes after that `}}`. -/

/-- Find the closing `}}` of a match attempt: the accumulated body (reversed)
and the rest of the input, or `none` when a line break or the end of input
intervenes (the `.` of the pattern does not match line terminators). -/
def findClose : List Char → List Char → Option (List Char × List Char)
  | [], _ => none
  | c :: r, acc =>
      if c = '}' ∧ r.head? = some '}' then some (acc.reverse, r.tail)
      else if c = '\n' ∨ c = '\r' then none
      else findClose r (c :: acc)

/-- The scan of the whole content string, `fuel`-guarded so that the kernel
can evaluate it (every step strictly shortens the input, so any
`fuel ≥ length` is enough). -/
def extractTagsF : Nat → List Char → List (List Char)
  | 0, _ => []
  | fuel + 1, [] => []
  | fuel + 1, c1 :: rest1 =>
      if c1 = '{' ∧ rest1.head? = some '{' then
        match findClose rest1.tail [] with
        | some (tag, rest') => tag :: extractTagsF fuel rest'
        | none => extractTagsF fuel ('{' :: rest1.tail)
      else extractTagsF fuel rest1

/-- All placeholder bodies of a content string, in match order. -/
def extractTags (l : List Char) : List (List Char) :=
  extractTagsF l.length l

/-- `[...new Set(matches)]`: de-duplication keeping first occurrences. -/
def dedupKeepFirst (seen : List (List Char)) : List (List Char) → List (List Char)
  | [] => []
  | x :: rest =>
      if seen.contains x then dedupKeepFirst seen rest
      else x :: dedupKeepFirst (x :: seen) rest

/-- `"Step ${o}: "`, the prefix of every per-node warning. -/
def stepPrefix (o : Int) : List Char :=
  "Step ".data ++ intRepr o ++ ": ".data

/-- The placeholder diagnostic
`` `Step ${o}: {{${tag}}} used but Step ${n} is not connected` ``. -/
def phWarn (o : Int) (tag : List Char) (n : Int) : String :=
  String.mk (stepPrefix o ++ "\x7b\x7b".data ++ tag ++
    "\x7d\x7d used but Step ".data ++ intRepr n ++ " is not connected".data)

/-- The per-node checks of `flowWarnings` (empty SQL, incomplete time
configuration, placeholder scan), in source order. -/
def nodeWarnings (nodes : List FlowNode) (edges : List FlowEdge)
    (iterateFlow : Bool) (node : FlowNode) : List String :=
  if node.data.isStartNode then [] else
  let o := node.data.sequence_order
  let w1 := if node.data.type = some .sql ∧ jsTrim node.data.value.data = []
            then [String.mk (stepPrefix o ++ "SQL Query is empty".data)] else []
  let w2 := if node.data.type = some .sql ∧ strFieldTruthy node.data.append_time_column ∧
               (¬ jsNumFieldTruthy node.data.time_amount ∨
                node.data.time_grain = none ∨ node.data.time_mode = none)
            then [String.mk (stepPrefix o ++ "Incomplete Time Configuration".data)] else []
  let sourceIds := (edges.filter fun e => e.target == node.id).map (·.source)
  let predecessors := nodes.filter fun n => sourceIds.contains n.id
  let isConnectedToStart := sourceIds.contains "start"
  let tags := dedupKeepFirst [] (extractTags node.data.value.data)
  let w3 := tags.flatMap fun tag =>
    if tag = "iteration_value".data then
      if !iterateFlow then
        [String.mk (stepPrefix o ++ "\x7b\x7biteration_value\x7d\x7d requires Iterated Flow".data)]
      else if !isConnectedToStart then
        [String.mk (stepPrefix o ++ "\x7b\x7biteration_value\x7d\x7d used but not connected to Start".data)]
      else []
    else if "step_".data.isPrefixOf tag then
      match parseIntChars (tag.drop 5) with
      | .nan => []
      | .int n =>
          if predecessors.any fun p => p.data.sequence_order == n then []
          else [phWarn o tag n]
    else []
  w1 ++ w2 ++ w3

/-- The reducer `(prev, cur) => prev.sequence_order > cur.sequence_order ? prev : cur`
selecting the "true last node by sequence". -/
def pickLater (p c : FlowNode) : FlowNode :=
  if p.data.sequence_order > c.data.sequence_order then p else c

/-- The terminal-type rule: with at least one step node, reduce to the node
of maximal sequence_order (ties resolved to the later one) and flag it when
its kind is not CONCAT. -/
def terminalWarning : List FlowNode → List String
  | [] => []
  | h :: t =>
      let lastNode := (h :: t).foldl pickLater h
      if lastNode.data.type ≠ some .concat then ["Flow must end with CONCAT"] else []

/-- `flowWarnings`: the full advisory diagnostic list, in source order
(global rules first, then the per-node loop in stored node order). -/
def flowWarnings (nodes : List FlowNode) (edges : List FlowEdge)
    (iterateFlow : Bool) (getIterateList : String) : List String :=
  let g1 := if (duplicateOrdersList nodes).length > 0
            then ["Duplicate Sequence # Detected"] else []
  let g2 := if ¬ iterateFlow ∧ (edges.filter fun e => e.source == "start").length > 1
            then ["Invalid Start Connection (Single path only)"] else []
  let g3 := terminalWarning (nodes.filter fun n => !n.data.isStartNode)
  let g4 := if iterateFlow ∧ jsTrim getIterateList.data = []
            then ["Iteration Query Empty"] else []
  g1 ++ g2 ++ g3 ++ g4 ++ nodes.flatMap (nodeWarnings nodes edges iterateFlow)

/-! ## The connect handler: `validateConnections` and `onConnect` -/

/-- `validateConnections`: the only mutation-time check — a second
start-sourced edge is rejected while `iterateFlow` is off. -/
def validateConnections (iterateFlow : Bool) (source : String)
    (edges : List FlowEdge) : Bool :=
  if source == "start" then
    ¬ (¬ iterateFlow ∧ (edges.filter fun e => e.source == "start").length > 0)
  else true

/-- React Flow's `addEdge` (external library): appends the new edge unless an
edge with the same source and target is already present. -/
def addEdgeRF (e : FlowEdge) (edges : List FlowEdge) : List FlowEdge :=
  if edges.any fun x => x.source == e.source && x.target == e.target then edges
  else edges ++ [e]

/-- `onConnect`: the new edge set after a connect gesture from `source` to
`target`. -/
def onConnect (iterateFlow : Bool) (source target : String)
    (edges : List FlowEdge) : List FlowEdge :=
  if validateConnections iterateFlow source edges then
    addEdgeRF { id := "reactflow__edge-" ++ source ++ "-" ++ target
                source := source, target := target } edges
  else edges

/-- Spec-side (following the spec's words): the direct non-start predecessors
of `node` — each node of the graph, counted once, with an edge into `node`. -/
def specPredecessors (nodes : List FlowNode) (edges : List FlowEdge)
    (node : FlowNode) : List FlowNode :=
  nodes.filter fun n =>
    !n.data.isStartNode && edges.any fun e => e.source == n.id && e.target == node.id

/-- No two adjacent closing braces. -/
def brPred : Char → Char → Prop := fun a b => ¬(a = '}' ∧ b = '}')

/-! ## Lemmas: decimal rendering and parsing -/

theorem digitChar_isDigit {r : Nat} (h : r < 10) :
    (Nat.digitChar r).isDigit = true := by
  interval_cases r <;> decide

theorem digitChar_val {r : Nat} (h : r < 10) :
    (Nat.digitChar r).toNat - 48 = r := by
  interval_cases r <;> decide

theorem natDigits_append : ∀ (fuel n : Nat) (acc : List Char),
    natDigits fuel n acc = natDigits fuel n [] ++ acc
  | 0, _, acc => by simp [natDigits]
  | _ + 1, 0, acc => by simp [natDigits]
  | fuel + 1, n + 1, acc => by
      rw [natDigits, natDigits,
          natDigits_append fuel ((n + 1) / 10),
          natDigits_append fuel ((n + 1) / 10) (Nat.digitChar ((n + 1) % 10) :: [])]
      simp

/-- The result of `natDigits` does not depend on the fuel as long as it covers
the value. -/
theorem natDigits_fuel (n : Nat) : ∀ (f₁ f₂ : Nat), n ≤ f₁ → n ≤ f₂ →
    natDigits f₁ n [] = natDigits f₂ n [] := by
  induction n using Nat.strongRecOn with
  | _ n ih =>
      intro f₁ f₂ h₁ h₂
      match n, f₁, f₂ with
      | 0, 0, f₂ => cases f₂ <;> simp [natDigits]
      | 0, _ + 1, f₂ => cases f₂ <;> simp [natDigits]
      | m + 1, g₁ + 1, g₂ + 1 =>
          rw [natDigits, natDigits,
              natDigits_append g₁, natDigits_append g₂]
          rw [ih ((m + 1) / 10) (Nat.div_lt_self (Nat.succ_pos m) (by omega)) g₁ g₂
              (by omega) (by omega)]

theorem natDigits_ne_nil {n : Nat} (h : 0 < n) : natDigits n n [] ≠ [] := by
  match n with
  | m + 1 =>
      rw [natDigits, natDigits_append]
      simp

theorem mem_natDigits_isDigit : ∀ {fuel n : Nat}, n ≤ fuel →
    ∀ c ∈ natDigits fuel n [], c.isDigit = true := by
  intro fuel
  induction fuel using Nat.strongRecOn with
  | _ fuel ih =>
      intro n hn c hc
      match fuel, n with
      | 0, 0 => simp [natDigits] at hc
      | g + 1, 0 => simp [natDigits] at hc
      | g + 1, m + 1 =>
          rw [natDigits, natDigits_append] at hc
          rcases List.mem_append.1 hc with h | h
          · have hle : (m + 1) / 10 ≤ g := by
              have := Nat.div_lt_self (Nat.succ_pos m) (show 1 < 10 by omega)
              omega
            exact ih g (by omega) hle c h
          · simp at h
            subst h
            exact digitChar_isDigit (Nat.mod_lt _ (by omega))

theorem digitsVal_append_digit (a : List Char) (c : Char) :
    digitsVal (a ++ [c]) = 10 * digitsVal a + (c.toNat - 48) := by
  simp [digitsVal]

theorem digitsVal_natDigits : ∀ {fuel n : Nat}, n ≤ fuel →
    digitsVal (natDigits fuel n []) = n := by
  intro fuel
  induction fuel using Nat.strongRecOn with
  | _ fuel ih =>
      intro n hn
      match fuel, n with
      | 0, 0 => simp [natDigits, digitsVal]
      | g + 1, 0 => simp [natDigits, digitsVal]
      | g + 1, m + 1 =>
          have hle : (m + 1) / 10 ≤ g := by
            have := Nat.div_lt_self (Nat.succ_pos m) (show 1 < 10 by omega)
            omega
          rw [natDigits, natDigits_append, digitsVal_append_digit,
              ih g (by omega) hle,
              digitChar_val (Nat.mod_lt _ (by omega))]
          omega

theorem natRepr_ne_nil (n : Nat) : natRepr n ≠ [] := by
  unfold natRepr
  split
  · simp
  · exact natDigits_ne_nil (by omega)

theorem mem_natRepr_isDigit {n : Nat} : ∀ c ∈ natRepr n, c.isDigit = true := by
  unfold natRepr
  split
  · intro c hc; simp at hc; subst hc; decide
  · exact mem_natDigits_isDigit le_rfl

theorem digitsVal_natRepr (n : Nat) : digitsVal (natRepr n) = n := by
  unfold natRepr
  split
  · simp [digitsVal]; omega
  · exact digitsVal_natDigits le_rfl

theorem isDigit_not_ws {c : Char} (h : c.isDigit = true) : isWsChar c = false := by
  unfold isWsChar
  by_contra hw
  simp only [Bool.not_eq_false, Bool.or_eq_true, decide_eq_true_eq] at hw
  rcases hw with ((h1 | h1) | h1) | h1 <;> subst h1 <;> simp at h

theorem isDigit_not_dash {c : Char} (h : c.isDigit = true) : c ≠ '-' := by
  intro h1; subst h1; simp at h

/-- Characters of `intRepr` are digits or the leading minus sign. -/
theorem mem_intRepr (i : Int) : ∀ c ∈ intRepr i, c.isDigit = true ∨ c = '-' := by
  unfold intRepr
  split
  · intro c hc
    rcases List.mem_cons.1 hc with h | h
    · exact Or.inr h
    · exact Or.inl (mem_natRepr_isDigit c h)
  · intro c hc
    exact Or.inl (mem_natRepr_isDigit c hc)

theorem dropWhile_eq_self_of_head {p : Char → Bool} {c : Char} {r : List Char}
    (h : p c = false) : (c :: r).dropWhile p = c :: r := by
  simp [List.dropWhile, h]

theorem takeWhile_eq_self {p : Char → Bool} {l : List Char}
    (h : ∀ c ∈ l, p c = true) : l.takeWhile p = l := by
  induction l with
  | nil => rfl
  | cons c r ih =>
      rw [List.takeWhile_cons, if_pos (h c (by simp))]
      rw [ih fun x hx => h x (by simp [hx])]

/-- `parseInt` reads back the decimal rendering of a natural number. -/
theorem parseIntChars_natRepr (n : Nat) : parseIntChars (natRepr n) = .int n := by
  obtain ⟨c, r, hcr⟩ : ∃ c r, natRepr n = c :: r := by
    cases h : natRepr n with
    | nil => exact absurd h (natRepr_ne_nil n)
    | cons c r => exact ⟨c, r, rfl⟩
  have hdig : ∀ x ∈ natRepr n, x.isDigit = true := mem_natRepr_isDigit
  have hc : c.isDigit = true := hdig c (by rw [hcr]; simp)
  unfold parseIntChars
  rw [hcr, dropWhile_eq_self_of_head (isDigit_not_ws hc), parseSigned]
  have hnotdash : ¬ c = '-' := isDigit_not_dash hc
  have hnotplus : ¬ c = '+' := by intro h1; subst h1; simp at hc
  simp only [if_neg hnotdash, if_neg hnotplus]
  rw [show (c :: r) = natRepr n from hcr.symm, takeWhile_eq_self hdig]
  rw [if_neg (natRepr_ne_nil n), digitsVal_natRepr]

/-- `parseInt` reads back the decimal rendering of an integer. -/
theorem parseIntChars_intRepr (i : Int) : parseIntChars (intRepr i) = .int i := by
  unfold intRepr
  split
  · rename_i hneg
    unfold parseIntChars
    rw [@dropWhile_eq_self_of_head isWsChar '-' _ (by decide), parseSigned,
        if_pos rfl, takeWhile_eq_self mem_natRepr_isDigit]
    rw [if_neg (natRepr_ne_nil _), digitsVal_natRepr]
    congr 1
    omega
  · rw [parseIntChars_natRepr]
    congr 1
    omega

theorem intRepr_injective {i j : Int} (h : intRepr i = intRepr j) : i = j := by
  have h1 := parseIntChars_intRepr i
  rw [h, parseIntChars_intRepr] at h1
  injection h1 with h2
  omega

theorem natRepr_injective {m n : Nat} (h : natRepr m = natRepr n) : m = n := by
  have := digitsVal_natRepr m
  rw [h, digitsVal_natRepr] at this
  omega

theorem dropWhile_all_false {p : Char → Bool} {l : List Char}
    (h : ∀ c ∈ l, p c = false) : l.dropWhile p = l := by
  cases l with
  | nil => rfl
  | cons c r => simp [List.dropWhile, h c (by simp)]

theorem jsTrim_eq_self {l : List Char} (h : ∀ c ∈ l, isWsChar c = false) :
    jsTrim l = l := by
  unfold jsTrim
  rw [dropWhile_all_false h,
      dropWhile_all_false (fun c hc => h c (List.mem_reverse.1 hc)),
      List.reverse_reverse]

theorem intRepr_ne_nil (i : Int) : intRepr i ≠ [] := by
  unfold intRepr
  split
  · simp
  · exact natRepr_ne_nil _

theorem jsTrim_intRepr (i : Int) : jsTrim (intRepr i) = intRepr i := by
  apply jsTrim_eq_self
  intro c hc
  rcases mem_intRepr i c hc with h | h
  · exact isDigit_not_ws h
  · subst h; decide

/-! ## Lemmas: `split` / `join` round trip -/

theorem splitGo_append {sep : Char} {t : List Char} (hne : ∀ c ∈ t, c ≠ sep) :
    ∀ (l acc : List Char), splitGo sep (t ++ l) acc = splitGo sep l (t.reverse ++ acc) := by
  induction t with
  | nil => intro l acc; simp
  | cons c r ih =>
      intro l acc
      rw [List.cons_append, splitGo, if_neg (hne c (by simp))]
      rw [ih (fun x hx => hne x (by simp [hx])) l (c :: acc)]
      simp

theorem splitGo_no_sep {sep : Char} {t : List Char} (hne : ∀ c ∈ t, c ≠ sep) :
    ∀ acc, splitGo sep t acc = [acc.reverse ++ t] := by
  induction t with
  | nil => intro acc; simp [splitGo]
  | cons c r ih =>
      intro acc
      rw [splitGo, if_neg (hne c (by simp))]
      rw [ih (fun x hx => hne x (by simp [hx])) (c :: acc)]
      simp

/-- Splitting a joined token list recovers the tokens when no token contains
the separator. -/
theorem jsSplit_joinSep {sep : Char} :
    ∀ {ts : List (List Char)}, ts ≠ [] → (∀ t ∈ ts, ∀ c ∈ t, c ≠ sep) →
    jsSplit sep (joinSep sep ts) = ts := by
  intro ts
  induction ts with
  | nil => intro h; exact absurd rfl h
  | cons t ts ih =>
      intro _ hsep
      match ts, ih with
      | [], _ =>
          show splitGo sep t [] = [t]
          rw [splitGo_no_sep (hsep t (by simp))]
          simp
      | t' :: ts', ih =>
          show splitGo sep (t ++ sep :: joinSep sep (t' :: ts')) [] = t :: t' :: ts'
          rw [splitGo_append (hsep t (by simp)) _ [], splitGo, if_pos rfl]
          simp only [List.append_nil, List.reverse_reverse]
          exact congrArg _ (ih (by simp) fun u hu => hsep u (by simp [hu]))

theorem joinSep_ne_nil {sep : Char} {t : List Char} {ts : List (List Char)}
    (h : t ≠ []) : joinSep sep (t :: ts) ≠ [] := by
  match ts with
  | [] => exact h
  | t' :: ts' => simp [joinSep]

/-! ## Lemmas: string discrimination -/

theorem stringMk_inj {a b : List Char} (h : String.mk a = String.mk b) : a = b := by
  injection h

/-- Unique decomposition at a separator character that occurs in neither
left part. -/
theorem sep_decomp {sep : Char} :
    ∀ {a b x y : List Char}, (∀ c ∈ a, c ≠ sep) → (∀ c ∈ b, c ≠ sep) →
    a ++ sep :: x = b ++ sep :: y → a = b ∧ x = y := by
  intro a
  induction a with
  | nil =>
      intro b x y _ hb h
      match b with
      | [] => simp at h; simp [h]
      | c :: b' =>
          simp only [List.nil_append, List.cons_append, List.cons.injEq] at h
          exact absurd h.1.symm (hb c (by simp))
  | cons c a' ih =>
      intro b x y ha hb h
      match b with
      | [] =>
          simp only [List.cons_append, List.nil_append, List.cons.injEq] at h
          exact absurd h.1 (ha c (by simp))
      | d :: b' =>
          simp only [List.cons_append, List.cons.injEq] at h
          obtain ⟨rfl, h2⟩ := h
          obtain ⟨h3, h4⟩ := ih (fun u hu => ha u (by simp [hu]))
            (fun u hu => hb u (by simp [hu])) h2
          exact ⟨by rw [h3], h4⟩

/-- `mkId` is injective: the trailing uniquifier contains no `-`, so the id
decomposes uniquely. -/
theorem mkId_injective {i₁ i₂ : Nat} {o₁ o₂ : Int}
    (h : mkId i₁ o₁ = mkId i₂ o₂) : i₁ = i₂ ∧ o₁ = o₂ := by
  unfold mkId at h
  have h' := stringMk_inj h
  have h2 : intRepr o₁ ++ '-' :: natRepr i₁ = intRepr o₂ ++ '-' :: natRepr i₂ := by
    rw [List.append_assoc, List.append_assoc] at h'
    have h5 := congrArg (List.drop ("node-".data.length)) h'
    rwa [List.drop_left, List.drop_left] at h5
  have h3 : (natRepr i₁).reverse ++ '-' :: (intRepr o₁).reverse =
      (natRepr i₂).reverse ++ '-' :: (intRepr o₂).reverse := by
    have := congrArg List.reverse h2
    simpa using this
  have hnd : ∀ (n : Nat), ∀ c ∈ (natRepr n).reverse, c ≠ '-' := by
    intro n c hc
    exact isDigit_not_dash (mem_natRepr_isDigit c (List.mem_reverse.1 hc))
  obtain ⟨ha, hb⟩ := sep_decomp (hnd i₁) (hnd i₂) h3
  refine ⟨natRepr_injective (List.reverse_injective ha), intRepr_injective ?_⟩
  have := congrArg List.reverse hb
  simpa using this

theorem mkId_ne_start (i : Nat) (o : Int) : mkId i o ≠ "start" := by
  unfold mkId
  intro h
  have := congrArg (fun s => s.data.head?) h
  simp at this

/-! ## Lemmas: stable sort -/

theorem stableInsert_perm {α : Type} (le : α → α → Bool) (x : α) :
    ∀ l : List α, (stableInsert le x l).Perm (x :: l) := by
  intro l
  induction l with
  | nil => simp [stableInsert]
  | cons y ys ih =>
      rw [stableInsert]
      split
      · exact ((ih.cons y).trans (List.Perm.swap x y ys))
      · exact List.Perm.refl _

theorem stableSort_go_perm {α : Type} (le : α → α → Bool) :
    ∀ (l acc : List α),
      (l.foldl (fun acc x => stableInsert le x acc) acc).Perm (acc ++ l) := by
  intro l
  induction l with
  | nil => intro acc; simp
  | cons x xs ih =>
      intro acc
      rw [List.foldl_cons]
      refine (ih (stableInsert le x acc)).trans ?_
      have h1 : (stableInsert le x acc).Perm (acc ++ [x]) :=
        (stableInsert_perm le x acc).trans (@List.perm_append_comm _ [x] acc)
      have h2 := h1.append_right xs
      simpa using h2

theorem stableSort_perm {α : Type} (le : α → α → Bool) (l : List α) :
    (stableSort le l).Perm l := by
  simpa using stableSort_go_perm le l []

theorem stableInsert_pairwise {α : Type} {le : α → α → Bool}
    (htotal : ∀ a b, le a b || le b a)
    (htrans : ∀ a b c, le a b = true → le b c = true → le a c = true)
    {x : α} : ∀ {l : List α}, l.Pairwise (le · · = true) →
      (stableInsert le x l).Pairwise (le · · = true) := by
  intro l
  induction l with
  | nil => intro _; simp [stableInsert]
  | cons y ys ih =>
      intro hp
      rw [stableInsert]
      rcases List.pairwise_cons.1 hp with ⟨hy, hys⟩
      split
      · rename_i hyx
        refine List.pairwise_cons.2 ⟨?_, ih hys⟩
        intro z hz
        have hz' := ((stableInsert_perm le x ys).mem_iff).1 hz
        rcases List.mem_cons.1 hz' with h | h
        · subst h; exact hyx
        · exact hy z h
      · rename_i hyx
        simp only [Bool.not_eq_true] at hyx
        have hxy : le x y = true := by
          have := htotal y x
          rw [hyx] at this
          simpa using this
        refine List.pairwise_cons.2 ⟨?_, hp⟩
        intro z hz
        rcases List.mem_cons.1 hz with h | h
        · subst h; exact hxy
        · exact htrans x y z hxy (hy z h)

theorem stableSort_go_pairwise {α : Type} {le : α → α → Bool}
    (htotal : ∀ a b, le a b || le b a)
    (htrans : ∀ a b c, le a b = true → le b c = true → le a c = true) :
    ∀ (l acc : List α), acc.Pairwise (le · · = true) →
      (l.foldl (fun acc x => stableInsert le x acc) acc).Pairwise (le · · = true) := by
  intro l
  induction l with
  | nil => intro acc h; simpa using h
  | cons x xs ih =>
      intro acc h
      rw [List.foldl_cons]
      exact ih _ (stableInsert_pairwise htotal htrans h)

theorem stableSort_pairwise {α : Type} {le : α → α → Bool}
    (htotal : ∀ a b, le a b || le b a)
    (htrans : ∀ a b c, le a b = true → le b c = true → le a c = true)
    (l : List α) : (stableSort le l).Pairwise (le · · = true) :=
  stableSort_go_pairwise htotal htrans l [] (by simp)

theorem stableInsert_append_all {α : Type} {le : α → α → Bool} {x : α} :
    ∀ {l : List α}, (∀ y ∈ l, le y x = true) → stableInsert le x l = l ++ [x] := by
  intro l
  induction l with
  | nil => intro _; simp [stableInsert]
  | cons y ys ih =>
      intro h
      rw [stableInsert, if_pos (h y (by simp)), ih fun z hz => h z (by simp [hz])]
      simp

/-- A stable sort leaves an already-sorted list unchanged. -/
theorem stableSort_of_sorted {α : Type} {le : α → α → Bool} {l : List α}
    (h : l.Pairwise (le · · = true)) : stableSort le l = l := by
  induction l using List.reverseRecOn with
  | nil => rfl
  | append_singleton ys x ih =>
      unfold stableSort
      rw [List.foldl_append, List.foldl_cons, List.foldl_nil]
      rcases List.pairwise_append.1 h with ⟨hys, -, hrel⟩
      rw [show ys.foldl (fun acc x => stableInsert le x acc) [] = stableSort le ys from rfl,
          ih hys]
      exact stableInsert_append_all fun y hy => hrel y hy x (by simp)

/-! ## Membership helpers -/

/-- Every non-start node contributes its record to the compiled document. -/
theorem buildStep_mem_compile {nodes : List FlowNode} {edges : List FlowEdge}
    {cfg : GlobalConfig} {node : FlowNode} (hmem : node ∈ nodes)
    (hns : node.data.isStartNode = false) :
    buildStep nodes edges node ∈ (compileFlow nodes edges cfg).steps := by
  unfold compileFlow
  simp only [List.mem_map]
  refine ⟨node, ?_, rfl⟩
  exact ((stableSort_perm nodeLe _).mem_iff).2 (List.mem_filter.2 ⟨hmem, by simp [hns]⟩)

theorem mkNode_mem_buildNodes {s : FlowStep} :
    ∀ (steps : List FlowStep) (k : Nat), s ∈ steps →
    ∃ i, mkNode i s ∈ buildNodes k steps := by
  intro steps
  induction steps with
  | nil => intro k h; simp at h
  | cons t rest ih =>
      intro k h
      rcases List.mem_cons.1 h with h | h
      · subst h; exact ⟨k, by simp [buildNodes]⟩
      · obtain ⟨i, hi⟩ := ih (k + 1) h
        exact ⟨i, by simp [buildNodes, hi]⟩

/-- Every record of the imported document materializes as a node of the
restored graph. -/
theorem mkNode_mem_restore {json : FlowJson} {s : FlowStep}
    (h : s ∈ json.steps) : ∃ i, mkNode i s ∈ (restoreFlow json).nodes := by
  obtain ⟨i, hi⟩ := mkNode_mem_buildNodes json.steps 0 h
  exact ⟨i, by simp [restoreFlow, hi]⟩

/-! ## C3: connect rejection iff, and atomicity -/

/-- C3 (confirmed).  The Connect operation rejects exactly when the source is
the start node, at least one start-sourced edge already exists, and global
`iterateFlow` is false; a rejection leaves the edge set completely unchanged;
in every other case no structural constraint (cycle creation included) blocks
the connection: the connected pair is present in the resulting edge set. -/
theorem connect_rejects_iff_and_atomic (iterateFlow : Bool)
    (source target : String) (edges : List FlowEdge) :
    (validateConnections iterateFlow source edges = false ↔
      source = "start" ∧ iterateFlow = false ∧
        ∃ e ∈ edges, e.source = "start")
    ∧ (validateConnections iterateFlow source edges = false →
        onConnect iterateFlow source target edges = edges)
    ∧ (validateConnections iterateFlow source edges = true →
        ∃ e ∈ onConnect iterateFlow source target edges,
          e.source = source ∧ e.target = target) := by
  have hfilt : 0 < (edges.filter fun e => e.source == "start").length ↔
      ∃ e ∈ edges, e.source = "start" := by
    constructor
    · intro h
      rcases List.exists_mem_of_length_pos h with ⟨e, he⟩
      have := List.mem_filter.1 he
      exact ⟨e, this.1, by simpa using this.2⟩
    · rintro ⟨e, he, hs⟩
      have : e ∈ edges.filter fun e => e.source == "start" :=
        List.mem_filter.2 ⟨he, by simp [hs]⟩
      exact List.length_pos.2 fun hnil => by simp [hnil] at this
  refine ⟨?_, ?_, ?_⟩
  · unfold validateConnections
    by_cases hs : source = "start"
    · rw [if_pos (by simp [hs])]
      rw [decide_eq_false_iff_not, not_not]
      constructor
      · rintro ⟨hni, hpos⟩
        refine ⟨hs, ?_, hfilt.1 hpos⟩
        rcases iterateFlow with _ | _
        · rfl
        · exact absurd rfl hni
      · rintro ⟨-, hif, hex⟩
        exact ⟨by simp [hif], hfilt.2 hex⟩
    · rw [if_neg (by simpa using hs)]
      constructor
      · intro h; simp at h
      · rintro ⟨h1, -⟩; exact absurd h1 hs
  · intro h
    unfold onConnect
    rw [h]
    simp
  · intro h
    unfold onConnect
    rw [h]
    simp only [if_pos]
    unfold addEdgeRF
    split
    · rename_i hdup
      rcases List.any_eq_true.1 hdup with ⟨x, hx, hxeq⟩
      simp only [Bool.and_eq_true, beq_iff_eq] at hxeq
      exact ⟨x, hx, hxeq.1, hxeq.2⟩
    · refine ⟨{ id := "reactflow__edge-" ++ source ++ "-" ++ target
                source := source, target := target }, by simp, rfl, rfl⟩

/-- Witness for C3 at concrete inputs: a second start edge with iteration off
is rejected and leaves the edges unchanged, and an ordinary (even
cycle-creating) connect goes through. -/
theorem connect_rejects_iff_and_atomic_witness :
    validateConnections false "start" [⟨"e", "start", "b"⟩] = false ∧
    onConnect false "start" "c" [⟨"e", "start", "b"⟩] = [⟨"e", "start", "b"⟩] ∧
    (∃ e ∈ onConnect false "b" "b" [⟨"e", "start", "b"⟩],
      e.source = "b" ∧ e.target = "b") := by
  have h1 := connect_rejects_iff_and_atomic false "start" "c" [⟨"e", "start", "b"⟩]
  have h2 := connect_rejects_iff_and_atomic false "b" "b" [⟨"e", "start", "b"⟩]
  have hrej : validateConnections false "start" [⟨"e", "start", "b"⟩] = false :=
    h1.1.2 ⟨rfl, rfl, ⟨"e", "start", "b"⟩, by simp, rfl⟩
  exact ⟨hrej, h1.2.1 hrej, h2.2.2 (by decide)⟩

/-! ## C7: compiled `time_range` -/

/-- C7 counterexample.  A SQL node with `append_time_column`, `timeAmount`
and `timeGrain` all *set* — but the amount set to `0`, which is falsy — gets
no `time_range` in the compiled record, refuting "the compiled record
contains time_range exactly when append_time_column, timeAmount, and
timeGrain are all set". -/
theorem compile_time_range_requires_truthy_counterexample :
    let n : FlowNode :=
      { id := "a"
        data := { label := "S", sequence_order := 1, type := some .sql, value := "q"
                  append_time_column := some "created_at"
                  time_amount := some (.int 0), time_grain := some .day
                  time_mode := some .closed_open } }
    (compileFlow [startNode, n] [] ⟨false, "", "f"⟩).steps =
      [buildStep [startNode, n] [] n] ∧
    n.data.append_time_column.isSome = true ∧
    n.data.time_amount.isSome = true ∧
    n.data.time_grain.isSome = true ∧
    (buildStep [startNode, n] [] n).time_range = none := by
  refine ⟨by decide, rfl, rfl, rfl, by decide⟩

/-- C7 (corrected).  For a SQL step, the compiled record contains
`time_range` exactly when `append_time_column` is set and truthy (nonempty),
`timeAmount` is set and truthy (neither 0 nor NaN), and `timeGrain` is set;
its value is then the literal `last_<amount>_<grain>s`; `time_grain` and
`time_mode` are copied verbatim only (and exactly) when `append_time_column`
is truthy. -/
theorem compile_time_range_characterization (nodes : List FlowNode)
    (edges : List FlowEdge) (cfg : GlobalConfig) (node : FlowNode)
    (hmem : node ∈ nodes) (hns : node.data.isStartNode = false)
    (hsql : node.data.type = some .sql) :
    buildStep nodes edges node ∈ (compileFlow nodes edges cfg).steps ∧
    ((buildStep nodes edges node).time_range.isSome = true ↔
      strFieldTruthy node.data.append_time_column = true ∧
      jsNumFieldTruthy node.data.time_amount = true ∧
      node.data.time_grain.isSome = true) ∧
    (∀ a g, node.data.time_amount = some a → node.data.time_grain = some g →
      strFieldTruthy node.data.append_time_column = true → a.truthy = true →
      (buildStep nodes edges node).time_range = some (timeRangeStr a g)) ∧
    ((buildStep nodes edges node).time_grain =
      if strFieldTruthy node.data.append_time_column then node.data.time_grain else none) ∧
    ((buildStep nodes edges node).time_mode =
      if strFieldTruthy node.data.append_time_column then node.data.time_mode else none) := by
  refine ⟨buildStep_mem_compile hmem hns, ?_, ?_, ?_, ?_⟩
  · unfold buildStep
    simp only [hsql]
    rcases node.data.time_amount with _ | a <;> rcases node.data.time_grain with _ | g <;>
      simp [jsNumFieldTruthy] <;> by_cases hatc : strFieldTruthy node.data.append_time_column = true <;>
      by_cases ha : a.truthy = true <;> simp_all
  · intro a g ha hg hatc htr
    unfold buildStep
    simp only [hsql, ha, hg]
    simp [hatc, htr]
  · unfold buildStep
    simp only [hsql]
    by_cases hatc : strFieldTruthy node.data.append_time_column = true
    · rcases hg : node.data.time_grain with _ | g <;> simp [hatc, hg]
    · simp only [Bool.not_eq_true] at hatc
      simp [hatc]
  · unfold buildStep
    simp only [hsql]
    by_cases hatc : strFieldTruthy node.data.append_time_column = true
    · rcases hm : node.data.time_mode with _ | m <;> simp [hatc, hm]
    · simp only [Bool.not_eq_true] at hatc
      simp [hatc]

/-- Witness for C7 at a concrete input: `timeAmount = 7`, `timeGrain = day`
compiles to `time_range = "last_7_days"`. -/
theorem compile_time_range_characterization_witness :
    (buildStep [startNode,
      { id := "a"
        data := { label := "S", sequence_order := 1, type := some .sql, value := "q"
                  append_time_column := some "created_at"
                  time_amount := some (.int 7), time_grain := some .day } }] []
      { id := "a"
        data := { label := "S", sequence_order := 1, type := some .sql, value := "q"
                  append_time_column := some "created_at"
                  time_amount := some (.int 7), time_grain := some .day } }).time_range =
      some "last_7_days" := by
  have h := compile_time_range_characterization
    [startNode,
      { id := "a"
        data := { label := "S", sequence_order := 1, type := some .sql, value := "q"
                  append_time_column := some "created_at"
                  time_amount := some (.int 7), time_grain := some .day } }] []
    ⟨false, "", "f"⟩
    { id := "a"
      data := { label := "S", sequence_order := 1, type := some .sql, value := "q"
                append_time_column := some "created_at"
                time_amount := some (.int 7), time_grain := some .day } }
    (by simp) rfl rfl
  have h7 := h.2.2.1 (.int 7) .day rfl rfl (by decide) (by decide)
  rw [h7]
  rfl

/-! ## C8: `time_range` reverse-parse -/

/-- C8 counterexample.  For `time_range = "last_7_decades"` the grain match
fails, yet the amount is *not* left unset: the reconstructed node carries
`time_amount = 7` with `time_grain` unset, refuting "on any failure of these
steps leaves the amount and grain unset". -/
theorem restore_time_parse_counterexample :
    ((mkNode 0 { sequence_order := 1, sequence_name := "S", value := ""
                 time_range := some "last_7_decades" }).data.time_grain = none) ∧
    ((mkNode 0 { sequence_order := 1, sequence_name := "S", value := ""
                 time_range := some "last_7_decades" }).data.time_amount =
      some (.int 7)) := by
  decide

/-- C8 (corrected).  Reconstructing a step with a truthy `time_range` splits
it on `_` and requires at least 3 parts; then part 1 is `parseInt`-ed into
the amount — which is set even when the grain match fails, and is `NaN` when
the part is not numeric — and part 2 with one trailing `s` stripped is
accepted as the grain only when it matches a known grain value (else the
grain alone is left unset); with fewer than 3 parts both are left unset; when
`time_range` is absent (or empty, hence falsy) and a bare `time_grain` is
present, that grain is adopted directly. -/
theorem restore_time_parse_characterization (i : Nat) (s : FlowStep) :
    (∀ tr : String, s.time_range = some tr → tr ≠ "" →
      3 ≤ (jsSplit '_' tr.data).length →
      (mkNode i s).data.time_amount =
        some (parseIntChars ((jsSplit '_' tr.data).getD 1 [])) ∧
      (mkNode i s).data.time_grain =
        parseGrain (if ((jsSplit '_' tr.data).getD 2 []).getLast? = some 's'
                    then ((jsSplit '_' tr.data).getD 2 []).dropLast
                    else (jsSplit '_' tr.data).getD 2 []))
    ∧ (∀ tr : String, s.time_range = some tr → tr ≠ "" →
      (jsSplit '_' tr.data).length < 3 →
      (mkNode i s).data.time_amount = none ∧ (mkNode i s).data.time_grain = none)
    ∧ ((s.time_range = none ∨ s.time_range = some "") →
      (mkNode i s).data.time_amount = none ∧
      (mkNode i s).data.time_grain = s.time_grain) := by
  have hamount : (mkNode i s).data.time_amount = (parseTimeFields s).1 := rfl
  have hgrain : (mkNode i s).data.time_grain = (parseTimeFields s).2 := rfl
  refine ⟨?_, ?_, ?_⟩
  · intro tr htr hne hlen
    rw [hamount, hgrain]
    unfold parseTimeFields
    rw [htr]
    simp only [if_neg hne, if_pos hlen]
    exact ⟨trivial, trivial⟩
  · intro tr htr hne hlen
    rw [hamount, hgrain]
    unfold parseTimeFields
    rw [htr]
    simp only [if_neg hne, if_neg (by omega : ¬ 3 ≤ (jsSplit '_' tr.data).length)]
    exact ⟨trivial, trivial⟩
  · intro h
    rw [hamount, hgrain]
    unfold parseTimeFields
    rcases h with h | h <;> rw [h] <;> simp

/-- Witness for C8 at a concrete input (the P5 reverse direction):
`"last_7_days"` parses back to amount 7 and grain day, and such a record
materializes as a node of the restored graph. -/
theorem restore_time_parse_characterization_witness :
    ((mkNode 0 { sequence_order := 1, sequence_name := "S", value := ""
                 time_range := some "last_7_days" }).data.time_amount =
      some (.int 7)) ∧
    ((mkNode 0 { sequence_order := 1, sequence_name := "S", value := ""
                 time_range := some "last_7_days" }).data.time_grain =
      some .day) := by
  have h := (restore_time_parse_characterization 0
    { sequence_order := 1, sequence_name := "S", value := ""
      time_range := some "last_7_days" }).1 "last_7_days" rfl (by decide) (by decide)
  refine ⟨?_, ?_⟩
  · rw [h.1]; decide
  · rw [h.2]; decide

/-! ## C4: compiled `depends_on` -/

/-- C4 counterexample.  Two distinct predecessors sharing sequence_order 2
compile to `depends_on = "2,2"`: the emitted list is *not* de-duplicated. -/
theorem compile_depends_on_counterexample :
    ((compileFlow
        [startNode,
         { id := "a", data := { label := "A", sequence_order := 2, type := some .concat, value := "v" } },
         { id := "b", data := { label := "B", sequence_order := 2, type := some .concat, value := "v" } },
         { id := "c", data := { label := "C", sequence_order := 3, type := some .concat, value := "v" } }]
        [⟨"e1", "a", "c"⟩, ⟨"e2", "b", "c"⟩] ⟨false, "", "f"⟩).steps.map
      (·.depends_on)) = [none, none, some (.str "2,2")] ∧
    ("2,2" : String) ≠ "2" := by
  decide

/-- C4 (corrected).  For every step of the compiled document, `depends_on`
is the ascending comma-joined list of the sequence_orders of the node's
direct non-start predecessors, one entry per predecessor node — so the list
is duplicate-free whenever the non-start nodes have pairwise distinct
sequence_orders, but a shared order among distinct predecessors is repeated —
and the field is omitted entirely (not present as an empty string) exactly
when the node has no such predecessor. -/
theorem compile_depends_on_characterization (nodes : List FlowNode)
    (edges : List FlowEdge) (cfg : GlobalConfig) (node : FlowNode)
    (hmem : node ∈ nodes) (hns : node.data.isStartNode = false)
    (hids : ∀ n ∈ nodes, n.data.isStartNode = false → n.id ≠ "start") :
    buildStep nodes edges node ∈ (compileFlow nodes edges cfg).steps ∧
    dependsOnOrdersOf nodes edges node =
      stableSort (fun a b => a ≤ b)
        ((specPredecessors nodes edges node).map (·.data.sequence_order)) ∧
    (dependsOnOrdersOf nodes edges node).Pairwise (· ≤ ·) ∧
    ((buildStep nodes edges node).depends_on =
      if specPredecessors nodes edges node = [] then none
      else some (.str (String.mk
        (joinSep ',' ((dependsOnOrdersOf nodes edges node).map intRepr))))) ∧
    (((nodes.filter fun n => !n.data.isStartNode).map (·.data.sequence_order)).Nodup →
      (dependsOnOrdersOf nodes edges node).Nodup) := by
  have htotal : ∀ a b : Int, (decide (a ≤ b) || decide (b ≤ a)) = true := by
    intro a b; simp; omega
  have htrans : ∀ a b c : Int, decide (a ≤ b) = true → decide (b ≤ c) = true →
      decide (a ≤ c) = true := by
    intro a b c h1 h2; simp at h1 h2 ⊢; omega
  have hfilter :
      (nodes.filter fun n =>
        (((edges.filter fun e => e.target == node.id && e.source != "start").map
          (·.source)).contains n.id) && !n.data.isStartNode) =
      specPredecessors nodes edges node := by
    unfold specPredecessors
    apply List.filter_congr
    intro n hn
    by_cases hstart : n.data.isStartNode = true
    · simp only [hstart, Bool.not_true, Bool.and_false, Bool.false_and]
    · simp only [Bool.not_eq_true] at hstart
      have hid : n.id ≠ "start" := hids n hn hstart
      simp only [hstart, Bool.not_false, Bool.and_true, Bool.true_and]
      rw [Bool.eq_iff_iff]
      simp only [List.contains_eq_any_beq, List.any_eq_true, List.mem_map,
        List.mem_filter, Bool.and_eq_true, beq_iff_eq, bne_iff_ne]
      constructor
      · rintro ⟨s, ⟨e, ⟨he, ht, hs⟩, rfl⟩, heq⟩
        exact ⟨e, he, by simp [heq], by simp [ht]⟩
      · rintro ⟨e, he, hsrc, htgt⟩
        exact ⟨e.source, ⟨e, ⟨he, by simp [htgt], by rw [hsrc]; exact hid⟩, rfl⟩,
          by simp [hsrc]⟩
  have hd : dependsOnOrdersOf nodes edges node =
      stableSort (fun a b => a ≤ b)
        ((specPredecessors nodes edges node).map (·.data.sequence_order)) := by
    simp only [dependsOnOrdersOf]
    rw [hfilter]
  have hb : (buildStep nodes edges node).depends_on =
      (if joinSep ',' ((dependsOnOrdersOf nodes edges node).map intRepr) = [] then none
       else some (.str (String.mk
        (joinSep ',' ((dependsOnOrdersOf nodes edges node).map intRepr))))) := rfl
  refine ⟨buildStep_mem_compile hmem hns, hd, ?_, ?_, ?_⟩
  · have := @stableSort_pairwise Int (fun a b : Int => decide (a ≤ b))
      htotal htrans ((specPredecessors nodes edges node).map (·.data.sequence_order))
    rw [hd]
    exact this.imp fun h => by simpa using h
  · rw [hb]
    by_cases hp : specPredecessors nodes edges node = []
    · rw [if_pos hp]
      have hz : dependsOnOrdersOf nodes edges node = [] := by
        rw [hd, hp]
        rfl
      rw [hz]
      simp [joinSep]
    · rw [if_neg hp]
      have hne : dependsOnOrdersOf nodes edges node ≠ [] := by
        rw [hd]
        intro hnil
        have hperm := (stableSort_perm (fun a b : Int => a ≤ b)
          ((specPredecessors nodes edges node).map (·.data.sequence_order)))
        rw [hnil] at hperm
        have := hperm.symm.eq_nil
        simp only [List.map_eq_nil_iff] at this
        exact hp this
      obtain ⟨o, rest, hor⟩ : ∃ o rest, dependsOnOrdersOf nodes edges node = o :: rest := by
        cases h : dependsOnOrdersOf nodes edges node with
        | nil => exact absurd h hne
        | cons o rest => exact ⟨o, rest, rfl⟩
      rw [hor, List.map_cons]
      rw [if_neg (joinSep_ne_nil (intRepr_ne_nil o))]
  · intro hnodup
    rw [hd]
    have hsub : List.Sublist (specPredecessors nodes edges node)
        (nodes.filter fun n => !n.data.isStartNode) := by
      unfold specPredecessors
      rw [← List.filter_filter]
      exact List.Sublist.filter _ (List.filter_sublist nodes)
    have hnodup2 : ((specPredecessors nodes edges node).map (·.data.sequence_order)).Nodup :=
      hnodup.sublist (hsub.map _)
    exact ((stableSort_perm _ _).nodup_iff).2 hnodup2

/-- Witness for C4 at a concrete input: a step with two distinct-order
predecessors gets `depends_on = "1,2"` (ascending), and a predecessor-free
step omits the field. -/
theorem compile_depends_on_characterization_witness :
    (buildStep
      [startNode,
       { id := "a", data := { label := "A", sequence_order := 2, type := some .concat, value := "v" } },
       { id := "b", data := { label := "B", sequence_order := 1, type := some .concat, value := "v" } },
       { id := "c", data := { label := "C", sequence_order := 3, type := some .concat, value := "v" } }]
      [⟨"e1", "a", "c"⟩, ⟨"e2", "b", "c"⟩]
      { id := "c", data := { label := "C", sequence_order := 3, type := some .concat, value := "v" } }).depends_on =
      some (.str "1,2") ∧
    (buildStep
      [startNode,
       { id := "a", data := { label := "A", sequence_order := 2, type := some .concat, value := "v" } },
       { id := "b", data := { label := "B", sequence_order := 1, type := some .concat, value := "v" } },
       { id := "c", data := { label := "C", sequence_order := 3, type := some .concat, value := "v" } }]
      [⟨"e1", "a", "c"⟩, ⟨"e2", "b", "c"⟩]
      { id := "a", data := { label := "A", sequence_order := 2, type := some .concat, value := "v" } }).depends_on =
      none := by
  have h1 := compile_depends_on_characterization
    [startNode,
     { id := "a", data := { label := "A", sequence_order := 2, type := some .concat, value := "v" } },
     { id := "b", data := { label := "B", sequence_order := 1, type := some .concat, value := "v" } },
     { id := "c", data := { label := "C", sequence_order := 3, type := some .concat, value := "v" } }]
    [⟨"e1", "a", "c"⟩, ⟨"e2", "b", "c"⟩] ⟨false, "", "f"⟩
    { id := "c", data := { label := "C", sequence_order := 3, type := some .concat, value := "v" } }
    (by simp) rfl (by decide)
  have h2 := compile_depends_on_characterization
    [startNode,
     { id := "a", data := { label := "A", sequence_order := 2, type := some .concat, value := "v" } },
     { id := "b", data := { label := "B", sequence_order := 1, type := some .concat, value := "v" } },
     { id := "c", data := { label := "C", sequence_order := 3, type := some .concat, value := "v" } }]
    [⟨"e1", "a", "c"⟩, ⟨"e2", "b", "c"⟩] ⟨false, "", "f"⟩
    { id := "a", data := { label := "A", sequence_order := 2, type := some .concat, value := "v" } }
    (by simp) rfl (by decide)
  constructor
  · rw [h1.2.2.2.1]
    decide
  · rw [h2.2.2.2.1]
    decide

/-! ## C5: duplicate-order diagnostic -/

theorem dupFilterGo_eq_nil_iff : ∀ (l seen : List Int),
    dupFilterGo seen l = [] ↔ (l.Nodup ∧ ∀ x ∈ l, x ∉ seen) := by
  intro l
  induction l with
  | nil => intro seen; simp [dupFilterGo]
  | cons x rest ih =>
      intro seen
      rw [dupFilterGo]
      by_cases hx : seen.contains x = true
      · rw [if_pos hx]
        have hx' : x ∈ seen := by simpa using hx
        constructor
        · intro h; simp at h
        · rintro ⟨-, hall⟩
          exact absurd hx' (hall x (by simp))
      · rw [if_neg hx]
        rw [ih (x :: seen)]
        have hx' : x ∉ seen := by simpa using hx
        constructor
        · rintro ⟨hnd, hall⟩
          refine ⟨List.nodup_cons.2 ⟨?_, hnd⟩, ?_⟩
          · intro hmem
            exact absurd (List.mem_cons_self x seen) (hall x hmem)
          · intro y hy
            rcases List.mem_cons.1 hy with rfl | hy'
            · exact hx'
            · exact fun hc => (hall y hy') (List.mem_cons.2 (Or.inr hc))
        · rintro ⟨hnd, hall⟩
          rcases List.nodup_cons.1 hnd with ⟨hxr, hndr⟩
          refine ⟨hndr, ?_⟩
          intro y hy hc
          rcases List.mem_cons.1 hc with rfl | hc'
          · exact hxr hy
          · exact (hall y (by simp [hy])) hc'

/-- `duplicateOrders` is nonempty exactly when some sequence_order repeats
among *all* nodes. -/
theorem duplicateOrdersList_pos_iff (nodes : List FlowNode) :
    0 < (duplicateOrdersList nodes).length ↔
      ¬ (nodes.map (·.data.sequence_order)).Nodup := by
  unfold duplicateOrdersList
  rw [Nat.pos_iff_ne_zero, Ne, List.length_eq_zero]
  rw [not_iff_not.2 (dupFilterGo_eq_nil_iff _ [])]
  simp

theorem stepPrefix_head (o : Int) (t : List Char) :
    (stepPrefix o ++ t).head? = some 'S' := by
  have h : ∃ r, stepPrefix o ++ t = 'S' :: r := by
    refine ⟨("tep ".data ++ intRepr o ++ ": ".data) ++ t, ?_⟩
    show ("Step ".data ++ intRepr o ++ ": ".data) ++ t = _
    simp [show ("Step " : String).data = 'S' :: "tep ".data from rfl]
  obtain ⟨r, hr⟩ := h
  rw [hr]
  rfl

theorem phWarn_shape (o : Int) (tag : List Char) (n : Int) :
    ∃ t, phWarn o tag n = String.mk (stepPrefix o ++ t) :=
  ⟨"\x7b\x7b".data ++ tag ++ "\x7d\x7d used but Step ".data ++ intRepr n ++
    " is not connected".data,
   by unfold phWarn; simp [List.append_assoc]⟩

/-- Every per-node warning starts with `"Step "`, so its first character is
`'S'`. -/
theorem nodeWarnings_shape {nodes : List FlowNode} {edges : List FlowEdge}
    {ifl : Bool} {node : FlowNode} :
    ∀ w ∈ nodeWarnings nodes edges ifl node,
    ∃ t : List Char, w = String.mk (stepPrefix node.data.sequence_order ++ t) := by
  intro w hw
  unfold nodeWarnings at hw
  split at hw
  · simp at hw
  · simp only [List.mem_append] at hw
    rcases hw with (hw | hw) | hw
    · split at hw
      · rw [List.mem_singleton] at hw
        exact ⟨_, hw⟩
      · simp at hw
    · split at hw
      · rw [List.mem_singleton] at hw
        exact ⟨_, hw⟩
      · simp at hw
    · rcases List.mem_flatMap.1 hw with ⟨tag, -, hw⟩
      split at hw
      · split at hw
        · rw [List.mem_singleton] at hw
          exact ⟨_, hw⟩
        · split at hw
          · rw [List.mem_singleton] at hw
            exact ⟨_, hw⟩
          · simp at hw
      · split at hw
        · split at hw
          · simp at hw
          · split at hw
            · simp at hw
            · rw [List.mem_singleton] at hw
              subst hw
              exact phWarn_shape _ _ _
        · simp at hw

/-- A per-node warning never equals a string that does not start with
`'S'`. -/
theorem nodeWarnings_ne {nodes : List FlowNode} {edges : List FlowEdge}
    {ifl : Bool} {node : FlowNode} {s : String}
    (hs : s.data.head? ≠ some 'S') :
    s ∉ nodeWarnings nodes edges ifl node := by
  intro hw
  obtain ⟨t, ht⟩ := nodeWarnings_shape _ hw
  apply hs
  rw [ht]
  exact stepPrefix_head _ t

/-- C5 counterexample.  A single step whose sequence_order is 0 collides with
the *start* node (order 0): the duplicate-order diagnostic fires although no
two non-start nodes share an order. -/
theorem duplicate_order_diag_counterexample :
    flowWarnings
      [startNode,
       { id := "z", data := { label := "Z", sequence_order := 0, type := some .concat, value := "v" } }]
      [] false "" = ["Duplicate Sequence # Detected"] ∧
    (([startNode,
       { id := "z", data := { label := "Z", sequence_order := 0, type := some .concat, value := "v" } }].filter
        fun n => !n.data.isStartNode).map (·.data.sequence_order)).Nodup := by
  decide

/-- The terminal rule emits only its one diagnostic string. -/
theorem terminalWarning_mem_eq {sn : List FlowNode} {w : String}
    (hw : w ∈ terminalWarning sn) : w = "Flow must end with CONCAT" := by
  match sn with
  | [] => simp [terminalWarning] at hw
  | h :: t =>
      simp only [terminalWarning] at hw
      split at hw
      · simpa using hw
      · simp at hw

/-- C5 (corrected).  The validator emits the one global duplicate-order
diagnostic if and only if some sequence_order is shared by two or more nodes
— the start node, at sequence_order 0, included; a graph whose nodes all
have pairwise distinct sequence_orders never produces it. -/
theorem duplicate_order_diag_iff (nodes : List FlowNode) (edges : List FlowEdge)
    (ifl : Bool) (gil : String) :
    "Duplicate Sequence # Detected" ∈ flowWarnings nodes edges ifl gil ↔
      ¬ (nodes.map (·.data.sequence_order)).Nodup := by
  unfold flowWarnings
  simp only [List.mem_append]
  constructor
  · rintro ((((hw | hw) | hw) | hw) | hw)
    · split at hw
      · rename_i hcond
        exact (duplicateOrdersList_pos_iff nodes).1 hcond
      · simp at hw
    · split at hw
      · rw [List.mem_singleton] at hw
        exact absurd hw (by decide)
      · simp at hw
    · exact absurd (terminalWarning_mem_eq hw) (by decide)
    · split at hw
      · rw [List.mem_singleton] at hw
        exact absurd hw (by decide)
      · simp at hw
    · rcases List.mem_flatMap.1 hw with ⟨node, -, hwn⟩
      exact absurd hwn (nodeWarnings_ne (by decide))
  · intro h
    refine Or.inl (Or.inl (Or.inl (Or.inl ?_)))
    rw [if_pos ((duplicateOrdersList_pos_iff nodes).2 h)]
    simp

/-! ## C6: terminal-type diagnostic -/

theorem pickLater_of_not_gt {p c : FlowNode}
    (h : ¬ p.data.sequence_order > c.data.sequence_order) : pickLater p c = c := by
  unfold pickLater
  rw [if_neg h]

theorem foldl_pickLater_mem (l : List FlowNode) (a : FlowNode) :
    l.foldl pickLater a = a ∨ l.foldl pickLater a ∈ l := by
  induction l generalizing a with
  | nil => simp
  | cons x xs ih =>
      rw [List.foldl_cons]
      by_cases hax : a.data.sequence_order > x.data.sequence_order
      · have hp : pickLater a x = a := by unfold pickLater; rw [if_pos hax]
        rw [hp]
        rcases ih a with h | h
        · exact Or.inl h
        · exact Or.inr (by simp [h])
      · have hp : pickLater a x = x := by unfold pickLater; rw [if_neg hax]
        rw [hp]
        rcases ih x with h | h
        · exact Or.inr (by simp [h])
        · exact Or.inr (by simp [h])

theorem le_foldl_pickLater (l : List FlowNode) (a : FlowNode) :
    a.data.sequence_order ≤ (l.foldl pickLater a).data.sequence_order ∧
    ∀ x ∈ l, x.data.sequence_order ≤ (l.foldl pickLater a).data.sequence_order := by
  induction l generalizing a with
  | nil => simp
  | cons y ys ih =>
      rw [List.foldl_cons]
      obtain ⟨h1, h2⟩ := ih (pickLater a y)
      have hay : a.data.sequence_order ≤ (pickLater a y).data.sequence_order ∧
          y.data.sequence_order ≤ (pickLater a y).data.sequence_order := by
        unfold pickLater
        split <;> omega
      refine ⟨le_trans hay.1 h1, ?_⟩
      intro x hx
      rcases List.mem_cons.1 hx with rfl | hx'
      · exact le_trans hay.2 h1
      · exact h2 x hx'

/-- `"Flow must end with CONCAT"` sits in `terminalWarning sn` iff `sn` is
nonempty and the fold-selected node is not a CONCAT node. -/
theorem mem_terminalWarning_iff (sn : List FlowNode) :
    "Flow must end with CONCAT" ∈ terminalWarning sn ↔
      (∃ h0 t, sn = h0 :: t ∧
        ((h0 :: t).foldl pickLater h0).data.type ≠ some .concat) := by
  cases sn with
  | nil => simp [terminalWarning]
  | cons h0 t =>
      simp only [terminalWarning]
      split
      · rename_i hcond
        simp only [List.mem_singleton]
        constructor
        · intro _
          exact ⟨h0, t, rfl, hcond⟩
        · intro _
          trivial
      · rename_i hcond
        simp only [List.not_mem_nil, false_iff, not_exists]
        intro h0' t' hc
        obtain ⟨heq, hne⟩ := hc
        rw [List.cons.injEq] at heq
        obtain ⟨hh0, ht⟩ := heq
        subst hh0
        subst ht
        exact hcond hne

/-- C6 (confirmed).  Under distinct non-start sequence_orders: with no
non-start node the terminal-type diagnostic is never emitted; with at least
one, the node the validator selects is a member attaining the strictly
maximal order, and the diagnostic is emitted iff its kind differs from
CONCAT; and appending a node of kind CONCAT with a strictly higher
sequence_order removes the diagnostic. -/
theorem terminal_concat_diag (nodes : List FlowNode) (edges : List FlowEdge)
    (ifl : Bool) (gil : String)
    (hdist : ((nodes.filter fun n => !n.data.isStartNode).map
      (·.data.sequence_order)).Nodup) :
    ((nodes.filter fun n => !n.data.isStartNode) = [] →
      "Flow must end with CONCAT" ∉ flowWarnings nodes edges ifl gil)
    ∧ (∀ h0 t, nodes.filter (fun n => !n.data.isStartNode) = h0 :: t →
        ((h0 :: t).foldl pickLater h0 ∈ h0 :: t ∧
         (∀ n ∈ h0 :: t, n.data.sequence_order ≤
            ((h0 :: t).foldl pickLater h0).data.sequence_order) ∧
         (∀ n ∈ h0 :: t, n ≠ (h0 :: t).foldl pickLater h0 →
            n.data.sequence_order <
              ((h0 :: t).foldl pickLater h0).data.sequence_order) ∧
         ("Flow must end with CONCAT" ∈ flowWarnings nodes edges ifl gil ↔
           ((h0 :: t).foldl pickLater h0).data.type ≠ some .concat)))
    ∧ (∀ X : FlowNode, X.data.isStartNode = false → X.data.type = some .concat →
        (∀ n ∈ nodes.filter fun n => !n.data.isStartNode,
          n.data.sequence_order < X.data.sequence_order) →
        "Flow must end with CONCAT" ∉ flowWarnings (nodes ++ [X]) edges ifl gil) := by
  have hg3 : ∀ (nodes' : List FlowNode),
      ("Flow must end with CONCAT" ∈ flowWarnings nodes' edges ifl gil ↔
        "Flow must end with CONCAT" ∈
          terminalWarning (nodes'.filter fun n => !n.data.isStartNode)) := by
    intro nodes'
    unfold flowWarnings
    simp only [List.mem_append]
    constructor
    · rintro ((((hw | hw) | hw) | hw) | hw)
      · split at hw
        · rw [List.mem_singleton] at hw
          exact absurd hw (by decide)
        · simp at hw
      · split at hw
        · rw [List.mem_singleton] at hw
          exact absurd hw (by decide)
        · simp at hw
      · exact hw
      · split at hw
        · rw [List.mem_singleton] at hw
          exact absurd hw (by decide)
        · simp at hw
      · rcases List.mem_flatMap.1 hw with ⟨node, -, hwn⟩
        exact absurd hwn (nodeWarnings_ne (by decide))
    · intro hw
      exact Or.inl (Or.inl (Or.inr hw))
  have hLmem : ∀ (h0 : FlowNode) (t : List FlowNode),
      (h0 :: t).foldl pickLater h0 ∈ h0 :: t := by
    intro h0 t
    rcases foldl_pickLater_mem (h0 :: t) h0 with h | h
    · rw [h]; simp
    · exact h
  refine ⟨?_, ?_, ?_⟩
  · intro hnil hw
    rw [hg3 nodes, hnil] at hw
    simp [terminalWarning] at hw
  · intro h0 t hsn
    refine ⟨hLmem h0 t, (le_foldl_pickLater (h0 :: t) h0).2, ?_, ?_⟩
    · intro n hn hne
      have hle := (le_foldl_pickLater (h0 :: t) h0).2 n hn
      rcases lt_or_eq_of_le hle with h | h
      · exact h
      · exfalso
        apply hne
        have hnodup : ((h0 :: t).map (·.data.sequence_order)).Nodup := by
          rw [← hsn]
          exact hdist
        exact List.inj_on_of_nodup_map hnodup hn (hLmem h0 t) h
    · rw [hg3 nodes, hsn, mem_terminalWarning_iff]
      constructor
      · rintro ⟨h0', t', heq, hc⟩
        cases heq
        exact hc
      · intro hc
        exact ⟨h0, t, rfl, hc⟩
  · intro X hns htype hmax
    rw [hg3 (nodes ++ [X]), List.filter_append]
    have hX : [X].filter (fun n => !n.data.isStartNode) = [X] := by
      simp [hns]
    rw [hX, mem_terminalWarning_iff]
    rintro ⟨h0', t', heq, hc⟩
    rcases hsn : nodes.filter (fun n => !n.data.isStartNode) with _ | ⟨h0, t⟩ <;>
      rw [hsn] at heq
    · simp only [List.nil_append, List.cons.injEq] at heq
      obtain ⟨hh0, ht⟩ := heq
      subst hh0
      subst ht
      apply hc
      show (pickLater X X).data.type = some .concat
      rw [pickLater_of_not_gt (by omega)]
      exact htype
    · rw [List.cons_append, List.cons.injEq] at heq
      obtain ⟨hh0, ht⟩ := heq
      subst hh0
      subst ht
      apply hc
      have hfold : (h0 :: (t ++ [X])).foldl pickLater h0 = X := by
        have hsplit : h0 :: (t ++ [X]) = (h0 :: t) ++ [X] := by simp
        rw [hsplit, List.foldl_append, List.foldl_cons, List.foldl_nil]
        have hmem' : (h0 :: t).foldl pickLater h0 ∈
            nodes.filter (fun n => !n.data.isStartNode) := by
          rw [hsn]; exact hLmem h0 t
        have hlt := hmax _ hmem'
        exact pickLater_of_not_gt (by omega)
      rw [hfold, htype]

/-- Witness for C6 at concrete inputs: with a non-CONCAT top node the
diagnostic is present; an empty graph is exempt; appending a higher-order
CONCAT node removes it. -/
theorem terminal_concat_diag_witness :
    ("Flow must end with CONCAT" ∈ flowWarnings
      [startNode,
       { id := "a", data := { label := "A", sequence_order := 1, type := some .sql, value := "q" } }]
      [] false "") ∧
    ("Flow must end with CONCAT" ∉ flowWarnings [startNode] [] false "") ∧
    ("Flow must end with CONCAT" ∉ flowWarnings
      ([startNode,
        { id := "a", data := { label := "A", sequence_order := 1, type := some .sql, value := "q" } }] ++
       [{ id := "b", data := { label := "B", sequence_order := 2, type := some .concat, value := "v" } }])
      [] false "") := by
  have h := terminal_concat_diag
    [startNode,
     { id := "a", data := { label := "A", sequence_order := 1, type := some .sql, value := "q" } }]
    [] false "" (by decide)
  have hempty := terminal_concat_diag [startNode] [] false "" (by decide)
  refine ⟨?_, ?_, ?_⟩
  · exact ((h.2.1
      { id := "a", data := { label := "A", sequence_order := 1, type := some .sql, value := "q" } }
      [] (by decide)).2.2.2).2 (by decide)
  · exact hempty.1 (by decide)
  · exact h.2.2
      { id := "b", data := { label := "B", sequence_order := 2, type := some .concat, value := "v" } }
      rfl rfl (by decide)

/-! ## C2: one-hop placeholder rule — string machinery

A lazily-matched placeholder body never contains two adjacent `}` and never
ends in `}` (the scan closes at the first `}}`), which makes
`{{tag}}`-delimited strings uniquely decomposable. -/

theorem findClose_good : ∀ (l acc tag rest), findClose l acc = some (tag, rest) →
    acc.Chain' brPred → (acc.head? = some '}' → l.head? ≠ some '}') →
    tag.Chain' brPred ∧ tag.getLast? ≠ some '}' := by
  intro l
  induction l with
  | nil => intro acc tag rest h; simp [findClose] at h
  | cons c r ih =>
      intro acc tag rest h hacc hhd
      rw [findClose] at h
      split at h
      · rename_i hclose
        obtain ⟨rfl, hr⟩ := hclose
        injection h with h1
        injection h1 with h1 h2
        subst h1
        constructor
        · rw [List.chain'_reverse]
          exact hacc.imp fun a b hab hc => hab ⟨hc.2, hc.1⟩
        · rw [List.getLast?_reverse]
          intro hj
          exact hhd hj rfl
      · split at h
        · exact absurd h (by simp)
        · rename_i hclose hnl
          refine ih (c :: acc) tag rest h ?_ ?_
          · rw [List.chain'_cons']
            refine ⟨?_, hacc⟩
            intro y hy hcy
            have hy' : acc.head? = some y := Option.mem_def.1 hy
            exact hhd (by rw [hy', hcy.2]) (by rw [List.head?_cons, hcy.1])
          · intro hhd2 hrhd
            simp only [List.head?_cons, Option.some.injEq] at hhd2
            exact hclose ⟨hhd2, by simpa using hrhd⟩

theorem extractTagsF_good : ∀ (fuel : Nat) (l : List Char),
    ∀ tag ∈ extractTagsF fuel l, tag.Chain' brPred ∧ tag.getLast? ≠ some '}' := by
  intro fuel
  induction fuel with
  | zero => intro l tag h; simp [extractTagsF] at h
  | succ fuel ih =>
      intro l tag h
      match l with
      | [] => simp [extractTagsF] at h
      | c1 :: rest1 =>
          rw [extractTagsF] at h
          split at h
          · split at h
            · rename_i heq
              rcases List.mem_cons.1 h with rfl | h'
              · exact findClose_good rest1.tail [] _ _ heq (by simp) (by simp)
              · exact ih _ _ h'
            · exact ih _ _ h
          · exact ih _ _ h

theorem dedupKeepFirst_subset : ∀ (l seen : List (List Char)),
    ∀ x ∈ dedupKeepFirst seen l, x ∈ l := by
  intro l
  induction l with
  | nil => intro seen x h; simp [dedupKeepFirst] at h
  | cons y rest ih =>
      intro seen x h
      rw [dedupKeepFirst] at h
      split at h
      · exact List.mem_cons.2 (Or.inr (ih seen x h))
      · rcases List.mem_cons.1 h with rfl | h'
        · simp
        · exact List.mem_cons.2 (Or.inr (ih _ x h'))

/-- Every tag the validator scans out of a value is a well-formed lazy match
body. -/
theorem tags_good {value : String} {tag : List Char}
    (h : tag ∈ dedupKeepFirst [] (extractTags value.data)) :
    tag.Chain' brPred ∧ tag.getLast? ≠ some '}' :=
  extractTagsF_good _ _ tag (dedupKeepFirst_subset _ _ tag h)

/-- Unique decomposition at the first `}}` when neither left part contains
`}}` or ends in `}`. -/
theorem close_decomp : ∀ {t₁ t₂ x y : List Char},
    t₁.Chain' brPred → t₁.getLast? ≠ some '}' →
    t₂.Chain' brPred → t₂.getLast? ≠ some '}' →
    t₁ ++ '}' :: '}' :: x = t₂ ++ '}' :: '}' :: y → t₁ = t₂ ∧ x = y := by
  intro t₁
  induction t₁ with
  | nil =>
      intro t₂ x y _ _ h2 hl2 heq
      match t₂ with
      | [] =>
          simp only [List.nil_append, List.cons.injEq, true_and] at heq
          simp [heq]
      | [d] =>
          simp only [List.nil_append, List.cons_append, List.cons.injEq] at heq
          obtain ⟨rfl, -⟩ := heq
          exact absurd rfl hl2
      | d :: e :: t₂' =>
          simp only [List.nil_append, List.cons_append, List.cons.injEq] at heq
          obtain ⟨rfl, rfl, -⟩ := heq
          rw [List.chain'_cons] at h2
          exact absurd ⟨rfl, rfl⟩ h2.1
  | cons a t₁' ih =>
      intro t₂ x y h1 hl1 h2 hl2 heq
      match t₂ with
      | [] =>
          simp only [List.nil_append, List.cons_append, List.cons.injEq] at heq
          obtain ⟨rfl, heq'⟩ := heq
          match t₁' with
          | [] => exact absurd rfl hl1
          | b :: t₁'' =>
              simp only [List.cons_append, List.cons.injEq] at heq'
              obtain ⟨rfl, -⟩ := heq'
              rw [List.chain'_cons] at h1
              exact absurd ⟨rfl, rfl⟩ h1.1
      | d :: t₂' =>
          simp only [List.cons_append, List.cons.injEq] at heq
          obtain ⟨rfl, heq'⟩ := heq
          have hl1' : t₁'.getLast? ≠ some '}' := by
            cases t₁' with
            | nil => simp
            | cons b t => rw [List.getLast?_cons_cons] at hl1; exact hl1
          have hl2' : t₂'.getLast? ≠ some '}' := by
            cases t₂' with
            | nil => simp
            | cons b t => rw [List.getLast?_cons_cons] at hl2; exact hl2
          obtain ⟨ht, hxy⟩ := ih h1.tail hl1' h2.tail hl2' heq'
          exact ⟨by rw [ht]; simp, hxy⟩

theorem isDigit_ne {c d : Char} (h : c.isDigit = true) (hd : d.isDigit = false) :
    c ≠ d := by
  intro hc
  subst hc
  rw [h] at hd
  exact absurd hd (by simp)

theorem intRepr_ne_char {i : Int} {d : Char} (hd : d.isDigit = false)
    (hdash : d ≠ '-') : ∀ c ∈ intRepr i, c ≠ d := by
  intro c hc
  rcases mem_intRepr i c hc with h | h
  · exact isDigit_ne h hd
  · subst h
    exact fun hcon => hdash hcon.symm

/-- Two per-node warning strings agree only if the step orders and the
post-colon tails agree. -/
theorem stepString_inj {o₁ o₂ : Int} {x y : List Char}
    (h : stepPrefix o₁ ++ x = stepPrefix o₂ ++ y) : o₁ = o₂ ∧ x = y := by
  unfold stepPrefix at h
  have h' : "Step ".data ++ (intRepr o₁ ++ ':' :: (' ' :: x)) =
      "Step ".data ++ (intRepr o₂ ++ ':' :: (' ' :: y)) := by
    have e1 : ∀ (o : Int) (z : List Char),
        ("Step ".data ++ intRepr o ++ ": ".data) ++ z =
        "Step ".data ++ (intRepr o ++ ':' :: (' ' :: z)) := by
      intro o z
      simp [List.append_assoc]
    rw [← e1, ← e1, h]
  have h2 := List.append_cancel_left h'
  obtain ⟨h3, h4⟩ := sep_decomp
    (intRepr_ne_char (by decide) (by decide))
    (intRepr_ne_char (by decide) (by decide)) h2
  refine ⟨intRepr_injective h3, ?_⟩
  injection h4

/-- The code-side predecessor check, in spec form: some direct predecessor
edge (the start node *included*) comes from a node of the stated order. -/
theorem hasPred_iff (nodes : List FlowNode) (edges : List FlowEdge)
    (node : FlowNode) (N : Int) :
    ((nodes.filter fun n =>
        ((edges.filter fun e => e.target == node.id).map (·.source)).contains n.id).any
      fun p => p.data.sequence_order == N) = true ↔
    ∃ p ∈ nodes, (∃ e ∈ edges, e.source = p.id ∧ e.target = node.id) ∧
      p.data.sequence_order = N := by
  simp only [List.any_eq_true, List.mem_filter, List.contains_eq_any_beq,
    List.any_eq_true, List.mem_map, List.mem_filter, beq_iff_eq]
  constructor
  · rintro ⟨p, ⟨hp, s, ⟨e, ⟨he, ht⟩, rfl⟩, hsrc⟩, hord⟩
    exact ⟨p, hp, ⟨e, he, by simp [hsrc], by simpa using ht⟩, hord⟩
  · rintro ⟨p, hp, ⟨e, he, hsrc, ht⟩, hord⟩
    exact ⟨p, ⟨hp, e.source, ⟨e, ⟨he, by simp [ht]⟩, rfl⟩, by simp [hsrc]⟩, hord⟩

/-- Canonical right-nested decomposition of a placeholder diagnostic. -/
theorem phWarn_data (o : Int) (tag : List Char) (N : Int) :
    (phWarn o tag N).data =
      stepPrefix o ++ ('{' :: '{' :: (tag ++ ('}' :: '}' ::
        (" used but Step ".data ++ (intRepr N ++ " is not connected".data))))) := by
  show (stepPrefix o ++ "\x7b\x7b".data ++ tag ++ "\x7d\x7d used but Step ".data ++
      intRepr N ++ " is not connected".data) = _
  simp only [List.append_assoc]
  rfl

/-- If a placeholder diagnostic (for a `step_`-prefixed well-formed tag)
occurs among the per-node warnings of some node, that node is a non-start
node carrying the diagnostic's order, and the code-side predecessor check
for the diagnostic's step number failed at that node. -/
theorem nodeWarnings_phWarn_decode {nodes : List FlowNode} {edges : List FlowEdge}
    {ifl : Bool} {node' : FlowNode} {o : Int} {tag : List Char} {N : Int}
    (hchain : tag.Chain' brPred) (hlast : tag.getLast? ≠ some '}')
    (hpre : "step_".data.isPrefixOf tag = true)
    (hw : phWarn o tag N ∈ nodeWarnings nodes edges ifl node') :
    node'.data.isStartNode = false ∧ node'.data.sequence_order = o ∧
    ((nodes.filter fun n =>
        ((edges.filter fun e => e.target == node'.id).map (·.source)).contains n.id).any
      fun p => p.data.sequence_order == N) = false := by
  obtain ⟨t5, ht5⟩ : ∃ t5, "step_".data ++ t5 = tag := by
    rw [List.isPrefixOf_iff_prefix] at hpre
    obtain ⟨t5, h⟩ := hpre
    exact ⟨t5, h⟩
  unfold nodeWarnings at hw
  split at hw
  · simp at hw
  · rename_i hstart
    refine ⟨by simpa using hstart, ?_⟩
    simp only [List.mem_append] at hw
    rcases hw with (hw | hw) | hw
    · split at hw
      · rw [List.mem_singleton] at hw
        have hdata := congrArg String.data hw
        rw [phWarn_data] at hdata
        obtain ⟨-, hX⟩ := stepString_inj hdata
        have h5 := congrArg List.head? hX
        rw [List.head?_cons,
          show ("SQL Query is empty".data).head? = some 'S' from rfl] at h5
        exact absurd h5 (by decide)
      · simp at hw
    · split at hw
      · rw [List.mem_singleton] at hw
        have hdata := congrArg String.data hw
        rw [phWarn_data] at hdata
        obtain ⟨-, hX⟩ := stepString_inj hdata
        have h5 := congrArg List.head? hX
        rw [List.head?_cons,
          show ("Incomplete Time Configuration".data).head? = some 'I' from rfl] at h5
        exact absurd h5 (by decide)
      · simp at hw
    · rcases List.mem_flatMap.1 hw with ⟨tag', htag', hw⟩
      split at hw
      · split at hw
        · rw [List.mem_singleton] at hw
          have hdata := congrArg String.data hw
          rw [phWarn_data] at hdata
          obtain ⟨-, hX⟩ := stepString_inj hdata
          have h5 := congrArg List.head? (congrArg (List.drop 2) hX)
          rw [show List.drop 2 ('{' :: '{' :: (tag ++ ('}' :: '}' ::
                (" used but Step ".data ++ (intRepr N ++ " is not connected".data))))) =
              tag ++ ('}' :: '}' :: (" used but Step ".data ++
                (intRepr N ++ " is not connected".data))) from rfl,
            ← ht5,
            show ((("step_".data ++ t5) ++ ('}' :: '}' :: (" used but Step ".data ++
                (intRepr N ++ " is not connected".data))))).head? = some 's' from rfl,
            show ((List.drop 2
              ("\x7b\x7biteration_value\x7d\x7d requires Iterated Flow".data)).head?) =
              some 'i' from rfl] at h5
          exact absurd h5 (by decide)
        · split at hw
          · rw [List.mem_singleton] at hw
            have hdata := congrArg String.data hw
            rw [phWarn_data] at hdata
            obtain ⟨-, hX⟩ := stepString_inj hdata
            have h5 := congrArg List.head? (congrArg (List.drop 2) hX)
            rw [show List.drop 2 ('{' :: '{' :: (tag ++ ('}' :: '}' ::
                  (" used but Step ".data ++ (intRepr N ++ " is not connected".data))))) =
                tag ++ ('}' :: '}' :: (" used but Step ".data ++
                  (intRepr N ++ " is not connected".data))) from rfl,
              ← ht5,
              show ((("step_".data ++ t5) ++ ('}' :: '}' :: (" used but Step ".data ++
                  (intRepr N ++ " is not connected".data))))).head? = some 's' from rfl,
              show ((List.drop 2
                ("\x7b\x7biteration_value\x7d\x7d used but not connected to Start".data)).head?) =
                some 'i' from rfl] at h5
            exact absurd h5 (by decide)
          · simp at hw
      · split at hw
        · split at hw
          · simp at hw
          · rename_i n' hn'
            split at hw
            · simp at hw
            · rename_i hany
              rw [List.mem_singleton] at hw
              have hdata := congrArg String.data hw
              rw [phWarn_data, phWarn_data] at hdata
              obtain ⟨ho, hX⟩ := stepString_inj hdata
              have hX2 : tag ++ ('}' :: '}' :: (" used but Step ".data ++
                  (intRepr N ++ " is not connected".data))) =
                  tag' ++ ('}' :: '}' :: (" used but Step ".data ++
                  (intRepr n' ++ " is not connected".data))) := by
                have := hX
                injection this with h1 this
                injection this
              obtain ⟨hgood', hlast'⟩ := tags_good htag'
              obtain ⟨-, hrest⟩ := close_decomp hchain hlast hgood' hlast' hX2
              have hrest2 := List.append_cancel_left hrest
              have hNn : N = n' := by
                have hsep : intRepr N ++ ' ' :: "is not connected".data =
                    intRepr n' ++ ' ' :: "is not connected".data := by
                  have e2 : ∀ (M : Int), intRepr M ++ " is not connected".data =
                      intRepr M ++ ' ' :: "is not connected".data := by
                    intro M
                    rfl
                  rw [← e2, ← e2, hrest2]
                exact intRepr_injective (sep_decomp
                  (intRepr_ne_char (by decide) (by decide))
                  (intRepr_ne_char (by decide) (by decide)) hsep).1
              subst hNn
              exact ⟨ho.symm, by simpa using hany⟩
        · simp at hw

/-- C2 counterexample.  With content `\x7b\x7bstep_0\x7d\x7d` and a direct edge *from
the start node*, the validator emits no diagnostic at all — the code counts
the start node (sequence_order 0) as a qualifying predecessor, while the
claim excludes edges sourced at start and therefore demands a diagnostic
here. -/
theorem placeholder_start_pred_counterexample :
    (flowWarnings
      [startNode,
       { id := "x", data := { label := "X", sequence_order := 1, type := some .concat,
                              value := "\x7b\x7bstep_0\x7d\x7d" } }]
      [⟨"e", "start", "x"⟩] false "") = [] ∧
    "step_".data.isPrefixOf "step_0".data = true ∧
    parseIntChars ("step_0".data.drop 5) = .int 0 ∧
    "step_0".data ∈ dedupKeepFirst []
      (extractTags ("\x7b\x7bstep_0\x7d\x7d" : String).data) ∧
    ¬ ∃ p ∈ [startNode,
       { id := "x", data := { label := "X", sequence_order := 1, type := some .concat,
                              value := "\x7b\x7bstep_0\x7d\x7d" } }],
        p.data.isStartNode = false ∧
        (∃ e ∈ [(⟨"e", "start", "x"⟩ : FlowEdge)], e.source = p.id ∧ e.target = "x") ∧
        p.data.sequence_order = 0 := by
  refine ⟨by decide, by decide, by decide, by decide, by decide⟩

/-- C2 (corrected).  For a node whose content contains a `\x7b\x7bstep_N\x7d\x7d` tag
(`N` an integer): the validator emits no diagnostic for that tag if and only
if some direct predecessor edge comes from a node of sequence_order `N` —
the start node, at sequence_order 0, *included* (the code does not exclude
start-sourced edges from this check); a merely transitive path still
triggers the diagnostic. -/
theorem placeholder_one_hop_iff (nodes : List FlowNode) (edges : List FlowEdge)
    (ifl : Bool) (gil : String) (node : FlowNode) (tag : List Char) (N : Int)
    (hmem : node ∈ nodes) (hns : node.data.isStartNode = false)
    (hdist : ((nodes.filter fun n => !n.data.isStartNode).map
      (·.data.sequence_order)).Nodup)
    (htag : tag ∈ dedupKeepFirst [] (extractTags node.data.value.data))
    (hpre : "step_".data.isPrefixOf tag = true)
    (hN : parseIntChars (tag.drop 5) = .int N) :
    phWarn node.data.sequence_order tag N ∉ flowWarnings nodes edges ifl gil ↔
      ∃ p ∈ nodes, (∃ e ∈ edges, e.source = p.id ∧ e.target = node.id) ∧
        p.data.sequence_order = N := by
  obtain ⟨hchain, hlast⟩ := tags_good htag
  have hne_iter : ¬ tag = "iteration_value".data := by
    rw [List.isPrefixOf_iff_prefix] at hpre
    obtain ⟨t5, ht5⟩ := hpre
    intro hc
    rw [← ht5] at hc
    have := congrArg List.head? hc
    rw [show (("step_".data ++ t5)).head? = some 's' from rfl,
      show ("iteration_value".data).head? = some 'i' from rfl] at this
    exact absurd this (by decide)
  constructor
  · intro hnw
    by_contra hno
    apply hnw
    unfold flowWarnings
    refine List.mem_append.2 (Or.inr (List.mem_flatMap.2 ⟨node, hmem, ?_⟩))
    unfold nodeWarnings
    rw [if_neg (by simp [hns])]
    refine List.mem_append.2 (Or.inr (List.mem_flatMap.2 ⟨tag, htag, ?_⟩))
    rw [if_neg hne_iter, if_pos hpre]
    simp only [hN]
    rw [if_neg (fun hc => hno ((hasPred_iff nodes edges node N).1 hc))]
    simp
  · intro hex hw
    unfold flowWarnings at hw
    simp only [List.mem_append] at hw
    rcases hw with (((hw | hw) | hw) | hw) | hw
    · split at hw
      · rw [List.mem_singleton] at hw
        have h5 := congrArg (fun s => s.data.head?) hw
        simp only [phWarn_data] at h5
        rw [stepPrefix_head] at h5
        exact absurd h5 (by decide)
      · simp at hw
    · split at hw
      · rw [List.mem_singleton] at hw
        have h5 := congrArg (fun s => s.data.head?) hw
        simp only [phWarn_data] at h5
        rw [stepPrefix_head] at h5
        exact absurd h5 (by decide)
      · simp at hw
    · have h5 := terminalWarning_mem_eq hw
      have h6 := congrArg (fun s => s.data.head?) h5
      simp only [phWarn_data] at h6
      rw [stepPrefix_head] at h6
      exact absurd h6 (by decide)
    · split at hw
      · rw [List.mem_singleton] at hw
        have h5 := congrArg (fun s => s.data.head?) hw
        simp only [phWarn_data] at h5
        rw [stepPrefix_head] at h5
        exact absurd h5 (by decide)
      · simp at hw
    · rcases List.mem_flatMap.1 hw with ⟨node', hmem', hwn⟩
      obtain ⟨hns', hord', hany'⟩ := nodeWarnings_phWarn_decode hchain hlast hpre hwn
      have heq : node' = node := by
        apply List.inj_on_of_nodup_map hdist
          (List.mem_filter.2 ⟨hmem', by simp [hns']⟩)
          (List.mem_filter.2 ⟨hmem, by simp [hns]⟩)
        exact hord'
      subst heq
      rw [← Bool.not_eq_true, hasPred_iff] at hany'
      exact hany' hex

/-- Witness for C2 at concrete inputs: the theorem applied to a graph where
`\x7b\x7bstep_1\x7d\x7d` is consumed with only a transitive path to the order-1 node
(diagnostic present), using the iff's forward content via its contrapositive:
the diagnostic is indeed in the warning list. -/
theorem placeholder_one_hop_iff_witness :
    (phWarn 3 "step_1".data 1 ∈ flowWarnings
      [startNode,
       { id := "a", data := { label := "A", sequence_order := 1, type := some .sql, value := "q" } },
       { id := "b", data := { label := "B", sequence_order := 2, type := some .sql, value := "q" } },
       { id := "c", data := { label := "C", sequence_order := 3, type := some .concat,
                              value := "\x7b\x7bstep_1\x7d\x7d" } }]
      [⟨"e1", "a", "b"⟩, ⟨"e2", "b", "c"⟩] false "") ∧
    (phWarn 2 "step_1".data 1 ∉ flowWarnings
      [startNode,
       { id := "a", data := { label := "A", sequence_order := 1, type := some .sql, value := "q" } },
       { id := "b", data := { label := "B", sequence_order := 2, type := some .concat,
                              value := "\x7b\x7bstep_1\x7d\x7d" } }]
      [⟨"e1", "a", "b"⟩] false "") := by
  constructor
  · by_contra habs
    have h := (placeholder_one_hop_iff
      [startNode,
       { id := "a", data := { label := "A", sequence_order := 1, type := some .sql, value := "q" } },
       { id := "b", data := { label := "B", sequence_order := 2, type := some .sql, value := "q" } },
       { id := "c", data := { label := "C", sequence_order := 3, type := some .concat,
                              value := "\x7b\x7bstep_1\x7d\x7d" } }]
      [⟨"e1", "a", "b"⟩, ⟨"e2", "b", "c"⟩] false ""
      { id := "c", data := { label := "C", sequence_order := 3, type := some .concat,
                             value := "\x7b\x7bstep_1\x7d\x7d" } }
      "step_1".data 1 (by simp) rfl (by decide) (by decide) (by decide) (by decide)).1 habs
    exact absurd h (by decide)
  · exact (placeholder_one_hop_iff
      [startNode,
       { id := "a", data := { label := "A", sequence_order := 1, type := some .sql, value := "q" } },
       { id := "b", data := { label := "B", sequence_order := 2, type := some .concat,
                              value := "\x7b\x7bstep_1\x7d\x7d" } }]
      [⟨"e1", "a", "b"⟩] false ""
      { id := "b", data := { label := "B", sequence_order := 2, type := some .concat,
                             value := "\x7b\x7bstep_1\x7d\x7d" } }
      "step_1".data 1 (by simp) rfl (by decide) (by decide) (by decide) (by decide)).2
      ⟨{ id := "a", data := { label := "A", sequence_order := 1, type := some .sql, value := "q" } },
       by simp, ⟨⟨"e1", "a", "b"⟩, by simp, rfl, rfl⟩, rfl⟩

/-! ## Lemmas: the sequence-order lookup and the edge construction of the
reconstructor -/

theorem mkId_ne_empty (i : Nat) (o : Int) : mkId i o ≠ "" := by
  unfold mkId
  intro h
  have := congrArg (fun s => s.data.head?) h
  simp at this

theorem seqLookup_cons_some {k : Nat} {s : FlowStep} {rest : List FlowStep}
    {o : Int} {id : String} (h : seqLookup (k + 1) rest o = some id) :
    seqLookup k (s :: rest) o = some id := by
  rw [seqLookup, h]

theorem seqLookup_cons_none {k : Nat} {s : FlowStep} {rest : List FlowStep}
    {o : Int} (h : seqLookup (k + 1) rest o = none) :
    seqLookup k (s :: rest) o =
      if s.sequence_order = o then some (mkId k s.sequence_order) else none := by
  rw [seqLookup, h]

theorem seqLookup_none_iff {o : Int} :
    ∀ (steps : List FlowStep) (k : Nat),
      seqLookup k steps o = none ↔ ∀ s ∈ steps, s.sequence_order ≠ o := by
  intro steps
  induction steps with
  | nil => intro k; simp [seqLookup]
  | cons s rest ih =>
      intro k
      constructor
      · intro h t ht
        cases hr : seqLookup (k + 1) rest o with
        | some id =>
            rw [seqLookup_cons_some hr] at h
            exact Option.noConfusion h
        | none =>
            rw [seqLookup_cons_none hr] at h
            rcases List.mem_cons.1 ht with h1 | h1
            · subst h1
              intro hso
              rw [if_pos hso] at h
              exact Option.noConfusion h
            · exact (ih (k + 1)).1 hr t h1
      · intro h
        have hrest : seqLookup (k + 1) rest o = none :=
          (ih (k + 1)).2 fun t ht => h t (List.mem_cons_of_mem _ ht)
        rw [seqLookup_cons_none hrest, if_neg (h s (List.mem_cons_self s rest))]

/-- A successful lookup returns the id of an entry carrying the looked-up
order that is the *last* such entry. -/
theorem seqLookup_some_inv {o : Int} :
    ∀ (steps : List FlowStep) (k : Nat) (id : String),
      seqLookup k steps o = some id →
      ∃ p, ∃ hp : p < steps.length,
        (steps.get ⟨p, hp⟩).sequence_order = o ∧ id = mkId (k + p) o ∧
        ∀ q, ∀ hq : q < steps.length, p < q →
          (steps.get ⟨q, hq⟩).sequence_order ≠ o := by
  intro steps
  induction steps with
  | nil => intro k id h; exact Option.noConfusion h
  | cons s rest ih =>
      intro k id h
      cases hr : seqLookup (k + 1) rest o with
      | some id' =>
          rw [seqLookup_cons_some hr] at h
          have hii := Option.some.inj h
          subst hii
          obtain ⟨p, hp, hord, hid, hlast⟩ := ih (k + 1) id' hr
          refine ⟨p + 1, Nat.succ_lt_succ hp, hord, ?_, ?_⟩
          · rw [hid]
            have he : k + 1 + p = k + (p + 1) := by omega
            rw [he]
          · intro q hq hpq
            cases q with
            | zero => exact absurd hpq (by omega)
            | succ q' =>
                exact hlast q' (Nat.lt_of_succ_lt_succ hq)
                  (Nat.lt_of_succ_lt_succ hpq)
      | none =>
          rw [seqLookup_cons_none hr] at h
          by_cases hso : s.sequence_order = o
          · rw [if_pos hso] at h
            obtain rfl : mkId k s.sequence_order = id := Option.some.inj h
            refine ⟨0, Nat.succ_pos _, hso, ?_, ?_⟩
            · rw [hso, Nat.add_zero]
            · intro q hq h0q
              cases q with
              | zero => exact absurd h0q (by omega)
              | succ q' =>
                  intro hbad
                  exact (seqLookup_none_iff rest (k + 1)).1 hr
                    (rest.get ⟨q', Nat.lt_of_succ_lt_succ hq⟩)
                    (List.get_mem rest q' (Nat.lt_of_succ_lt_succ hq)) hbad
          · rw [if_neg hso] at h
            exact Option.noConfusion h

/-- The lookup resolves to the last entry carrying the looked-up order. -/
theorem seqLookup_last {o : Int} :
    ∀ (steps : List FlowStep) (k j : Nat) (hj : j < steps.length),
      (steps.get ⟨j, hj⟩).sequence_order = o →
      (∀ q, ∀ hq : q < steps.length, j < q →
        (steps.get ⟨q, hq⟩).sequence_order ≠ o) →
      seqLookup k steps o = some (mkId (k + j) o) := by
  intro steps
  induction steps with
  | nil => intro k j hj; exact absurd hj (by simp)
  | cons s rest ih =>
      intro k j hj hord hlast
      cases j with
      | zero =>
          have hord' : s.sequence_order = o := hord
          have hrest : seqLookup (k + 1) rest o = none := by
            refine (seqLookup_none_iff rest (k + 1)).2 ?_
            intro t ht
            obtain ⟨⟨q, hq⟩, rfl⟩ := List.mem_iff_get.1 ht
            exact hlast (q + 1) (Nat.succ_lt_succ hq) (Nat.succ_pos q)
          rw [seqLookup_cons_none hrest, if_pos hord', hord', Nat.add_zero]
      | succ j' =>
          have hj' : j' < rest.length := Nat.lt_of_succ_lt_succ hj
          have hrest : seqLookup (k + 1) rest o = some (mkId (k + 1 + j') o) :=
            ih (k + 1) j' hj' hord fun q hq hjq =>
              hlast (q + 1) (Nat.succ_lt_succ hq) (Nat.succ_lt_succ hjq)
          rw [seqLookup_cons_some hrest]
          have he : k + 1 + j' = k + (j' + 1) := by omega
          rw [he]

theorem nodup_orders_get_inj {steps : List FlowStep}
    (hnd : (steps.map fun s => s.sequence_order).Nodup)
    {p q : Nat} (hp : p < steps.length) (hq : q < steps.length)
    (h : (steps.get ⟨p, hp⟩).sequence_order =
      (steps.get ⟨q, hq⟩).sequence_order) : p = q := by
  have hp' : p < (steps.map fun s => s.sequence_order).length := by simpa using hp
  have hq' : q < (steps.map fun s => s.sequence_order).length := by simpa using hq
  have h2 : (steps.map fun s => s.sequence_order).get ⟨p, hp'⟩ =
      (steps.map fun s => s.sequence_order).get ⟨q, hq'⟩ := by
    simp only [List.get_map]
    exact h
  exact congrArg Fin.val ((List.Nodup.get_inj_iff hnd).1 h2)

theorem nodup_orders_entry {steps : List FlowStep}
    (hnd : (steps.map fun s => s.sequence_order).Nodup)
    {t : FlowStep} (ht : t ∈ steps) {p : Nat} (hp : p < steps.length)
    (h : t.sequence_order = (steps.get ⟨p, hp⟩).sequence_order) :
    t = steps.get ⟨p, hp⟩ := by
  obtain ⟨⟨q, hq⟩, rfl⟩ := List.mem_iff_get.1 ht
  obtain rfl : q = p := nodup_orders_get_inj hnd hq hp h
  rfl

/-- Under pairwise-distinct orders the lookup of an entry's order returns
precisely that entry's id. -/
theorem seqLookup_nodup {steps : List FlowStep}
    (hnd : (steps.map fun s => s.sequence_order).Nodup)
    {i : Nat} (hi : i < steps.length) :
    seqLookup 0 steps (steps.get ⟨i, hi⟩).sequence_order =
      some (mkId i (steps.get ⟨i, hi⟩).sequence_order) := by
  have h := seqLookup_last steps 0 i hi rfl fun q hq hiq hbad =>
    absurd (nodup_orders_get_inj hnd hq hi hbad) (by omega)
  simpa using h

theorem iterEdges_some {json : FlowJson} {l : List Int}
    (h : json.iterable_steps = some l) :
    iterEdges json =
      if json.iterate_flow then
        l.filterMap fun seq => (seqLookup 0 json.steps seq).map startEdgeFor
      else [] := by
  unfold iterEdges; rw [h]

theorem iterEdges_none {json : FlowJson} (h : json.iterable_steps = none) :
    iterEdges json = [] := by
  unfold iterEdges; rw [h]

theorem stepEdges_dep {json : FlowJson} {s : FlowStep} {dep : DependsOn}
    (h : s.depends_on = some dep) :
    stepEdges json s = (parseDeps dep).filterMap fun jn =>
      match jn with
      | .nan => none
      | .int o =>
          match seqLookup 0 json.steps o,
                seqLookup 0 json.steps s.sequence_order with
          | some sid, some tid => some (depEdgeFor sid tid)
          | _, _ => none := by
  unfold stepEdges; rw [h]

theorem stepEdges_no_dep {json : FlowJson} {s : FlowStep}
    (h : s.depends_on = none) :
    stepEdges json s =
      if s.sequence_order = 1 then
        if json.iterate_flow && (json.iterable_steps.getD []).contains 1 then []
        else [startEdgeFor ((seqLookup 0 json.steps s.sequence_order).getD "")]
      else
        match seqLookup 0 json.steps (s.sequence_order - 1),
              seqLookup 0 json.steps s.sequence_order with
        | some sid, some tid => [depEdgeFor sid tid]
        | _, _ => [] := by
  unfold stepEdges; rw [h]

/-- Every edge of a restored flow stems from the iterable pass or from the
processing of one step record. -/
theorem restore_edges_split {json : FlowJson} {e : FlowEdge}
    (he : e ∈ (restoreFlow json).edges) :
    (∃ l, json.iterable_steps = some l ∧ json.iterate_flow = true ∧
        ∃ seq ∈ l, ∃ tid, seqLookup 0 json.steps seq = some tid ∧
          e = startEdgeFor tid)
    ∨ (∃ t ∈ json.steps, e ∈ stepEdges json t) := by
  have he' : e ∈ iterEdges json ∨ e ∈ json.steps.flatMap (stepEdges json) := by
    have h0 : e ∈ iterEdges json ++ json.steps.flatMap (stepEdges json) := he
    exact List.mem_append.1 h0
  rcases he' with h | h
  · left
    cases hl : json.iterable_steps with
    | none =>
        rw [iterEdges_none hl] at h
        exact absurd h (List.not_mem_nil e)
    | some l =>
        rw [iterEdges_some hl] at h
        by_cases hit : json.iterate_flow = true
        · rw [if_pos hit] at h
          obtain ⟨seq, hseq, hmap⟩ := List.mem_filterMap.1 h
          obtain ⟨tid, htid, heq⟩ := Option.map_eq_some'.1 hmap
          exact ⟨l, rfl, hit, seq, hseq, tid, htid, heq.symm⟩
        · rw [if_neg hit] at h
          exact absurd h (List.not_mem_nil e)
  · right
    exact List.mem_flatMap.1 h

/-- **C9** (confirmed).  When several step records share a sequence_order, the
reconstructor's order-to-id lookup retains the node built from the *last*
such record, and every edge of the restored graph avoids the node built from
any earlier duplicate record entirely: that node is materialized but is the
source or target of no edge. -/
theorem import_last_duplicate_wins (json : FlowJson) (i j : Nat) (o : Int)
    (hi : i < json.steps.length) (hj : j < json.steps.length) (hij : i < j)
    (hoi : (json.steps.get ⟨i, hi⟩).sequence_order = o)
    (hoj : (json.steps.get ⟨j, hj⟩).sequence_order = o)
    (hlast : ∀ q, ∀ hq : q < json.steps.length, j < q →
      (json.steps.get ⟨q, hq⟩).sequence_order ≠ o) :
    seqLookup 0 json.steps o = some (mkId j o) ∧
    mkNode i (json.steps.get ⟨i, hi⟩) ∈ (restoreFlow json).nodes ∧
    ∀ e ∈ (restoreFlow json).edges,
      e.source ≠ mkId i o ∧ e.target ≠ mkId i o := by
  have hkey : ∀ (o' : Int) (id : String),
      seqLookup 0 json.steps o' = some id → id ≠ mkId i o := by
    intro o' id hl heq
    obtain ⟨p, hp, hordp, hidp, hlastp⟩ := seqLookup_some_inv json.steps 0 id hl
    rw [heq] at hidp
    obtain ⟨hip, hoo⟩ := mkId_injective hidp
    subst hoo
    obtain rfl : p = i := by omega
    exact hlastp j hj hij hoj
  have hstart : ∀ id : String, id = "start" → id ≠ mkId i o := by
    intro id hid heq
    exact mkId_ne_start i o (hid ▸ heq).symm
  refine ⟨?_, ?_, ?_⟩
  · have h := seqLookup_last json.steps 0 j hj hoj hlast
    simpa using h
  · have h : ∀ (steps : List FlowStep) (k p : Nat) (hp : p < steps.length),
        mkNode (k + p) (steps.get ⟨p, hp⟩) ∈ buildNodes k steps := by
      intro steps
      induction steps with
      | nil => intro k p hp; exact absurd hp (by simp)
      | cons s rest ih =>
          intro k p hp
          cases p with
          | zero =>
              rw [Nat.add_zero]
              exact List.mem_cons_self _ _
          | succ p' =>
              have h2 := ih (k + 1) p' (Nat.lt_of_succ_lt_succ hp)
              have he : k + 1 + p' = k + (p' + 1) := by omega
              rw [he] at h2
              exact List.mem_cons_of_mem _ h2
    have h2 := h json.steps 0 i hi
    rw [Nat.zero_add] at h2
    exact List.mem_cons_of_mem _ h2
  · intro e he
    rcases restore_edges_split he with
      ⟨l, hl, hit, seq, hseq, tid, htid, rfl⟩ | ⟨t, ht, hte⟩
    · exact ⟨hstart _ rfl, hkey _ _ htid⟩
    · cases hdep : t.depends_on with
      | some dep =>
          rw [stepEdges_dep hdep] at hte
          obtain ⟨jn, hjn, hf⟩ := List.mem_filterMap.1 hte
          cases jn with
          | nan => exact Option.noConfusion hf
          | int o'' =>
              have hf' : (match seqLookup 0 json.steps o'',
                  seqLookup 0 json.steps t.sequence_order with
                | some sid, some tid => some (depEdgeFor sid tid)
                | _, _ => none) = some e := hf
              cases h1 : seqLookup 0 json.steps o'' with
              | none =>
                  rw [h1] at hf'
                  exact Option.noConfusion hf'
              | some sid =>
                  cases h2 : seqLookup 0 json.steps t.sequence_order with
                  | none =>
                      rw [h1, h2] at hf'
                      exact Option.noConfusion hf'
                  | some tid =>
                      rw [h1, h2] at hf'
                      obtain rfl : depEdgeFor sid tid = e := Option.some.inj hf'
                      exact ⟨hkey _ _ h1, hkey _ _ h2⟩
      | none =>
          rw [stepEdges_no_dep hdep] at hte
          by_cases h1 : t.sequence_order = 1
          · rw [if_pos h1] at hte
            by_cases hii : (json.iterate_flow &&
                (json.iterable_steps.getD []).contains 1) = true
            · rw [if_pos hii] at hte
              exact absurd hte (List.not_mem_nil e)
            · rw [if_neg hii] at hte
              obtain rfl := List.mem_singleton.1 hte
              refine ⟨hstart _ rfl, ?_⟩
              cases h2 : seqLookup 0 json.steps t.sequence_order with
              | none =>
                  intro hx
                  exact mkId_ne_empty i o hx.symm
              | some tid =>
                  exact hkey _ _ h2
          · rw [if_neg h1] at hte
            cases h2 : seqLookup 0 json.steps (t.sequence_order - 1) with
            | none =>
                rw [h2] at hte
                exact absurd hte (List.not_mem_nil e)
            | some sid =>
                cases h3 : seqLookup 0 json.steps t.sequence_order with
                | none =>
                    rw [h2, h3] at hte
                    exact absurd hte (List.not_mem_nil e)
                | some tid =>
                    rw [h2, h3] at hte
                    obtain rfl := List.mem_singleton.1 hte
                    exact ⟨hkey _ _ h2, hkey _ _ h3⟩

/-- Witness for C9 at a concrete two-record document whose records both carry
sequence_order 5. -/
theorem import_last_duplicate_wins_witness :
    seqLookup 0
        [({ sequence_order := 5, sequence_name := "a", value := "" } : FlowStep),
         { sequence_order := 5, sequence_name := "b", value := "" }] 5 =
      some (mkId 1 5) ∧
    mkNode 0 { sequence_order := 5, sequence_name := "a", value := "" } ∈
      (restoreFlow { flow_name := "f", iterate_flow := false,
                     steps := [{ sequence_order := 5, sequence_name := "a",
                                 value := "" },
                               { sequence_order := 5, sequence_name := "b",
                                 value := "" }] }).nodes ∧
    ∀ e ∈ (restoreFlow { flow_name := "f", iterate_flow := false,
                         steps := [{ sequence_order := 5,
                                     sequence_name := "a", value := "" },
                                   { sequence_order := 5,
                                     sequence_name := "b",
                                     value := "" }] }).edges,
      e.source ≠ mkId 0 5 ∧ e.target ≠ mkId 0 5 := by
  exact import_last_duplicate_wins
    { flow_name := "f", iterate_flow := false,
      steps := [{ sequence_order := 5, sequence_name := "a", value := "" },
        { sequence_order := 5, sequence_name := "b", value := "" }] }
    0 1 5 (by decide) (by decide) (by decide) (by decide) (by decide)
    (by
      intro q hq hlt
      simp only [List.length_cons, List.length_nil] at hq
      omega)

/-- C10 counterexample: a step record with no `depends_on` and
sequence_order 5 still receives a start edge, because `iterate_flow` is on
and `iterable_steps` lists order 5 — refuting "connects it to the start node
only when its sequence_order is exactly 1". -/
theorem positional_fallback_counterexample :
    ∃ e ∈ (restoreFlow { flow_name := "f", iterate_flow := true,
                          iterable_steps := some [5],
                          steps := [{ sequence_order := 5,
                                      sequence_name := "a", value := "",
                                      depends_on := none }] }).edges,
      e.source = "start" ∧ e.target = mkId 0 5 ∧ (5 : Int) ≠ 1 := by
  decide

/-- **C10** (corrected).  For a step record with no `depends_on`, under
pairwise-distinct sequence_orders and provided the record is not itself an
iterable step (those get a start edge regardless of order): it is connected
to the start node iff its sequence_order is exactly 1; for any other order n
a dependency edge from the node with order n−1 is materialized whenever some
record carries order n−1; and when no record carries order n−1 the node is
materialized with no incoming edge at all, silently. -/
theorem positional_fallback_characterization (json : FlowJson) (i : Nat)
    (hi : i < json.steps.length)
    (hnd : (json.steps.map fun s => s.sequence_order).Nodup)
    (hdep : (json.steps.get ⟨i, hi⟩).depends_on = none)
    (hnit : (json.iterate_flow &&
      (json.iterable_steps.getD []).contains
        (json.steps.get ⟨i, hi⟩).sequence_order) = false) :
    ((∃ e ∈ (restoreFlow json).edges, e.source = "start" ∧
        e.target = mkId i (json.steps.get ⟨i, hi⟩).sequence_order) ↔
      (json.steps.get ⟨i, hi⟩).sequence_order = 1) ∧
    (∀ p, ∀ hp : p < json.steps.length,
      (json.steps.get ⟨i, hi⟩).sequence_order ≠ 1 →
      (json.steps.get ⟨p, hp⟩).sequence_order =
        (json.steps.get ⟨i, hi⟩).sequence_order - 1 →
      depEdgeFor (mkId p ((json.steps.get ⟨i, hi⟩).sequence_order - 1))
          (mkId i (json.steps.get ⟨i, hi⟩).sequence_order) ∈
        (restoreFlow json).edges) ∧
    ((json.steps.get ⟨i, hi⟩).sequence_order ≠ 1 →
      (∀ t ∈ json.steps, t.sequence_order ≠
        (json.steps.get ⟨i, hi⟩).sequence_order - 1) →
      ∀ e ∈ (restoreFlow json).edges,
        e.target ≠ mkId i (json.steps.get ⟨i, hi⟩).sequence_order) := by
  have hiterbad : ∀ {l : List Int} {seq : Int},
      json.iterable_steps = some l → json.iterate_flow = true → seq ∈ l →
      seq = (json.steps.get ⟨i, hi⟩).sequence_order → False := by
    intro l seq hl hit hseq hseqo
    rw [hit, hl] at hnit
    simp only [Option.getD_some, Bool.true_and] at hnit
    have hc : l.contains (json.steps.get ⟨i, hi⟩).sequence_order = true :=
      List.elem_iff.mpr (hseqo ▸ hseq)
    rw [hnit] at hc
    exact Bool.noConfusion hc
  have htgtinv : ∀ {o' : Int} {tid : String},
      seqLookup 0 json.steps o' = some tid →
      tid = mkId i (json.steps.get ⟨i, hi⟩).sequence_order →
      o' = (json.steps.get ⟨i, hi⟩).sequence_order ∧
        ∃ hp : i < json.steps.length,
          (json.steps.get ⟨i, hp⟩).sequence_order = o' := by
    intro o' tid hl heq
    obtain ⟨p, hp, hordp, hidp, hlastp⟩ := seqLookup_some_inv json.steps 0 tid hl
    obtain ⟨hpi, hoo⟩ := mkId_injective (hidp.symm.trans heq)
    obtain rfl : p = i := by omega
    exact ⟨hoo, hp, hordp⟩
  refine ⟨⟨?_, ?_⟩, ?_, ?_⟩
  · rintro ⟨e, he, hsrc, htgt⟩
    rcases restore_edges_split he with
      ⟨l, hl, hit, seq, hseq, tid, htid, rfl⟩ | ⟨t, ht, hte⟩
    · obtain ⟨hseqo, -⟩ := htgtinv htid htgt
      exact (hiterbad hl hit hseq hseqo).elim
    · cases hdep' : t.depends_on with
      | some dep =>
          rw [stepEdges_dep hdep'] at hte
          obtain ⟨jn, hjn, hf⟩ := List.mem_filterMap.1 hte
          cases jn with
          | nan => exact Option.noConfusion hf
          | int o'' =>
              have hf' : (match seqLookup 0 json.steps o'',
                  seqLookup 0 json.steps t.sequence_order with
                | some sid, some tid => some (depEdgeFor sid tid)
                | _, _ => none) = some e := hf
              cases h1 : seqLookup 0 json.steps o'' with
              | none => rw [h1] at hf'; exact Option.noConfusion hf'
              | some sid =>
                  cases h2 : seqLookup 0 json.steps t.sequence_order with
                  | none => rw [h1, h2] at hf'; exact Option.noConfusion hf'
                  | some tid =>
                      rw [h1, h2] at hf'
                      obtain rfl := Option.some.inj hf'
                      obtain ⟨p, hp, hordp, hidp, -⟩ :=
                        seqLookup_some_inv json.steps 0 sid h1
                      exact absurd (hidp ▸ hsrc) (mkId_ne_start _ _)
      | none =>
          rw [stepEdges_no_dep hdep'] at hte
          by_cases h1 : t.sequence_order = 1
          · rw [if_pos h1] at hte
            by_cases hii : (json.iterate_flow &&
                (json.iterable_steps.getD []).contains 1) = true
            · rw [if_pos hii] at hte
              exact absurd hte (List.not_mem_nil e)
            · rw [if_neg hii] at hte
              obtain rfl := List.mem_singleton.1 hte
              cases h2 : seqLookup 0 json.steps t.sequence_order with
              | none =>
                  rw [h2] at htgt
                  exact absurd htgt.symm (mkId_ne_empty _ _)
              | some tid =>
                  rw [h2] at htgt
                  obtain ⟨hseqo, -⟩ := htgtinv h2 htgt
                  rw [← hseqo, h1]
          · rw [if_neg h1] at hte
            cases h2 : seqLookup 0 json.steps (t.sequence_order - 1) with
            | none =>
                rw [h2] at hte
                exact absurd hte (List.not_mem_nil e)
            | some sid =>
                cases h3 : seqLookup 0 json.steps t.sequence_order with
                | none =>
                    rw [h2, h3] at hte
                    exact absurd hte (List.not_mem_nil e)
                | some tid =>
                    rw [h2, h3] at hte
                    obtain rfl := List.mem_singleton.1 hte
                    obtain ⟨p, hp, hordp, hidp, -⟩ :=
                      seqLookup_some_inv json.steps 0 sid h2
                    exact absurd (hidp ▸ hsrc) (mkId_ne_start _ _)
  · intro h1
    have hlook : seqLookup 0 json.steps
        (json.steps.get ⟨i, hi⟩).sequence_order =
        some (mkId i (json.steps.get ⟨i, hi⟩).sequence_order) :=
      seqLookup_nodup hnd hi
    have hii : (json.iterate_flow &&
        (json.iterable_steps.getD []).contains 1) = false := by
      rw [← h1]; exact hnit
    refine ⟨startEdgeFor (mkId i (json.steps.get ⟨i, hi⟩).sequence_order),
      ?_, rfl, rfl⟩
    have hmem : startEdgeFor (mkId i (json.steps.get ⟨i, hi⟩).sequence_order) ∈
        stepEdges json (json.steps.get ⟨i, hi⟩) := by
      rw [stepEdges_no_dep hdep, if_pos h1, if_neg (by rw [hii]; exact Bool.false_ne_true),
        hlook]
      exact List.mem_singleton.2 rfl
    exact List.mem_append.2 (Or.inr (List.mem_flatMap.2
      ⟨json.steps.get ⟨i, hi⟩, List.get_mem json.steps i hi, hmem⟩))
  · intro p hp hne1 hpord
    have hlookt : seqLookup 0 json.steps
        (json.steps.get ⟨i, hi⟩).sequence_order =
        some (mkId i (json.steps.get ⟨i, hi⟩).sequence_order) :=
      seqLookup_nodup hnd hi
    have hlooks : seqLookup 0 json.steps
        ((json.steps.get ⟨i, hi⟩).sequence_order - 1) =
        some (mkId p ((json.steps.get ⟨i, hi⟩).sequence_order - 1)) := by
      have h := seqLookup_nodup hnd hp
      rw [hpord] at h
      exact h
    have hmem : depEdgeFor (mkId p ((json.steps.get ⟨i, hi⟩).sequence_order - 1))
        (mkId i (json.steps.get ⟨i, hi⟩).sequence_order) ∈
        stepEdges json (json.steps.get ⟨i, hi⟩) := by
      rw [stepEdges_no_dep hdep, if_neg hne1, hlooks, hlookt]
      exact List.mem_singleton.2 rfl
    exact List.mem_append.2 (Or.inr (List.mem_flatMap.2
      ⟨json.steps.get ⟨i, hi⟩, List.get_mem json.steps i hi, hmem⟩))
  · intro hne1 hnopred e he htgt
    rcases restore_edges_split he with
      ⟨l, hl, hit, seq, hseq, tid, htid, rfl⟩ | ⟨t, ht, hte⟩
    · obtain ⟨hseqo, -⟩ := htgtinv htid htgt
      exact hiterbad hl hit hseq hseqo
    · cases hdep' : t.depends_on with
      | some dep =>
          rw [stepEdges_dep hdep'] at hte
          obtain ⟨jn, hjn, hf⟩ := List.mem_filterMap.1 hte
          cases jn with
          | nan => exact Option.noConfusion hf
          | int o'' =>
              have hf' : (match seqLookup 0 json.steps o'',
                  seqLookup 0 json.steps t.sequence_order with
                | some sid, some tid => some (depEdgeFor sid tid)
                | _, _ => none) = some e := hf
              cases h1 : seqLookup 0 json.steps o'' with
              | none => rw [h1] at hf'; exact Option.noConfusion hf'
              | some sid =>
                  cases h2 : seqLookup 0 json.steps t.sequence_order with
                  | none => rw [h1, h2] at hf'; exact Option.noConfusion hf'
                  | some tid =>
                      rw [h1, h2] at hf'
                      obtain rfl := Option.some.inj hf'
                      obtain ⟨hseqo, hp', hordp⟩ := htgtinv h2 htgt
                      have ht_eq : t = json.steps.get ⟨i, hi⟩ :=
                        nodup_orders_entry hnd ht hi (by rw [hseqo])
                      rw [ht_eq, hdep] at hdep'
                      exact Option.noConfusion hdep'
      | none =>
          rw [stepEdges_no_dep hdep'] at hte
          by_cases h1 : t.sequence_order = 1
          · rw [if_pos h1] at hte
            by_cases hii : (json.iterate_flow &&
                (json.iterable_steps.getD []).contains 1) = true
            · rw [if_pos hii] at hte
              exact absurd hte (List.not_mem_nil e)
            · rw [if_neg hii] at hte
              obtain rfl := List.mem_singleton.1 hte
              cases h2 : seqLookup 0 json.steps t.sequence_order with
              | none =>
                  rw [h2] at htgt
                  exact absurd htgt.symm (mkId_ne_empty _ _)
              | some tid =>
                  rw [h2] at htgt
                  obtain ⟨hseqo, -⟩ := htgtinv h2 htgt
                  have ht_eq : t = json.steps.get ⟨i, hi⟩ :=
                    nodup_orders_entry hnd ht hi (by rw [hseqo])
                  rw [ht_eq] at h1
                  exact hne1 h1
          · rw [if_neg h1] at hte
            cases h2 : seqLookup 0 json.steps (t.sequence_order - 1) with
            | none =>
                rw [h2] at hte
                exact absurd hte (List.not_mem_nil e)
            | some sid =>
                cases h3 : seqLookup 0 json.steps t.sequence_order with
                | none =>
                    rw [h2, h3] at hte
                    exact absurd hte (List.not_mem_nil e)
                | some tid =>
                    rw [h2, h3] at hte
                    obtain rfl := List.mem_singleton.1 hte
                    obtain ⟨hseqo, -⟩ := htgtinv h3 htgt
                    have ht_eq : t = json.steps.get ⟨i, hi⟩ :=
                      nodup_orders_entry hnd ht hi (by rw [hseqo])
                    obtain ⟨p, hp, hordp, -, -⟩ :=
                      seqLookup_some_inv json.steps 0 sid h2
                    refine hnopred (json.steps.get ⟨p, hp⟩)
                      (List.get_mem json.steps p hp) ?_
                    rw [hordp, ht_eq]

/-- Witness for C10 at a concrete two-record document (orders 2 and 1, no
`depends_on`, no iteration): the order-2 record gets no start edge, and gets
the dependency edge from the order-1 node. -/
theorem positional_fallback_characterization_witness :
    ((∃ e ∈ (restoreFlow { flow_name := "f", iterate_flow := false,
                           steps := [{ sequence_order := 2,
                                       sequence_name := "a", value := "" },
                                     { sequence_order := 1,
                                       sequence_name := "b",
                                       value := "" }] }).edges,
        e.source = "start" ∧ e.target = mkId 0 2) ↔ (2 : Int) = 1) ∧
    depEdgeFor (mkId 1 1) (mkId 0 2) ∈
      (restoreFlow { flow_name := "f", iterate_flow := false,
                     steps := [{ sequence_order := 2,
                                 sequence_name := "a", value := "" },
                               { sequence_order := 1,
                                 sequence_name := "b",
                                 value := "" }] }).edges := by
  refine ⟨(positional_fallback_characterization
      { flow_name := "f", iterate_flow := false,
        steps := [{ sequence_order := 2, sequence_name := "a", value := "" },
                  { sequence_order := 1, sequence_name := "b", value := "" }] }
      0 (by decide) (by decide) rfl (by decide)).1, ?_⟩
  exact (positional_fallback_characterization
      { flow_name := "f", iterate_flow := false,
        steps := [{ sequence_order := 2, sequence_name := "a", value := "" },
                  { sequence_order := 1, sequence_name := "b", value := "" }] }
      0 (by decide) (by decide) rfl (by decide)).2.1
    1 (by decide) (by decide) (by decide)

/-! ## Lemmas: towards the second-pass fixed point -/

/-- C1 counterexample: compiling an empty graph under an empty flow name,
reconstructing, and compiling again yields a different document — the
reconstructor substitutes the default name "Imported Flow". -/
theorem second_pass_counterexample :
    compileFlow
        (restoreFlow (compileFlow [startNode] []
          { iterateFlow := false, getIterateList := "", flowName := "" })).nodes
        (restoreFlow (compileFlow [startNode] []
          { iterateFlow := false, getIterateList := "", flowName := "" })).edges
        (restoreFlow (compileFlow [startNode] []
          { iterateFlow := false, getIterateList := "", flowName := "" })).config ≠
      compileFlow [startNode] []
        { iterateFlow := false, getIterateList := "", flowName := "" } := by
  decide

theorem flowJson_ext {a b : FlowJson} (h1 : a.flow_name = b.flow_name)
    (h2 : a.iterate_flow = b.iterate_flow)
    (h3 : a.iterable_steps = b.iterable_steps)
    (h4 : a.get_iterate_list = b.get_iterate_list)
    (h5 : a.steps = b.steps) : a = b := by
  cases a
  cases b
  simp only [FlowJson.mk.injEq]
  exact ⟨h1, h2, h3, h4, h5⟩

theorem keepTruthyStr_idem (x : Option String) :
    keepTruthyStr (keepTruthyStr x) = keepTruthyStr x := by
  cases x with
  | none => rfl
  | some s =>
      by_cases h : s = ""
      · simp [keepTruthyStr, h]
      · simp [keepTruthyStr, h]

theorem buildNodes_length : ∀ (steps : List FlowStep) (k : Nat),
    (buildNodes k steps).length = steps.length := by
  intro steps
  induction steps with
  | nil => intro k; rfl
  | cons s rest ih => intro k; simp [buildNodes, ih]

theorem buildNodes_get : ∀ (steps : List FlowStep) (k p : Nat)
    (hp' : p < (buildNodes k steps).length) (hp : p < steps.length),
    (buildNodes k steps).get ⟨p, hp'⟩ = mkNode (k + p) (steps.get ⟨p, hp⟩) := by
  intro steps
  induction steps with
  | nil => intro k p hp' hp; exact absurd hp (by simp)
  | cons s rest ih =>
      intro k p hp' hp
      cases p with
      | zero => rw [Nat.add_zero]; rfl
      | succ p' =>
          have h := ih (k + 1) p'
            (by rw [buildNodes_length]; exact Nat.lt_of_succ_lt_succ hp)
            (Nat.lt_of_succ_lt_succ hp)
          have he : k + 1 + p' = k + (p' + 1) := by omega
          rw [he] at h
          exact h

theorem buildNodes_mem_ex : ∀ {n : FlowNode} (steps : List FlowStep) (k : Nat),
    n ∈ buildNodes k steps →
    ∃ p, ∃ hp : p < steps.length, n = mkNode (k + p) (steps.get ⟨p, hp⟩) := by
  intro n steps
  induction steps with
  | nil => intro k h; exact absurd h (List.not_mem_nil n)
  | cons s rest ih =>
      intro k h
      rcases List.mem_cons.1 h with h | h
      · exact ⟨0, Nat.succ_pos _, by rw [Nat.add_zero]; exact h⟩
      · obtain ⟨p, hp, heq⟩ := ih (k + 1) h
        refine ⟨p + 1, Nat.succ_lt_succ hp, ?_⟩
        have he : k + 1 + p = k + (p + 1) := by omega
        rw [he] at heq
        exact heq

theorem buildNodes_map_order : ∀ (steps : List FlowStep) (k : Nat),
    (buildNodes k steps).map (fun n => n.data.sequence_order) =
      steps.map fun s => s.sequence_order := by
  intro steps
  induction steps with
  | nil => intro k; rfl
  | cons s rest ih => intro k; simp [buildNodes, mkNode, ih]

theorem nodeLe_total : ∀ a b : FlowNode, nodeLe a b || nodeLe b a := by
  intro a b
  unfold nodeLe
  rcases Int.le_total a.data.sequence_order b.data.sequence_order with h | h
  · simp [h]
  · simp [h]

theorem nodeLe_trans : ∀ a b c : FlowNode,
    nodeLe a b = true → nodeLe b c = true → nodeLe a c = true := by
  intro a b c hab hbc
  unfold nodeLe at hab hbc ⊢
  exact decide_eq_true (le_trans (of_decide_eq_true hab) (of_decide_eq_true hbc))

theorem timeRangeStr_ne_empty (a : JsNum) (g : TimeGrain) :
    timeRangeStr a g ≠ "" := by
  unfold timeRangeStr
  intro h
  have := congrArg (fun s => s.data.head?) h
  simp at this

theorem parseTimeFields_none {s : FlowStep} (h : s.time_range = none) :
    parseTimeFields s = (none, s.time_grain) := by
  unfold parseTimeFields; rw [h]

theorem parseTimeFields_some {s : FlowStep} {tr : String}
    (h : s.time_range = some tr) :
    parseTimeFields s =
      if tr = "" then (none, s.time_grain)
      else
        let parts := jsSplit '_' tr.data
        if parts.length ≥ 3 then
          let grainStr0 := parts.getD 2 []
          let grainStr := if grainStr0.getLast? = some 's' then
            grainStr0.dropLast else grainStr0
          (some (parseIntChars (parts.getD 1 [])), parseGrain grainStr)
        else (none, none) := by
  unfold parseTimeFields; rw [h]

theorem jsSplit_timeRangeStr (i : Int) (g : TimeGrain) :
    jsSplit '_' (timeRangeStr (.int i) g).data =
      ["last".data, intRepr i, g.str ++ ['s']] := by
  have hform : (timeRangeStr (.int i) g).data =
      joinSep '_' ["last".data, intRepr i, g.str ++ ['s']] := by
    show "last_".data ++ intRepr i ++ '_' :: g.str ++ ['s'] =
      "last".data ++ '_' :: joinSep '_' [intRepr i, g.str ++ ['s']]
    show "last_".data ++ intRepr i ++ '_' :: g.str ++ ['s'] =
      "last".data ++ '_' :: (intRepr i ++ '_' :: (g.str ++ ['s']))
    have h1 : "last_".data = "last".data ++ ['_'] := rfl
    rw [h1]
    simp [List.append_assoc]
  rw [hform]
  refine jsSplit_joinSep (by simp) ?_
  intro t ht c hc
  have hlast : ∀ c ∈ "last".data, c ≠ '_' := by decide
  have hgr : ∀ c ∈ g.str ++ ['s'], c ≠ '_' := by
    cases g <;> decide
  rcases List.mem_cons.1 ht with rfl | ht'
  · exact hlast c hc
  rcases List.mem_cons.1 ht' with rfl | ht''
  · rcases mem_intRepr i c hc with hd | hd
    · exact isDigit_ne hd (by decide)
    · rw [hd]; decide
  rcases List.mem_cons.1 ht'' with rfl | ht'''
  · exact hgr c hc
  · exact absurd ht''' (List.not_mem_nil t)

theorem parseTimeFields_timeRange {s : FlowStep} {i : Int} {g : TimeGrain}
    (h : s.time_range = some (timeRangeStr (.int i) g)) :
    parseTimeFields s = (some (.int i), some g) := by
  rw [parseTimeFields_some h, if_neg (timeRangeStr_ne_empty _ _)]
  simp only [jsSplit_timeRangeStr]
  rw [if_pos (by simp)]
  have hgd2 : (["last".data, intRepr i, g.str ++ ['s']].getD 2 []) =
      g.str ++ ['s'] := rfl
  have hgd1 : (["last".data, intRepr i, g.str ++ ['s']].getD 1 []) =
      intRepr i := rfl
  rw [hgd2, hgd1, List.getLast?_concat, if_pos rfl, List.dropLast_concat,
    parseIntChars_intRepr]
  cases g <;> rfl

theorem parseDeps_joined (l : List Int) (hl : l ≠ []) :
    parseDeps (.str (String.mk (joinSep ',' (l.map intRepr)))) =
      l.map JsNum.int := by
  show (jsSplit ',' (joinSep ',' (l.map intRepr))).map
      (fun t => parseIntChars (jsTrim t)) = l.map JsNum.int
  rw [jsSplit_joinSep (by simpa using hl) ?hsep]
  case hsep =>
    intro t ht c hc
    obtain ⟨o, ho, rfl⟩ := List.mem_map.1 ht
    rcases mem_intRepr o c hc with hd | hd
    · exact isDigit_ne hd (by decide)
    · rw [hd]; decide
  rw [List.map_map]
  refine List.map_eq_map_iff.mpr ?_
  intro o ho
  show parseIntChars (jsTrim (intRepr o)) = JsNum.int o
  rw [jsTrim_intRepr, parseIntChars_intRepr]

/-- Filtering a duplicate-free list down to the members of one of its
sublists recovers that sublist. -/
theorem filter_mem_sublist {α : Type} [DecidableEq α] {M L : List α}
    (h : List.Sublist M L) (hnd : L.Nodup) :
    (L.filter fun a => decide (a ∈ M)) = M := by
  induction h with
  | slnil => rfl
  | @cons l₁ l₂ a h ih =>
      rw [List.filter_cons]
      have ha : a ∉ l₁ := fun hm =>
        (List.nodup_cons.1 hnd).1 (List.Sublist.subset h hm)
      rw [if_neg (by simpa using ha)]
      exact ih (List.nodup_cons.1 hnd).2
  | @cons₂ l₁ l₂ a h ih =>
      rw [List.filter_cons, if_pos (by simp)]
      have hcong : ∀ x ∈ l₂, (decide (x ∈ a :: l₁)) = decide (x ∈ l₁) := by
        intro x hx
        have hxa : x ≠ a := fun he => (List.nodup_cons.1 hnd).1 (he ▸ hx)
        simp [List.mem_cons, hxa]
      rw [List.filter_congr hcong, ih (List.nodup_cons.1 hnd).2]

theorem mem_dependsOnOrdersOf {ns : List FlowNode} {es : List FlowEdge}
    {X : FlowNode} {o : Int} :
    o ∈ dependsOnOrdersOf ns es X ↔
      ∃ n ∈ ns, n.data.isStartNode = false ∧ n.data.sequence_order = o ∧
        ∃ e ∈ es, e.target = X.id ∧ e.source ≠ "start" ∧ e.source = n.id := by
  simp only [dependsOnOrdersOf]
  rw [List.Perm.mem_iff (stableSort_perm _ _)]
  constructor
  · intro h
    obtain ⟨n, hn, rfl⟩ := List.mem_map.1 h
    obtain ⟨hmem, hcond⟩ := List.mem_filter.1 hn
    rw [Bool.and_eq_true] at hcond
    obtain ⟨hcont, hns⟩ := hcond
    have hns' : n.data.isStartNode = false := by simpa using hns
    have hid : n.id ∈ (es.filter fun e =>
        e.target == X.id && e.source != "start").map (fun e => e.source) :=
      List.elem_iff.mp hcont
    obtain ⟨e, he, hesrc⟩ := List.mem_map.1 hid
    obtain ⟨hees, hecond⟩ := List.mem_filter.1 he
    rw [Bool.and_eq_true, beq_iff_eq, bne_iff_ne] at hecond
    exact ⟨n, hmem, hns', rfl, e, hees, hecond.1, hecond.2, hesrc⟩
  · rintro ⟨n, hmem, hns, rfl, e, hees, htgt, hsrc, hesrc⟩
    refine List.mem_map.2 ⟨n, List.mem_filter.2 ⟨hmem, ?_⟩, rfl⟩
    rw [Bool.and_eq_true]
    refine ⟨List.elem_iff.mpr ?_, by simp [hns]⟩
    exact List.mem_map.2 ⟨e, List.mem_filter.2 ⟨hees,
      by rw [Bool.and_eq_true, beq_iff_eq, bne_iff_ne]; exact ⟨htgt, hsrc⟩⟩,
      hesrc⟩

/-- A lookup result that coincides with the id of the node built at index `p`
was necessarily the lookup of that node's order (the uniquifier inside the id
is injective). -/
theorem seqLookup_hit {json : FlowJson} {p : Nat}
    (hp : p < json.steps.length) {o' : Int} {tid : String}
    (hl : seqLookup 0 json.steps o' = some tid)
    (heq : tid = mkId p (json.steps.get ⟨p, hp⟩).sequence_order) :
    o' = (json.steps.get ⟨p, hp⟩).sequence_order := by
  obtain ⟨q, hq, hordq, hidq, -⟩ := seqLookup_some_inv json.steps 0 tid hl
  obtain ⟨hqp, hoo⟩ := mkId_injective (hidq.symm.trans heq)
  exact hoo

/-- Every edge of the restored graph that targets the node built at index `p`
and does not come from the start node is a dependency edge produced while
processing record `p` itself: either from an explicit `depends_on` entry or
from the positional fallback at order − 1. -/
theorem restore_incoming_nonstart {json : FlowJson}
    (hnd : (json.steps.map fun s => s.sequence_order).Nodup)
    {p : Nat} (hp : p < json.steps.length) {e : FlowEdge}
    (he : e ∈ (restoreFlow json).edges)
    (htgt : e.target = mkId p (json.steps.get ⟨p, hp⟩).sequence_order)
    (hsrc : e.source ≠ "start") :
    (∃ dep, (json.steps.get ⟨p, hp⟩).depends_on = some dep ∧
        ∃ o'', JsNum.int o'' ∈ parseDeps dep ∧
          ∃ q, ∃ hq : q < json.steps.length,
            (json.steps.get ⟨q, hq⟩).sequence_order = o'' ∧
            e = depEdgeFor (mkId q o'')
                  (mkId p (json.steps.get ⟨p, hp⟩).sequence_order))
    ∨ ((json.steps.get ⟨p, hp⟩).depends_on = none ∧
        (json.steps.get ⟨p, hp⟩).sequence_order ≠ 1 ∧
        ∃ q, ∃ hq : q < json.steps.length,
          (json.steps.get ⟨q, hq⟩).sequence_order =
            (json.steps.get ⟨p, hp⟩).sequence_order - 1 ∧
          e = depEdgeFor
                (mkId q ((json.steps.get ⟨p, hp⟩).sequence_order - 1))
                (mkId p (json.steps.get ⟨p, hp⟩).sequence_order)) := by
  rcases restore_edges_split he with
    ⟨l, hl, hit, seq, hseq, tid, htid, rfl⟩ | ⟨t, ht, hte⟩
  · exact absurd rfl hsrc
  · cases hdep' : t.depends_on with
    | some dep =>
        rw [stepEdges_dep hdep'] at hte
        obtain ⟨jn, hjn, hf⟩ := List.mem_filterMap.1 hte
        cases jn with
        | nan => exact Option.noConfusion hf
        | int o'' =>
            have hf' : (match seqLookup 0 json.steps o'',
                seqLookup 0 json.steps t.sequence_order with
              | some sid, some tid => some (depEdgeFor sid tid)
              | _, _ => none) = some e := hf
            cases h1 : seqLookup 0 json.steps o'' with
            | none => rw [h1] at hf'; exact Option.noConfusion hf'
            | some sid =>
                cases h2 : seqLookup 0 json.steps t.sequence_order with
                | none => rw [h1, h2] at hf'; exact Option.noConfusion hf'
                | some tid =>
                    rw [h1, h2] at hf'
                    obtain rfl := Option.some.inj hf'
                    have hto : t.sequence_order =
                        (json.steps.get ⟨p, hp⟩).sequence_order :=
                      seqLookup_hit hp h2 htgt
                    have ht_eq : t = json.steps.get ⟨p, hp⟩ :=
                      nodup_orders_entry hnd ht hp hto
                    obtain ⟨q, hq, hordq, hidq, -⟩ :=
                      seqLookup_some_inv json.steps 0 sid h1
                    left
                    refine ⟨dep, by rw [← ht_eq]; exact hdep', o'', hjn,
                      q, hq, hordq, ?_⟩
                    have hsid : sid = mkId q o'' := by
                      rw [hidq, Nat.zero_add]
                    rw [hsid, show tid =
                      mkId p (json.steps.get ⟨p, hp⟩).sequence_order from htgt]
    | none =>
        rw [stepEdges_no_dep hdep'] at hte
        by_cases h1 : t.sequence_order = 1
        · rw [if_pos h1] at hte
          by_cases hii : (json.iterate_flow &&
              (json.iterable_steps.getD []).contains 1) = true
          · rw [if_pos hii] at hte
            exact absurd hte (List.not_mem_nil e)
          · rw [if_neg hii] at hte
            obtain rfl := List.mem_singleton.1 hte
            exact absurd rfl hsrc
        · rw [if_neg h1] at hte
          cases h2 : seqLookup 0 json.steps (t.sequence_order - 1) with
          | none =>
              rw [h2] at hte
              exact absurd hte (List.not_mem_nil e)
          | some sid =>
              cases h3 : seqLookup 0 json.steps t.sequence_order with
              | none =>
                  rw [h2, h3] at hte
                  exact absurd hte (List.not_mem_nil e)
              | some tid =>
                  rw [h2, h3] at hte
                  obtain rfl := List.mem_singleton.1 hte
                  have hto : t.sequence_order =
                      (json.steps.get ⟨p, hp⟩).sequence_order :=
                    seqLookup_hit hp h3 htgt
                  have ht_eq : t = json.steps.get ⟨p, hp⟩ :=
                    nodup_orders_entry hnd ht hp hto
                  obtain ⟨q, hq, hordq, hidq, -⟩ :=
                    seqLookup_some_inv json.steps 0 sid h2
                  right
                  refine ⟨by rw [← ht_eq]; exact hdep', by rw [← hto]; exact h1,
                    q, hq, by rw [hordq, hto], ?_⟩
                  have hsid : sid = mkId q (t.sequence_order - 1) := by
                    rw [hidq, Nat.zero_add]
                  rw [hsid, hto,
                    show tid = mkId p (json.steps.get ⟨p, hp⟩).sequence_order
                      from htgt]

/-- The dependency edge for an explicit `depends_on` entry that resolves is
present in the restored graph. -/
theorem restore_dep_edge_mem {json : FlowJson}
    (hnd : (json.steps.map fun s => s.sequence_order).Nodup)
    {p : Nat} (hp : p < json.steps.length) {dep : DependsOn}
    (hdep : (json.steps.get ⟨p, hp⟩).depends_on = some dep)
    {o'' : Int} (ho : JsNum.int o'' ∈ parseDeps dep)
    {q : Nat} (hq : q < json.steps.length)
    (hqo : (json.steps.get ⟨q, hq⟩).sequence_order = o'') :
    depEdgeFor (mkId q o'') (mkId p (json.steps.get ⟨p, hp⟩).sequence_order) ∈
      (restoreFlow json).edges := by
  have hlookq : seqLookup 0 json.steps o'' = some (mkId q o'') := by
    have h := seqLookup_nodup hnd hq
    rw [hqo] at h
    exact h
  have hlookp := seqLookup_nodup hnd hp
  have hmem : depEdgeFor (mkId q o'')
      (mkId p (json.steps.get ⟨p, hp⟩).sequence_order) ∈
      stepEdges json (json.steps.get ⟨p, hp⟩) := by
    rw [stepEdges_dep hdep]
    refine List.mem_filterMap.2 ⟨JsNum.int o'', ho, ?_⟩
    show (match seqLookup 0 json.steps o'',
        seqLookup 0 json.steps (json.steps.get ⟨p, hp⟩).sequence_order with
      | some sid, some tid => some (depEdgeFor sid tid)
      | _, _ => none) = some (depEdgeFor (mkId q o'')
        (mkId p (json.steps.get ⟨p, hp⟩).sequence_order))
    rw [hlookq, hlookp]
  exact List.mem_append.2 (Or.inr (List.mem_flatMap.2
    ⟨json.steps.get ⟨p, hp⟩, List.get_mem json.steps p hp, hmem⟩))

/-- The node built at index `p` has an incoming start edge exactly when its
order is listed among the iterable steps (with iteration on), or when its
record has no `depends_on`, carries order 1, and is not itself iterated. -/
theorem restore_start_edge_iff {json : FlowJson}
    (hnd : (json.steps.map fun s => s.sequence_order).Nodup)
    {p : Nat} (hp : p < json.steps.length) :
    (∃ e ∈ (restoreFlow json).edges, e.source = "start" ∧
        e.target = mkId p (json.steps.get ⟨p, hp⟩).sequence_order) ↔
      ((json.iterate_flow = true ∧
          (json.steps.get ⟨p, hp⟩).sequence_order ∈
            json.iterable_steps.getD []) ∨
       ((json.steps.get ⟨p, hp⟩).depends_on = none ∧
         (json.steps.get ⟨p, hp⟩).sequence_order = 1 ∧
         (json.iterate_flow &&
           (json.iterable_steps.getD []).contains 1) = false)) := by
  constructor
  · rintro ⟨e, he, hsrc, htgt⟩
    rcases restore_edges_split he with
      ⟨l, hl, hit, seq, hseq, tid, htid, rfl⟩ | ⟨t, ht, hte⟩
    · left
      refine ⟨hit, ?_⟩
      rw [hl]
      exact (seqLookup_hit hp htid htgt) ▸ hseq
    · cases hdep' : t.depends_on with
      | some dep =>
          rw [stepEdges_dep hdep'] at hte
          obtain ⟨jn, hjn, hf⟩ := List.mem_filterMap.1 hte
          cases jn with
          | nan => exact Option.noConfusion hf
          | int o'' =>
              have hf' : (match seqLookup 0 json.steps o'',
                  seqLookup 0 json.steps t.sequence_order with
                | some sid, some tid => some (depEdgeFor sid tid)
                | _, _ => none) = some e := hf
              cases h1 : seqLookup 0 json.steps o'' with
              | none => rw [h1] at hf'; exact Option.noConfusion hf'
              | some sid =>
                  cases h2 : seqLookup 0 json.steps t.sequence_order with
                  | none => rw [h1, h2] at hf'; exact Option.noConfusion hf'
                  | some tid =>
                      rw [h1, h2] at hf'
                      obtain rfl := Option.some.inj hf'
                      obtain ⟨q, hq, hordq, hidq, -⟩ :=
                        seqLookup_some_inv json.steps 0 sid h1
                      exact absurd (hidq ▸ hsrc) (mkId_ne_start _ _)
      | none =>
          rw [stepEdges_no_dep hdep'] at hte
          by_cases h1 : t.sequence_order = 1
          · rw [if_pos h1] at hte
            by_cases hii : (json.iterate_flow &&
                (json.iterable_steps.getD []).contains 1) = true
            · rw [if_pos hii] at hte
              exact absurd hte (List.not_mem_nil e)
            · rw [if_neg hii] at hte
              obtain rfl := List.mem_singleton.1 hte
              cases h2 : seqLookup 0 json.steps t.sequence_order with
              | none =>
                  rw [h2] at htgt
                  exact absurd htgt.symm (mkId_ne_empty _ _)
              | some tid =>
                  rw [h2] at htgt
                  have hto : t.sequence_order =
                      (json.steps.get ⟨p, hp⟩).sequence_order :=
                    seqLookup_hit hp h2 htgt
                  have ht_eq : t = json.steps.get ⟨p, hp⟩ :=
                    nodup_orders_entry hnd ht hp hto
                  right
                  refine ⟨by rw [← ht_eq]; exact hdep',
                    by rw [← hto]; exact h1, by simpa using hii⟩
          · rw [if_neg h1] at hte
            cases h2 : seqLookup 0 json.steps (t.sequence_order - 1) with
            | none =>
                rw [h2] at hte
                exact absurd hte (List.not_mem_nil e)
            | some sid =>
                cases h3 : seqLookup 0 json.steps t.sequence_order with
                | none =>
                    rw [h2, h3] at hte
                    exact absurd hte (List.not_mem_nil e)
                | some tid =>
                    rw [h2, h3] at hte
                    obtain rfl := List.mem_singleton.1 hte
                    obtain ⟨q, hq, hordq, hidq, -⟩ :=
                      seqLookup_some_inv json.steps 0 sid h2
                    exact absurd (hidq ▸ hsrc) (mkId_ne_start _ _)
  · intro h
    rcases h with ⟨hit, hmem⟩ | ⟨hdep0, h1, hii⟩
    · cases hl : json.iterable_steps with
      | none => rw [hl] at hmem; exact absurd hmem (List.not_mem_nil _)
      | some l =>
          rw [hl] at hmem
          refine ⟨startEdgeFor
            (mkId p (json.steps.get ⟨p, hp⟩).sequence_order), ?_, rfl, rfl⟩
          refine List.mem_append.2 (Or.inl ?_)
          rw [iterEdges_some hl, if_pos hit]
          refine List.mem_filterMap.2
            ⟨(json.steps.get ⟨p, hp⟩).sequence_order, hmem, ?_⟩
          rw [seqLookup_nodup hnd hp]
          rfl
    · refine ⟨startEdgeFor
        (mkId p (json.steps.get ⟨p, hp⟩).sequence_order), ?_, rfl, rfl⟩
      have hmem : startEdgeFor
          (mkId p (json.steps.get ⟨p, hp⟩).sequence_order) ∈
          stepEdges json (json.steps.get ⟨p, hp⟩) := by
        rw [stepEdges_no_dep hdep0, if_pos h1,
          if_neg (by rw [hii]; exact Bool.false_ne_true),
          seqLookup_nodup hnd hp]
        exact List.mem_singleton.2 rfl
      exact List.mem_append.2 (Or.inr (List.mem_flatMap.2
        ⟨json.steps.get ⟨p, hp⟩, List.get_mem json.steps p hp, hmem⟩))

theorem flowStep_ext {a b : FlowStep}
    (h1 : a.sequence_order = b.sequence_order)
    (h2 : a.sequence_name = b.sequence_name)
    (h3 : a.type = b.type) (h4 : a.value = b.value)
    (h5 : a.depends_on = b.depends_on) (h6 : a.max_retry = b.max_retry)
    (h7 : a.append_iteration_column = b.append_iteration_column)
    (h8 : a.append_time_column = b.append_time_column)
    (h9 : a.time_range = b.time_range) (h10 : a.time_grain = b.time_grain)
    (h11 : a.time_mode = b.time_mode)
    (h12 : a.reference_date = b.reference_date)
    (h13 : a.llm_model = b.llm_model) : a = b := by
  cases a
  cases b
  simp only [FlowStep.mk.injEq]
  exact ⟨h1, h2, h3, h4, h5, h6, h7, h8, h9, h10, h11, h12, h13⟩

theorem mkNode_get_mem : ∀ (steps : List FlowStep) (k p : Nat)
    (hp : p < steps.length),
    mkNode (k + p) (steps.get ⟨p, hp⟩) ∈ buildNodes k steps := by
  intro steps
  induction steps with
  | nil => intro k p hp; exact absurd hp (by simp)
  | cons s rest ih =>
      intro k p hp
      cases p with
      | zero =>
          rw [Nat.add_zero]
          exact List.mem_cons_self _ _
      | succ p' =>
          have h2 := ih (k + 1) p' (Nat.lt_of_succ_lt_succ hp)
          have he : k + 1 + p' = k + (p' + 1) := by omega
          rw [he] at h2
          exact List.mem_cons_of_mem _ h2

theorem max_retry_roundtrip (y : Option Int) :
    (match (match y with
      | some m => if m = 0 then none else some m
      | none => none) with
      | some m => if m = 0 then none else some m
      | none => (none : Option Int)) =
    (match y with
      | some m => if m = 0 then none else some m
      | none => none) := by
  match y with
  | none => rfl
  | some m =>
      by_cases hm : m = 0
      · simp [hm]
      · simp [hm]

theorem sqlgate_roundtrip (ty : Option StepType) (v : Option String) :
    (if some (ty.getD .sql) = some StepType.sql then
      keepTruthyStr (if ty = some StepType.sql then keepTruthyStr v else none)
    else none) =
    (if ty = some StepType.sql then keepTruthyStr v else none) := by
  cases ty with
  | none => simp [keepTruthyStr]
  | some t => cases t <;> simp [keepTruthyStr_idem]

theorem llm_roundtrip (ty : Option StepType) (v : Option String) :
    (if some (ty.getD .sql) = some StepType.llm then
      keepTruthyStr (if ty = some StepType.llm then keepTruthyStr v else none)
    else none) =
    (if ty = some StepType.llm then keepTruthyStr v else none) := by
  cases ty with
  | none => simp
  | some t => cases t <;> simp [keepTruthyStr_idem]

theorem atc_roundtrip (ty : Option StepType) (atc : Option String) :
    (if (some (ty.getD .sql) = some StepType.sql) ∧
        strFieldTruthy (if (ty = some StepType.sql) ∧ strFieldTruthy atc = true
          then atc else none) = true then
      (if (ty = some StepType.sql) ∧ strFieldTruthy atc = true then atc
        else none)
    else none) =
    (if (ty = some StepType.sql) ∧ strFieldTruthy atc = true then atc
      else none) := by
  by_cases h : (ty = some StepType.sql) ∧ strFieldTruthy atc = true
  · rw [if_pos h]
    rw [if_pos (show (some (ty.getD .sql) = some StepType.sql) ∧
      strFieldTruthy atc = true from ⟨by rw [h.1]; rfl, h.2⟩)]
  · rw [if_neg h]
    simp [strFieldTruthy]

theorem atcSet_iff (ty : Option StepType) (atc : Option String) :
    ((some (ty.getD .sql) = some StepType.sql) ∧
      strFieldTruthy (if (ty = some StepType.sql) ∧ strFieldTruthy atc = true
        then atc else none) = true) ↔
    ((ty = some StepType.sql) ∧ strFieldTruthy atc = true) := by
  by_cases h : (ty = some StepType.sql) ∧ strFieldTruthy atc = true
  · rw [if_pos h]
    constructor
    · intro _; exact h
    · intro _; exact ⟨by rw [h.1]; rfl, h.2⟩
  · rw [if_neg h]
    constructor
    · rintro ⟨-, hc⟩
      exact absurd hc (by simp [strFieldTruthy])
    · intro hc
      exact absurd hc h

theorem gate_roundtrip {α : Type} (P Q : Prop) [Decidable P] [Decidable Q]
    (hiff : Q ↔ P) (y : Option α) :
    (if Q ∧ (if P ∧ y.isSome = true then y else none).isSome = true
      then (if P ∧ y.isSome = true then y else none) else none) =
    (if P ∧ y.isSome = true then y else none) := by
  by_cases hP : P ∧ y.isSome = true
  · rw [if_pos hP, if_pos (show Q ∧ y.isSome = true from ⟨hiff.2 hP.1, hP.2⟩)]
  · rw [if_neg hP]
    simp

/-- What `parseTimeFields` recovers from a compiled record: either the record
has no `time_range` and the grain passes through, or the `time_range` is the
rendered `last_<i>_<grain>s` string and both fields decode exactly. -/
theorem parseTimeFields_buildStep (ns : List FlowNode) (es : List FlowEdge)
    (X : FlowNode) :
    ((buildStep ns es X).time_range = none ∧
      parseTimeFields (buildStep ns es X) =
        (none, (buildStep ns es X).time_grain)) ∨
    (∃ i g, (buildStep ns es X).time_range = some (timeRangeStr (.int i) g) ∧
      (buildStep ns es X).time_grain = some g ∧
      parseTimeFields (buildStep ns es X) = (some (.int i), some g) ∧
      (((X.data.type = some StepType.sql) ∧
        strFieldTruthy X.data.append_time_column = true) ∧
        JsNum.truthy (.int i) = true)) := by
  have hshape : (buildStep ns es X).time_range =
      (match X.data.time_amount, X.data.time_grain with
        | some a, some g =>
            if ((X.data.type = some StepType.sql) ∧
                strFieldTruthy X.data.append_time_column = true) ∧
                a.truthy = true then
              some (timeRangeStr a g)
            else none
        | _, _ => none) := rfl
  cases hta : X.data.time_amount with
  | none =>
      have h1 : (buildStep ns es X).time_range = none := by
        rw [hshape, hta]
      exact Or.inl ⟨h1, parseTimeFields_none h1⟩
  | some a =>
      cases htg : X.data.time_grain with
      | none =>
          have h1 : (buildStep ns es X).time_range = none := by
            rw [hshape, hta, htg]
          exact Or.inl ⟨h1, parseTimeFields_none h1⟩
      | some g =>
          by_cases hcond : ((X.data.type = some StepType.sql) ∧
              strFieldTruthy X.data.append_time_column = true) ∧
              a.truthy = true
          · cases a with
            | nan => exact absurd hcond.2 (by decide)
            | int i =>
                have h1 : (buildStep ns es X).time_range =
                    some (timeRangeStr (.int i) g) := by
                  rw [hshape, hta, htg]
                  exact if_pos hcond
                have h2 : (buildStep ns es X).time_grain = some g := by
                  show (if ((X.data.type = some StepType.sql) ∧
                      strFieldTruthy X.data.append_time_column = true) ∧
                      X.data.time_grain.isSome = true then X.data.time_grain
                    else none) = some g
                  rw [htg]
                  exact if_pos ⟨hcond.1, rfl⟩
                exact Or.inr ⟨i, g, h1, h2, parseTimeFields_timeRange h1,
                  hcond⟩
          · have h1 : (buildStep ns es X).time_range = none := by
              rw [hshape, hta, htg]
              exact if_neg hcond
            exact Or.inl ⟨h1, parseTimeFields_none h1⟩

/-- Re-compiling a node rebuilt from a compiled record reproduces every field
of the record except possibly `depends_on` (which depends on the surrounding
graph). -/
theorem buildStep_roundtrip_nodep (ns : List FlowNode) (es : List FlowEdge)
    (ns2 : List FlowNode) (es2 : List FlowEdge) (p : Nat) (X : FlowNode)
    (hlab : X.data.label ≠ "") :
    buildStep ns2 es2 (mkNode p (buildStep ns es X)) =
      { buildStep ns es X with
        depends_on :=
          (buildStep ns2 es2 (mkNode p (buildStep ns es X))).depends_on } := by
  have hpg : (parseTimeFields (buildStep ns es X)).2 =
      (buildStep ns es X).time_grain := by
    rcases parseTimeFields_buildStep ns es X with ⟨h1, hparse⟩ |
      ⟨i, g, h1, h2, hparse, hcond⟩
    · rw [hparse]
    · rw [hparse, h2]
  refine flowStep_ext rfl ?_ rfl rfl rfl ?_ ?_ ?_ ?_ ?_ ?_ ?_ ?_
  · show (if (buildStep ns es X).sequence_name = "" then
        String.mk ("Step ".data ++ intRepr (buildStep ns es X).sequence_order)
      else (buildStep ns es X).sequence_name) =
      (buildStep ns es X).sequence_name
    exact if_neg hlab
  · exact max_retry_roundtrip X.data.max_retry
  · exact sqlgate_roundtrip X.data.type X.data.append_iteration_column
  · exact atc_roundtrip X.data.type X.data.append_time_column
  · rcases parseTimeFields_buildStep ns es X with ⟨h1, hparse⟩ |
      ⟨i, g, h1, h2, hparse, hcond⟩
    · show (match (parseTimeFields (buildStep ns es X)).1,
          (parseTimeFields (buildStep ns es X)).2 with
        | some a, some g =>
            if ((some (X.data.type.getD .sql) = some StepType.sql) ∧
                strFieldTruthy (buildStep ns es X).append_time_column = true) ∧
                a.truthy = true then
              some (timeRangeStr a g)
            else none
        | _, _ => none) = (buildStep ns es X).time_range
      rw [hparse, h1]
    · show (match (parseTimeFields (buildStep ns es X)).1,
          (parseTimeFields (buildStep ns es X)).2 with
        | some a, some g =>
            if ((some (X.data.type.getD .sql) = some StepType.sql) ∧
                strFieldTruthy (buildStep ns es X).append_time_column = true) ∧
                a.truthy = true then
              some (timeRangeStr a g)
            else none
        | _, _ => none) = (buildStep ns es X).time_range
      rw [hparse, h1]
      exact if_pos ⟨(atcSet_iff X.data.type X.data.append_time_column).2
        hcond.1, hcond.2⟩
  · show (if ((some (X.data.type.getD .sql) = some StepType.sql) ∧
        strFieldTruthy (buildStep ns es X).append_time_column = true) ∧
        ((parseTimeFields (buildStep ns es X)).2).isSome = true then
      (parseTimeFields (buildStep ns es X)).2 else none) =
      (buildStep ns es X).time_grain
    rw [hpg]
    exact gate_roundtrip
      ((X.data.type = some StepType.sql) ∧
        strFieldTruthy X.data.append_time_column = true)
      ((some (X.data.type.getD .sql) = some StepType.sql) ∧
        strFieldTruthy (buildStep ns es X).append_time_column = true)
      (atcSet_iff X.data.type X.data.append_time_column) X.data.time_grain
  · exact gate_roundtrip
      ((X.data.type = some StepType.sql) ∧
        strFieldTruthy X.data.append_time_column = true)
      ((some (X.data.type.getD .sql) = some StepType.sql) ∧
        strFieldTruthy (buildStep ns es X).append_time_column = true)
      (atcSet_iff X.data.type X.data.append_time_column) X.data.time_mode
  · exact sqlgate_roundtrip X.data.type X.data.reference_date
  · exact llm_roundtrip X.data.type X.data.llm_model

theorem dependsOnOrdersOf_sorted (ns : List FlowNode) (es : List FlowEdge)
    (X : FlowNode) : (dependsOnOrdersOf ns es X).Pairwise (· ≤ ·) := by
  have htot : ∀ a b : Int, (decide (a ≤ b) || decide (b ≤ a)) = true := by
    intro a b
    rcases Int.le_total a b with h | h <;> simp [h]
  have htr : ∀ a b c : Int, decide (a ≤ b) = true → decide (b ≤ c) = true →
      decide (a ≤ c) = true := by
    intro a b c hab hbc
    exact decide_eq_true (le_trans (of_decide_eq_true hab)
      (of_decide_eq_true hbc))
  have h := @stableSort_pairwise Int (fun a b : Int => decide (a ≤ b)) htot htr
    ((ns.filter fun n =>
      ((es.filter fun e => e.target == X.id && e.source != "start").map
        (fun e => e.source)).contains n.id && !n.data.isStartNode).map
      (fun n => n.data.sequence_order))
  exact h.imp fun hab => of_decide_eq_true hab

theorem dependsOnOrdersOf_nodup {ns : List FlowNode}
    (hnd : ((ns.filter fun n => !n.data.isStartNode).map
      fun n => n.data.sequence_order).Nodup)
    (es : List FlowEdge) (X : FlowNode) :
    (dependsOnOrdersOf ns es X).Nodup := by
  refine ((stableSort_perm _ _).nodup_iff).2 ?_
  have hff : (ns.filter fun n =>
      ((es.filter fun e => e.target == X.id && e.source != "start").map
        (fun e => e.source)).contains n.id && !n.data.isStartNode) =
      ((ns.filter fun n => !n.data.isStartNode).filter fun n =>
        ((es.filter fun e => e.target == X.id && e.source != "start").map
          (fun e => e.source)).contains n.id) := by
    rw [List.filter_filter]
  rw [hff]
  exact List.Nodup.sublist
    (List.Sublist.map _ (List.filter_sublist _)) hnd

/-- **C1** (corrected).  Second-pass fixed point under the conditions the
code actually needs: a nonempty flow name, nonempty labels and pairwise
distinct sequence_orders among the step nodes, and every step node without an
effective non-start predecessor carrying sequence_order 1 (plus an explicit
start edge when iteration is on).  Compiling, reconstructing, and compiling
again then reproduces the document field for field. -/
theorem second_pass_fixed_point (nodes : List FlowNode) (edges : List FlowEdge)
    (cfg : GlobalConfig)
    (hname : cfg.flowName ≠ "")
    (hlabel : ∀ n ∈ nodes, n.data.isStartNode = false → n.data.label ≠ "")
    (hnd : ((nodes.filter fun n => !n.data.isStartNode).map
      fun n => n.data.sequence_order).Nodup)
    (hpred : ∀ n ∈ nodes, n.data.isStartNode = false →
      dependsOnOrdersOf nodes edges n = [] →
      n.data.sequence_order = 1 ∧
      (cfg.iterateFlow = true →
        (edges.any fun e => e.source == "start" && e.target == n.id) =
          true)) :
    compileFlow (restoreFlow (compileFlow nodes edges cfg)).nodes
      (restoreFlow (compileFlow nodes edges cfg)).edges
      (restoreFlow (compileFlow nodes edges cfg)).config =
    compileFlow nodes edges cfg := by
  set D1 := compileFlow nodes edges cfg with hD1
  set SS := stableSort nodeLe (nodes.filter fun n => !n.data.isStartNode)
    with hSSdef
  have hD1steps : D1.steps = SS.map (buildStep nodes edges) := rfl
  have hSSperm : SS.Perm (nodes.filter fun n => !n.data.isStartNode) :=
    stableSort_perm _ _
  have hSSpw : SS.Pairwise (fun a b => nodeLe a b = true) :=
    stableSort_pairwise nodeLe_total nodeLe_trans _
  have hordersD1 : D1.steps.map (fun s => s.sequence_order) =
      SS.map (fun n => n.data.sequence_order) := by
    rw [hD1steps, List.map_map]
    rfl
  have hndD1 : (D1.steps.map fun s => s.sequence_order).Nodup := by
    rw [hordersD1]
    exact ((hSSperm.map _).nodup_iff).2 hnd
  have hlenD1 : D1.steps.length = SS.length := by
    rw [hD1steps]
    simp
  have hSSnodes : ∀ {Y : FlowNode}, Y ∈ SS →
      Y ∈ nodes ∧ Y.data.isStartNode = false := by
    intro Y hY
    obtain ⟨hmem, hcond⟩ := List.mem_filter.1 (hSSperm.subset hY)
    exact ⟨hmem, by simpa using hcond⟩
  have hgetX : ∀ (p : Nat) (hp : p < D1.steps.length),
      ∃ hp' : p < SS.length,
        D1.steps.get ⟨p, hp⟩ = buildStep nodes edges (SS.get ⟨p, hp'⟩) := by
    intro p hp
    have hp' : p < SS.length := by rw [← hlenD1]; exact hp
    refine ⟨hp', ?_⟩
    have h1 := List.get_of_eq hD1steps ⟨p, hp⟩
    rw [h1, List.get_map]
  have hjoin_ne : ∀ {l : List Int}, l ≠ [] →
      joinSep ',' (l.map intRepr) ≠ [] := by
    intro l hl
    cases l with
    | nil => exact absurd rfl hl
    | cons a l' => exact joinSep_ne_nil (intRepr_ne_nil a)
  have hdep_none_iff : ∀ (Y : FlowNode),
      (buildStep nodes edges Y).depends_on = none ↔
        dependsOnOrdersOf nodes edges Y = [] := by
    intro Y
    show (if joinSep ',' ((dependsOnOrdersOf nodes edges Y).map intRepr) = []
        then none
        else some (DependsOn.str (String.mk
          (joinSep ',' ((dependsOnOrdersOf nodes edges Y).map intRepr))))) =
        none ↔ _
    by_cases hd : dependsOnOrdersOf nodes edges Y = []
    · rw [hd]
      simp [joinSep]
    · rw [if_neg (hjoin_ne hd)]
      simp [hd]
  have hdep_some : ∀ (Y : FlowNode), dependsOnOrdersOf nodes edges Y ≠ [] →
      (buildStep nodes edges Y).depends_on =
        some (.str (String.mk
          (joinSep ',' ((dependsOnOrdersOf nodes edges Y).map intRepr)))) := by
    intro Y hd
    show (if joinSep ',' ((dependsOnOrdersOf nodes edges Y).map intRepr) = []
        then none
        else some (DependsOn.str (String.mk
          (joinSep ',' ((dependsOnOrdersOf nodes edges Y).map intRepr))))) = _
    rw [if_neg (hjoin_ne hd)]
  have hfilterR : (restoreFlow D1).nodes.filter
      (fun n => !n.data.isStartNode) = buildNodes 0 D1.steps := by
    show (startNode :: buildNodes 0 D1.steps).filter
      (fun n => !n.data.isStartNode) = _
    rw [List.filter_cons,
      if_neg (show ¬((!startNode.data.isStartNode) = true) by decide)]
    refine List.filter_eq_self.mpr ?_
    intro n hn
    obtain ⟨q, hq, rfl⟩ := buildNodes_mem_ex _ _ hn
    rfl
  have hD1pw : D1.steps.Pairwise
      (fun a b : FlowStep => a.sequence_order ≤ b.sequence_order) := by
    rw [hD1steps, List.pairwise_map]
    exact hSSpw.imp fun hab => of_decide_eq_true hab
  have hBNpw : (buildNodes 0 D1.steps).Pairwise
      (fun a b => nodeLe a b = true) := by
    have h2 : ((buildNodes 0 D1.steps).map
        fun n => n.data.sequence_order).Pairwise (· ≤ ·) := by
      rw [buildNodes_map_order]
      exact (List.pairwise_map).2 hD1pw
    exact ((List.pairwise_map).1 h2).imp fun hab => decide_eq_true hab
  have hsort2 : stableSort nodeLe
      ((restoreFlow D1).nodes.filter fun n => !n.data.isStartNode) =
      buildNodes 0 D1.steps := by
    rw [hfilterR]
    exact stableSort_of_sorted hBNpw
  have hndR : (((restoreFlow D1).nodes.filter
      fun n => !n.data.isStartNode).map
      fun n => n.data.sequence_order).Nodup := by
    rw [hfilterR, buildNodes_map_order]
    exact hndD1
  have hcore : ∀ (p : Nat) (hp : p < D1.steps.length),
      buildStep (restoreFlow D1).nodes (restoreFlow D1).edges
        (mkNode p (D1.steps.get ⟨p, hp⟩)) = D1.steps.get ⟨p, hp⟩ := by
    intro p hp
    obtain ⟨hp', hs⟩ := hgetX p hp
    obtain ⟨hXmem, hXns⟩ := hSSnodes (List.get_mem SS p hp')
    have hlab := hlabel _ hXmem hXns
    rw [hs, buildStep_roundtrip_nodep _ _ _ _ _ _ hlab]
    refine flowStep_ext rfl rfl rfl rfl ?_ rfl rfl rfl rfl rfl rfl rfl rfl
    show (buildStep (restoreFlow D1).nodes (restoreFlow D1).edges
        (mkNode p (buildStep nodes edges (SS.get ⟨p, hp'⟩)))).depends_on =
      (buildStep nodes edges (SS.get ⟨p, hp'⟩)).depends_on
    have hdef2 : (buildStep (restoreFlow D1).nodes (restoreFlow D1).edges
        (mkNode p (buildStep nodes edges (SS.get ⟨p, hp'⟩)))).depends_on =
        (if joinSep ',' ((dependsOnOrdersOf (restoreFlow D1).nodes
            (restoreFlow D1).edges
            (mkNode p (buildStep nodes edges (SS.get ⟨p, hp'⟩)))).map intRepr)
          = [] then none
        else some (.str (String.mk (joinSep ','
          ((dependsOnOrdersOf (restoreFlow D1).nodes (restoreFlow D1).edges
            (mkNode p (buildStep nodes edges
              (SS.get ⟨p, hp'⟩)))).map intRepr))))) := rfl
    have hdef1 : (buildStep nodes edges (SS.get ⟨p, hp'⟩)).depends_on =
        (if joinSep ',' ((dependsOnOrdersOf nodes edges
            (SS.get ⟨p, hp'⟩)).map intRepr) = [] then none
        else some (.str (String.mk (joinSep ','
          ((dependsOnOrdersOf nodes edges
            (SS.get ⟨p, hp'⟩)).map intRepr))))) := rfl
    suffices hdo : dependsOnOrdersOf (restoreFlow D1).nodes
        (restoreFlow D1).edges
        (mkNode p (buildStep nodes edges (SS.get ⟨p, hp'⟩))) =
        dependsOnOrdersOf nodes edges (SS.get ⟨p, hp'⟩) by
      rw [hdef2, hdef1, hdo]
    have hsorted2 := dependsOnOrdersOf_sorted (restoreFlow D1).nodes
      (restoreFlow D1).edges
      (mkNode p (buildStep nodes edges (SS.get ⟨p, hp'⟩)))
    have hsorted1 := dependsOnOrdersOf_sorted nodes edges (SS.get ⟨p, hp'⟩)
    have hnodup1 : (dependsOnOrdersOf nodes edges (SS.get ⟨p, hp'⟩)).Nodup :=
      dependsOnOrdersOf_nodup hnd edges (SS.get ⟨p, hp'⟩)
    have hnodup2 := dependsOnOrdersOf_nodup hndR (restoreFlow D1).edges
      (mkNode p (buildStep nodes edges (SS.get ⟨p, hp'⟩)))
    refine List.eq_of_perm_of_sorted
      ((List.perm_ext_iff_of_nodup hnodup2 hnodup1).2 ?_) hsorted2 hsorted1
    intro o
    constructor
    · intro ho
      obtain ⟨n, hnmem, hnns, hnord, e, hee, htgt, hsrc, hesrc⟩ :=
        mem_dependsOnOrdersOf.1 ho
      have htgt' : e.target =
          mkId p (D1.steps.get ⟨p, hp⟩).sequence_order := by
        rw [hs]
        exact htgt
      rcases restore_incoming_nonstart hndD1 hp hee htgt' hsrc with
        ⟨dep, hdepS, o'', ho'', q, hq, hordq, heq⟩ | ⟨hdep0, hne1, -⟩
      · have hdepBX : (buildStep nodes edges
            (SS.get ⟨p, hp'⟩)).depends_on = some dep := by
          rw [← hs]
          exact hdepS
        by_cases hd1 : dependsOnOrdersOf nodes edges (SS.get ⟨p, hp'⟩) = []
        · rw [(hdep_none_iff _).2 hd1] at hdepBX
          exact Option.noConfusion hdepBX
        · have hdep_eq : DependsOn.str (String.mk (joinSep ','
              ((dependsOnOrdersOf nodes edges
                (SS.get ⟨p, hp'⟩)).map intRepr))) = dep :=
            Option.some.inj ((hdep_some _ hd1).symm.trans hdepBX)
          have hparse : parseDeps dep =
              (dependsOnOrdersOf nodes edges
                (SS.get ⟨p, hp'⟩)).map JsNum.int := by
            rw [← hdep_eq]
            exact parseDeps_joined _ hd1
          rw [hparse] at ho''
          obtain ⟨o₀, ho₀, ho₀eq⟩ := List.mem_map.1 ho''
          have ho0eq : o₀ = o'' := JsNum.int.inj ho₀eq
          rcases List.mem_cons.1 hnmem with hn_start | hn_bn
          · exact absurd (hn_start ▸ hnns) (by decide)
          · obtain ⟨q₂, hq₂, rfl⟩ := buildNodes_mem_ex _ _ hn_bn
            have hids : mkId q o'' =
                mkId (0 + q₂) (D1.steps.get ⟨q₂, hq₂⟩).sequence_order := by
              rw [heq] at hesrc
              exact hesrc
            obtain ⟨-, hoo⟩ := mkId_injective hids
            have hno : (D1.steps.get ⟨q₂, hq₂⟩).sequence_order = o := hnord
            have : o₀ = o := ho0eq.trans (hoo.trans hno)
            exact this ▸ ho₀
      · have hdepBX : (buildStep nodes edges
            (SS.get ⟨p, hp'⟩)).depends_on = none := by
          rw [← hs]
          exact hdep0
        have hd1 := (hdep_none_iff _).1 hdepBX
        have hX1 := (hpred _ hXmem hXns hd1).1
        refine absurd ?_ hne1
        show (D1.steps.get ⟨p, hp⟩).sequence_order = 1
        rw [hs]
        exact hX1
    · intro ho
      have hd1ne : dependsOnOrdersOf nodes edges (SS.get ⟨p, hp'⟩) ≠ [] := by
        intro hnil
        rw [hnil] at ho
        exact absurd ho (List.not_mem_nil o)
      have hdepS : (D1.steps.get ⟨p, hp⟩).depends_on =
          some (.str (String.mk (joinSep ','
            ((dependsOnOrdersOf nodes edges
              (SS.get ⟨p, hp'⟩)).map intRepr)))) := by
        rw [hs]
        exact hdep_some _ hd1ne
      have hoD1 : o ∈ D1.steps.map (fun s => s.sequence_order) := by
        rw [hordersD1]
        obtain ⟨n₀, hn₀, hn₀ns, hn₀ord, -⟩ := mem_dependsOnOrdersOf.1 ho
        refine List.mem_map.2 ⟨n₀, ?_, hn₀ord⟩
        exact (hSSperm.mem_iff).2 (List.mem_filter.2 ⟨hn₀, by simp [hn₀ns]⟩)
      obtain ⟨sq, hsqmem, hsqord⟩ := List.mem_map.1 hoD1
      obtain ⟨⟨q, hq⟩, rfl⟩ := List.mem_iff_get.1 hsqmem
      have ho'' : JsNum.int o ∈ parseDeps (.str (String.mk (joinSep ','
          ((dependsOnOrdersOf nodes edges
            (SS.get ⟨p, hp'⟩)).map intRepr)))) := by
        rw [parseDeps_joined _ hd1ne]
        exact List.mem_map.2 ⟨o, ho, rfl⟩
      have hedge := restore_dep_edge_mem hndD1 hp hdepS ho'' hq hsqord
      refine mem_dependsOnOrdersOf.2
        ⟨mkNode q (D1.steps.get ⟨q, hq⟩), ?_, rfl, hsqord,
          depEdgeFor (mkId q o)
            (mkId p (D1.steps.get ⟨p, hp⟩).sequence_order),
          hedge, ?_, mkId_ne_start q o, ?_⟩
      · have h2 := mkNode_get_mem D1.steps 0 q hq
        rw [Nat.zero_add] at h2
        exact List.mem_cons_of_mem _ h2
      · show mkId p (D1.steps.get ⟨p, hp⟩).sequence_order =
          (mkNode p (buildStep nodes edges (SS.get ⟨p, hp'⟩))).id
        rw [hs]
        rfl
      · show mkId q o = mkId q (D1.steps.get ⟨q, hq⟩).sequence_order
        rw [hsqord]
  have hsteps : (compileFlow (restoreFlow D1).nodes (restoreFlow D1).edges
      (restoreFlow D1).config).steps = D1.steps := by
    show (stableSort nodeLe ((restoreFlow D1).nodes.filter
        fun n => !n.data.isStartNode)).map
        (buildStep (restoreFlow D1).nodes (restoreFlow D1).edges) = D1.steps
    rw [hsort2]
    refine List.ext_get (by simp [buildNodes_length]) ?_
    intro n h1 h2
    rw [List.get_map, buildNodes_get D1.steps 0 n (by simpa using h1) h2,
      Nat.zero_add]
    exact hcore n h2
  set it1 := (SS.filter fun n =>
    edges.any fun e => e.source == "start" && e.target == n.id).map
    (fun n => n.data.sequence_order) with hit1def
  have hiterable : (compileFlow (restoreFlow D1).nodes (restoreFlow D1).edges
      (restoreFlow D1).config).iterable_steps = D1.iterable_steps := by
    show (if cfg.iterateFlow = true then
        some (((stableSort nodeLe ((restoreFlow D1).nodes.filter
          fun n => !n.data.isStartNode)).filter fun n =>
            (restoreFlow D1).edges.any fun e =>
              e.source == "start" && e.target == n.id).map
          (fun n => n.data.sequence_order))
      else none) = D1.iterable_steps
    by_cases hit : cfg.iterateFlow = true
    · rw [if_pos hit, hsort2]
      have hD1it : D1.iterable_steps = some it1 := by
        show (if cfg.iterateFlow = true then some it1 else none) = some it1
        rw [if_pos hit]
      rw [hD1it]
      refine congrArg some ?_
      have hpt : ∀ n ∈ buildNodes 0 D1.steps,
          ((restoreFlow D1).edges.any fun e =>
            e.source == "start" && e.target == n.id) =
          decide (n.data.sequence_order ∈ it1) := by
        intro n hn
        obtain ⟨q, hq, rfl⟩ := buildNodes_mem_ex _ _ hn
        refine Bool.coe_iff_coe.mp ?_
        rw [decide_eq_true_eq, List.any_eq_true]
        have hAiff : (∃ e ∈ (restoreFlow D1).edges,
            (e.source == "start" && e.target ==
              (mkNode (0 + q) (D1.steps.get ⟨q, hq⟩)).id) = true) ↔
            (∃ e ∈ (restoreFlow D1).edges, e.source = "start" ∧
              e.target =
                mkId q (D1.steps.get ⟨q, hq⟩).sequence_order) := by
          constructor
          · rintro ⟨e, he, hcond⟩
            rw [Bool.and_eq_true, beq_iff_eq, beq_iff_eq] at hcond
            refine ⟨e, he, hcond.1, ?_⟩
            rw [hcond.2]
            show (mkNode (0 + q) (D1.steps.get ⟨q, hq⟩)).id = _
            rw [Nat.zero_add]
            rfl
          · rintro ⟨e, he, h1, h2⟩
            refine ⟨e, he, ?_⟩
            rw [Bool.and_eq_true, beq_iff_eq, beq_iff_eq]
            refine ⟨h1, ?_⟩
            rw [h2]
            show mkId q (D1.steps.get ⟨q, hq⟩).sequence_order =
              (mkNode (0 + q) (D1.steps.get ⟨q, hq⟩)).id
            rw [Nat.zero_add]
            rfl
        rw [hAiff, restore_start_edge_iff hndD1 hq]
        have hordfact : (mkNode (0 + q)
            (D1.steps.get ⟨q, hq⟩)).data.sequence_order =
            (D1.steps.get ⟨q, hq⟩).sequence_order := rfl
        rw [hordfact]
        constructor
        · intro h
          rcases h with ⟨-, hmem⟩ | ⟨hdep0, -, -⟩
          · rw [hD1it] at hmem
            simpa using hmem
          · obtain ⟨hq', hsq⟩ := hgetX q hq
            obtain ⟨hQmem, hQns⟩ := hSSnodes (List.get_mem SS q hq')
            have hdepBX : (buildStep nodes edges
                (SS.get ⟨q, hq'⟩)).depends_on = none := by
              rw [← hsq]
              exact hdep0
            have hd1 := (hdep_none_iff _).1 hdepBX
            have hstart := (hpred _ hQmem hQns hd1).2 hit
            refine List.mem_map.2 ⟨SS.get ⟨q, hq'⟩,
              List.mem_filter.2 ⟨List.get_mem SS q hq', hstart⟩, ?_⟩
            have : (D1.steps.get ⟨q, hq⟩).sequence_order =
                (SS.get ⟨q, hq'⟩).data.sequence_order := by
              rw [hsq]
              rfl
            rw [this]
        · intro hC
          left
          refine ⟨hit, ?_⟩
          rw [hD1it]
          simpa using hC
      rw [List.filter_congr hpt]
      have hcomm : ∀ (l : List FlowNode),
          ((l.filter (fun n => decide (n.data.sequence_order ∈ it1))).map
            (fun n => n.data.sequence_order)) =
          (l.map (fun n => n.data.sequence_order)).filter
            (fun o => decide (o ∈ it1)) := by
        intro l
        induction l with
        | nil => rfl
        | cons x xs ih =>
            rw [List.map_cons, List.filter_cons, List.filter_cons]
            by_cases hx : x.data.sequence_order ∈ it1
            · have hc : decide (x.data.sequence_order ∈ it1) = true := by
                simp [hx]
              rw [if_pos hc, if_pos hc, List.map_cons, ih]
            · have hc : ¬(decide (x.data.sequence_order ∈ it1) = true) := by
                simp [hx]
              rw [if_neg hc, if_neg hc]
              exact ih
      rw [hcomm, buildNodes_map_order]
      refine filter_mem_sublist ?_ hndD1
      rw [hordersD1, hit1def]
      exact List.Sublist.map _ (List.filter_sublist _)
    · rw [if_neg hit]
      have hD1it : D1.iterable_steps = none := by
        show (if cfg.iterateFlow = true then some it1 else none) = none
        rw [if_neg hit]
      rw [hD1it]
  have hgil : (compileFlow (restoreFlow D1).nodes (restoreFlow D1).edges
      (restoreFlow D1).config).get_iterate_list = D1.get_iterate_list := by
    show (if cfg.iterateFlow = true then
        some (D1.get_iterate_list.getD "") else none) = D1.get_iterate_list
    by_cases hit : cfg.iterateFlow = true
    · rw [if_pos hit]
      have hD1g : D1.get_iterate_list = some cfg.getIterateList := by
        show (if cfg.iterateFlow = true then some cfg.getIterateList
          else none) = _
        rw [if_pos hit]
      rw [hD1g]
      rfl
    · rw [if_neg hit]
      have hD1g : D1.get_iterate_list = none := by
        show (if cfg.iterateFlow = true then some cfg.getIterateList
          else none) = none
        rw [if_neg hit]
      rw [hD1g]
  have hflowname : (compileFlow (restoreFlow D1).nodes (restoreFlow D1).edges
      (restoreFlow D1).config).flow_name = D1.flow_name := by
    show (if D1.flow_name = "" then "Imported Flow" else D1.flow_name) =
      D1.flow_name
    rw [show D1.flow_name = cfg.flowName from rfl, if_neg hname]
  exact flowJson_ext hflowname rfl hiterable hgil hsteps

/-- Witness for C1 at a concrete two-step graph: a SQL step of order 1
(start-connected implicitly by fallback) feeding a concat step of order 2. -/
theorem second_pass_fixed_point_witness :
    compileFlow
        (restoreFlow (compileFlow
          [startNode,
           { id := "a", data := { label := "A", sequence_order := 1,
                                  type := some .sql, value := "q" } },
           { id := "b", data := { label := "B", sequence_order := 2,
                                  type := some .concat, value := "c" } }]
          [⟨"e1", "a", "b"⟩]
          { iterateFlow := false, getIterateList := "",
            flowName := "My Flow" })).nodes
        (restoreFlow (compileFlow
          [startNode,
           { id := "a", data := { label := "A", sequence_order := 1,
                                  type := some .sql, value := "q" } },
           { id := "b", data := { label := "B", sequence_order := 2,
                                  type := some .concat, value := "c" } }]
          [⟨"e1", "a", "b"⟩]
          { iterateFlow := false, getIterateList := "",
            flowName := "My Flow" })).edges
        (restoreFlow (compileFlow
          [startNode,
           { id := "a", data := { label := "A", sequence_order := 1,
                                  type := some .sql, value := "q" } },
           { id := "b", data := { label := "B", sequence_order := 2,
                                  type := some .concat, value := "c" } }]
          [⟨"e1", "a", "b"⟩]
          { iterateFlow := false, getIterateList := "",
            flowName := "My Flow" })).config =
      compileFlow
        [startNode,
         { id := "a", data := { label := "A", sequence_order := 1,
                                type := some .sql, value := "q" } },
         { id := "b", data := { label := "B", sequence_order := 2,
                                type := some .concat, value := "c" } }]
        [⟨"e1", "a", "b"⟩]
        { iterateFlow := false, getIterateList := "",
          flowName := "My Flow" } := by
  exact second_pass_fixed_point
    [startNode,
     { id := "a", data := { label := "A", sequence_order := 1,
                            type := some .sql, value := "q" } },
     { id := "b", data := { label := "B", sequence_order := 2,
                            type := some .concat, value := "c" } }]
    [⟨"e1", "a", "b"⟩]
    { iterateFlow := false, getIterateList := "", flowName := "My Flow" }
    (by decide) (by decide) (by decide) (by decide)

end FlowBuilder
